import Mathlib

/-!
Verification of the rolldown core module graph and linker
(`crates/rolldown_core/src/graph.rs`, `crates/rolldown_resolver/src/lib.rs`).

The data model and the two linking passes (`link_exports`, `link_imports`),
the execution-order pass (`sort_modules`), the missing-export shim and the
path resolver are embedded as executable Lean functions.  Hash maps of the
source become association lists whose `lkp` returns the first matching key
and whose `upsert` replaces in place, so key lookup has exactly the map
semantics of the source.  Hash sets iterated by the source become lists with
insertion-order iteration.  Helper types and methods of `rolldown_common`
and `normal_module.rs` (which only have their callers in scope here) are
modelled from the specification and are marked as such in their doc
comments.
-/

namespace Rolldown

/-- Module id: a path-or-specifier string plus an `external` bit
(spec section 3, `rolldown_common::ModuleId`). -/
structure ModuleId where
  path : String
  external : Bool
deriving DecidableEq, Repr

/-- Symbol: `(owner module, name, disambiguator)`; equality is componentwise
(spec section 3, `rolldown_common::Symbol`). -/
structure Symbol where
  owner : ModuleId
  name : String
  disamb : Nat
deriving DecidableEq, Repr

/-- Imported specifier `{ imported, imported_as }` (spec section 3). -/
structure ImportedSpecifier where
  imported : String
  imported_as : Symbol
deriving DecidableEq, Repr

/-- Exported specifier `{ exported_as, local_id, owner }` (spec section 3). -/
structure ExportedSpecifier where
  exported_as : String
  local_id : Symbol
  owner : ModuleId
deriving DecidableEq, Repr

/-- Modelled from the spec: the specifier of `export { imported as exported_as }
from ...` entries (`re_exported_ids`); its fields are exactly the ones the
linker reads (`spec.imported`, `spec.exported_as` in `graph.rs`). -/
structure ReExportedSpecifier where
  imported : String
  exported_as : String
deriving DecidableEq, Repr

/-- Association-list lookup returning the first matching key: the shallow
model of hash-map indexing. -/
def lkp {κ α : Type} [DecidableEq κ] (k : κ) : List (κ × α) → Option α
  | [] => none
  | (k', v) :: rest => if k' = k then some v else lkp k rest

/-- Association-list insert-or-replace in place: the shallow model of
hash-map insertion. -/
def upsert {κ α : Type} [DecidableEq κ] (k : κ) (v : α) : List (κ × α) → List (κ × α)
  | [] => [(k, v)]
  | (k', v') :: rest => if k' = k then (k, v) :: rest else (k', v') :: upsert k v rest

/-- Hash-set `get_or_insert`: append the element unless already present. -/
def getOrInsert {α : Type} [DecidableEq α] (l : List α) (x : α) : List α :=
  if x ∈ l then l else l ++ [x]

theorem lkp_upsert {κ α : Type} [DecidableEq κ] (k k' : κ) (v : α) (l : List (κ × α)) :
    lkp k' (upsert k v l) = if k' = k then some v else lkp k' l := by
  induction l with
  | nil =>
    by_cases h : k' = k
    · subst h
      simp [upsert, lkp]
    · have h2 : ¬ k = k' := fun hh => h hh.symm
      simp [upsert, lkp, h, h2]
  | cons p rest ih =>
    obtain ⟨a, b⟩ := p
    by_cases hak : a = k
    · subst hak
      by_cases h : k' = a
      · subst h
        simp [upsert, lkp]
      · have h2 : ¬ a = k' := fun hh => h hh.symm
        simp [upsert, lkp, h, h2]
    · by_cases h2 : a = k'
      · subst h2
        have h3 : ¬ a = k := hak
        simp [upsert, lkp, hak, h3]
      · simp [upsert, lkp, hak, h2, ih]

theorem lkp_upsert_same {κ α : Type} [DecidableEq κ] (k : κ) (v : α) (l : List (κ × α)) :
    lkp k (upsert k v l) = some v := by
  simp [lkp_upsert]

theorem lkp_upsert_other {κ α : Type} [DecidableEq κ] {k k' : κ} (h : k' ≠ k) (v : α)
    (l : List (κ × α)) : lkp k' (upsert k v l) = lkp k' l := by
  simp [lkp_upsert, h]

theorem keys_upsert {κ α : Type} [DecidableEq κ] (k : κ) (v : α) (l : List (κ × α)) :
    (upsert k v l).map Prod.fst = if k ∈ l.map Prod.fst then l.map Prod.fst
      else l.map Prod.fst ++ [k] := by
  induction l with
  | nil => simp [upsert]
  | cons p rest ih =>
    obtain ⟨a, b⟩ := p
    by_cases hak : a = k
    · subst hak
      simp [upsert]
    · have h2 : ¬ k = a := fun hh => hak hh.symm
      simp only [upsert, if_neg hak, List.map_cons, List.mem_cons, h2, false_or, ih]
      by_cases hmem : k ∈ rest.map Prod.fst <;> simp [hmem]

theorem keys_upsert_nodup {κ α : Type} [DecidableEq κ] (k : κ) (v : α) (l : List (κ × α))
    (h : (l.map Prod.fst).Nodup) : ((upsert k v l).map Prod.fst).Nodup := by
  rw [keys_upsert]
  by_cases hmem : k ∈ l.map Prod.fst
  · simpa [hmem]
  · rw [if_neg hmem]
    refine List.Nodup.append h (List.nodup_singleton k) ?_
    intro x hx hx2
    simp only [List.mem_singleton] at hx2
    subst hx2
    exact hmem hx

theorem lkp_none_of_not_mem_keys {κ α : Type} [DecidableEq κ] {k : κ} {l : List (κ × α)}
    (h : k ∉ l.map Prod.fst) : lkp k l = none := by
  induction l with
  | nil => rfl
  | cons p rest ih =>
    obtain ⟨a, b⟩ := p
    simp only [List.map_cons, List.mem_cons] at h
    push_neg at h
    have h2 : ¬ a = k := fun hh => h.1 hh.symm
    simp [lkp, h2, ih h.2]

theorem mem_keys_of_lkp {κ α : Type} [DecidableEq κ] {k : κ} {v : α} {l : List (κ × α)}
    (h : lkp k l = some v) : k ∈ l.map Prod.fst := by
  by_contra hc
  rw [lkp_none_of_not_mem_keys hc] at h
  exact Option.noConfusion h

theorem lkp_isSome_of_mem_keys {κ α : Type} [DecidableEq κ] {k : κ} {l : List (κ × α)}
    (h : k ∈ l.map Prod.fst) : ∃ v, lkp k l = some v := by
  induction l with
  | nil => cases h
  | cons p rest ih =>
    obtain ⟨a, b⟩ := p
    by_cases hak : a = k
    · exact ⟨b, by simp [lkp, hak]⟩
    · simp only [List.map_cons, List.mem_cons] at h
      rcases h with h | h
      · exact absurd h.symm hak
      · obtain ⟨v, hv⟩ := ih h
        exact ⟨v, by simp [lkp, hak, hv]⟩

theorem lkp_of_mem_nodup {κ α : Type} [DecidableEq κ] {k : κ} {v : α} {l : List (κ × α)}
    (h : (k, v) ∈ l) (hnd : (l.map Prod.fst).Nodup) : lkp k l = some v := by
  induction l with
  | nil => cases h
  | cons p rest ih =>
    obtain ⟨a, b⟩ := p
    simp only [List.map_cons, List.nodup_cons] at hnd
    rcases List.mem_cons.mp h with h1 | h1
    · have ha : a = k := congrArg Prod.fst h1.symm
      have hb : b = v := congrArg Prod.snd h1.symm
      subst ha
      subst hb
      simp [lkp]
    · have h2 : ¬ a = k := by
        intro hh
        subst hh
        exact hnd.1 (List.mem_map.mpr ⟨(a, v), h1, rfl⟩)
      simp [lkp, h2, ih h1 hnd.2]

theorem mem_of_lkp_some {κ α : Type} [DecidableEq κ] {k : κ} {v : α} {l : List (κ × α)}
    (h : lkp k l = some v) : (k, v) ∈ l := by
  induction l with
  | nil => cases h
  | cons p rest ih =>
    obtain ⟨a, b⟩ := p
    by_cases hak : a = k
    · subst hak
      simp [lkp] at h
      simp [h]
    · simp [lkp, hak] at h
      exact List.mem_cons_of_mem _ (ih h)

/-- Modelled from the spec (section 4.7): the union-find over `Symbol`s is
represented by its list of equivalence classes; `union` merges the classes of
its two arguments and `same` is the equivalence query. -/
structure UnionFind where
  classes : List (List Symbol)
deriving DecidableEq, Repr

/-- Equivalence query of the union-find. -/
def UnionFind.same (uf : UnionFind) (a b : Symbol) : Bool :=
  a = b || uf.classes.any (fun c => a ∈ c && b ∈ c)

/-- Merge the classes of `a` and `b` (spec section 4.7, `uf.union`). -/
def UnionFind.union (uf : UnionFind) (a b : Symbol) : UnionFind :=
  if uf.same a b then uf
  else
    let ca := (uf.classes.find? (fun c => a ∈ c)).getD [a]
    let cb := (uf.classes.find? (fun c => b ∈ c)).getD [b]
    ⟨(ca ++ cb) :: uf.classes.filter (fun c => ¬ (c = ca ∨ c = cb))⟩

theorem UnionFind.same_of_eq (uf : UnionFind) {a b : Symbol} (h : a = b) :
    uf.same a b = true := by
  simp [UnionFind.same, h]

theorem mem_getD_find_self {a : Symbol} (l : List (List Symbol)) :
    a ∈ (l.find? (fun c => a ∈ c)).getD [a] := by
  cases hf : l.find? (fun c => a ∈ c) with
  | none => simp
  | some c =>
    have := List.find?_some hf
    simpa using this

theorem UnionFind.same_union_self (uf : UnionFind) (a b : Symbol) :
    (uf.union a b).same a b = true := by
  unfold UnionFind.union
  by_cases h : uf.same a b = true
  · simp [h]
  · simp only [h, Bool.false_eq_true, if_false]
    unfold UnionFind.same
    apply Bool.or_eq_true_iff.mpr
    right
    apply List.any_eq_true.mpr
    refine ⟨_, List.mem_cons_self _ _, ?_⟩
    simp only [Bool.and_eq_true, decide_eq_true_eq]
    constructor
    · exact List.mem_append_left _ (mem_getD_find_self uf.classes)
    · exact List.mem_append_right _ (mem_getD_find_self uf.classes)

theorem UnionFind.same_mono (uf : UnionFind) (a b x y : Symbol)
    (h : uf.same x y = true) : (uf.union a b).same x y = true := by
  unfold UnionFind.union
  by_cases hs : uf.same a b = true
  · simp [hs, h]
  · simp only [hs, Bool.false_eq_true, if_false]
    unfold UnionFind.same at h ⊢
    rcases Bool.or_eq_true_iff.mp h with h1 | h1
    · exact Bool.or_eq_true_iff.mpr (Or.inl h1)
    · apply Bool.or_eq_true_iff.mpr
      right
      obtain ⟨c, hc, hxy⟩ := List.any_eq_true.mp h1
      simp only [Bool.and_eq_true, decide_eq_true_eq] at hxy
      apply List.any_eq_true.mpr
      by_cases hrm : c = (uf.classes.find? (fun d => a ∈ d)).getD [a] ∨
          c = (uf.classes.find? (fun d => b ∈ d)).getD [b]
      · refine ⟨_, List.mem_cons_self _ _, ?_⟩
        simp only [Bool.and_eq_true, decide_eq_true_eq]
        rcases hrm with hrm | hrm
        · exact ⟨List.mem_append_left _ (hrm ▸ hxy.1), List.mem_append_left _ (hrm ▸ hxy.2)⟩
        · exact ⟨List.mem_append_right _ (hrm ▸ hxy.1), List.mem_append_right _ (hrm ▸ hxy.2)⟩
      · refine ⟨c, List.mem_cons_of_mem _ ?_, ?_⟩
        · exact List.mem_filter.mpr ⟨hc, by simpa using hrm⟩
        · simp only [Bool.and_eq_true, decide_eq_true_eq]
          exact hxy

/-- Normal module: the graph node of a parsed source file (spec section 3,
`normal_module.rs`).  Fields not read by the linker or the ordering pass
(`ast`, comments) are omitted; `deps` and `dyn_deps` are the resolved static
and dynamic dependency id lists the scanner produced (`dependencies()` /
`dynamic_dependencies()`); `next_disamb` is the fresh-symbol counter behind
`create_top_level_symbol`. -/
structure NormalModule where
  id : ModuleId
  deps : List ModuleId
  dyn_deps : List ModuleId
  imports : List (ModuleId × List ImportedSpecifier)
  re_exported_ids : List (ModuleId × List ReExportedSpecifier)
  re_export_all : List ModuleId
  external_modules_of_re_export_all : List ModuleId
  linked_imports : List (ModuleId × ImportedSpecifier)
  linked_exports : List (String × ExportedSpecifier)
  suggested_names : List (String × String)
  namespace_referenced : Bool
  exec_order : Option Nat
  is_user_defined_entry : Bool
  next_disamb : Nat
deriving DecidableEq, Repr

/-- External module: id plus the interned symbol table keyed by imported name
(spec section 3). -/
structure ExternalModule where
  id : ModuleId
  symbols : List (String × Symbol)
  exec_order : Option Nat
deriving DecidableEq, Repr

/-- A graph node is a normal or an external module (`norm_or_ext.rs`). -/
inductive NormOrExt where
  | norm (m : NormalModule)
  | ext (m : ExternalModule)
deriving DecidableEq, Repr

/-- Static dependency ids of a node (`dependencies()`); external modules have
none. -/
def NormOrExt.dependencies : NormOrExt → List ModuleId
  | .norm m => m.deps
  | .ext _ => []

/-- Dynamic dependency ids of a node (`dynamic_dependencies()`). -/
def NormOrExt.dynamic_dependencies : NormOrExt → List ModuleId
  | .norm m => m.dyn_deps
  | .ext _ => []

/-- Execution order of a node; `none` is the unset `usize::MAX` sentinel. -/
def NormOrExt.exec_order : NormOrExt → Option Nat
  | .norm m => m.exec_order
  | .ext m => m.exec_order

/-- Assign the execution order of a node (`set_exec_order`). -/
def NormOrExt.set_exec_order : NormOrExt → Nat → NormOrExt
  | .norm m, n => .norm { m with exec_order := some n }
  | .ext m, n => .ext { m with exec_order := some n }

/-- The module-by-id map of the graph. -/
abbrev ModuleById := List (ModuleId × NormOrExt)

/-- Fetch a module and require it to be normal (`fetch_normal_module`);
`none` models the panic on a missing or external node. -/
def getNorm (mods : ModuleById) (id : ModuleId) : Option NormalModule :=
  match lkp id mods with
  | some (.norm m) => some m
  | _ => none

/-- Replace the normal module stored at `id`. -/
def setNorm (mods : ModuleById) (id : ModuleId) (m : NormalModule) : ModuleById :=
  mods.map (fun p => (p.1, if p.1 = id then .norm m else p.2))

/-- Replace the external module stored at `id`. -/
def setExt (mods : ModuleById) (id : ModuleId) (m : ExternalModule) : ModuleById :=
  mods.map (fun p => (p.1, if p.1 = id then .ext m else p.2))

theorem lkp_setNorm (mods : ModuleById) (id id' : ModuleId) (m : NormalModule) :
    lkp id' (setNorm mods id m) =
      if id' = id then (lkp id' mods).map (fun _ => NormOrExt.norm m) else lkp id' mods := by
  induction mods with
  | nil => by_cases h : id' = id <;> simp [setNorm, lkp, h]
  | cons p rest ih =>
    obtain ⟨a, b⟩ := p
    simp only [setNorm, List.map_cons] at *
    by_cases h2 : a = id'
    · subst h2
      by_cases hai : a = id
      · subst hai
        simp [lkp]
      · simp [lkp, hai, fun hh => hai (hh : a = id)]
    · by_cases hi : id' = id
      · subst hi
        simp [lkp, h2, ih]
      · simp [lkp, h2, hi] at ih ⊢
        exact ih

theorem getNorm_setNorm_same (mods : ModuleById) (id : ModuleId) (m m0 : NormalModule)
    (h : getNorm mods id = some m0) : getNorm (setNorm mods id m) id = some m := by
  unfold getNorm at *
  rw [lkp_setNorm]
  simp only [if_pos rfl]
  cases hl : lkp id mods with
  | none => rw [hl] at h; exact Option.noConfusion h
  | some v => simp

theorem getNorm_setNorm_other (mods : ModuleById) {id id' : ModuleId} (m : NormalModule)
    (h : id' ≠ id) : getNorm (setNorm mods id m) id' = getNorm mods id' := by
  unfold getNorm
  rw [lkp_setNorm, if_neg h]

theorem lkp_setExt (mods : ModuleById) (id id' : ModuleId) (m : ExternalModule) :
    lkp id' (setExt mods id m) =
      if id' = id then (lkp id' mods).map (fun _ => NormOrExt.ext m) else lkp id' mods := by
  induction mods with
  | nil => by_cases h : id' = id <;> simp [setExt, lkp, h]
  | cons p rest ih =>
    obtain ⟨a, b⟩ := p
    simp only [setExt, List.map_cons] at *
    by_cases h2 : a = id'
    · subst h2
      by_cases hai : a = id
      · subst hai
        simp [lkp]
      · simp [lkp, hai, fun hh => hai (hh : a = id)]
    · by_cases hi : id' = id
      · subst hi
        simp [lkp, h2, ih]
      · simp [lkp, h2, hi] at ih ⊢
        exact ih

/-- Look up an exported name in the module's canonical export table
(`NormalModule::find_exported`).  Modelled from the spec: local exports are
seeded into `linked_exports` when the module is built, so the lookup is a
plain map lookup. -/
def NormalModule.find_exported (m : NormalModule) (name : String) :
    Option ExportedSpecifier :=
  lkp name m.linked_exports

/-- Insert into the canonical export table (`add_to_linked_exports`). -/
def NormalModule.add_to_linked_exports (m : NormalModule) (name : String)
    (spec : ExportedSpecifier) : NormalModule :=
  { m with linked_exports := upsert name spec m.linked_exports }

/-- Append to the linked import list (`add_to_linked_imports`); the map of
sets of the source is flattened into a list of key/specifier pairs. -/
def NormalModule.add_to_linked_imports (m : NormalModule) (owner : ModuleId)
    (spec : ImportedSpecifier) : NormalModule :=
  { m with linked_imports := m.linked_imports ++ [(owner, spec)] }

/-- Record a renaming hint (`suggest_name`).  Modelled from the spec:
`suggested_names` is a hint map from exporter-side name to suggestion. -/
def NormalModule.suggest_name (m : NormalModule) (imported suggestion : String) :
    NormalModule :=
  { m with suggested_names := upsert imported suggestion m.suggested_names }

/-- Mark that some consumer takes this module's namespace
(`mark_namespace_id_referenced`). -/
def NormalModule.mark_namespace_id_referenced (m : NormalModule) : NormalModule :=
  { m with namespace_referenced := true }

/-- Synthesize a fresh top-level symbol owned by the module
(`create_top_level_symbol`).  Modelled from the spec: freshness comes from
the per-module disambiguator counter. -/
def NormalModule.create_top_level_symbol (m : NormalModule) (name : String) :
    Symbol × NormalModule :=
  (⟨m.id, name, m.next_disamb⟩, { m with next_disamb := m.next_disamb + 1 })

/-- Inject a synthesized binding of `name` valued `undefined` and export it
(`NormalModule::shim_missing_export`).  Modelled from the spec (section 4.6):
the binding is a fresh top-level symbol recorded in `linked_exports` under
`name` with the module itself as owner. -/
def NormalModule.shim_missing_export (m : NormalModule) (name : String) :
    NormalModule :=
  let (sym, m') := m.create_top_level_symbol name
  m'.add_to_linked_exports name ⟨name, sym, m.id⟩

/-- Shim a missing export if the name is not already exported, reporting
whether a shim was added (`shim_missing_export_if_needed` in `graph.rs`). -/
def shim_missing_export_if_needed (importee : NormalModule) (imported_name : String) :
    NormalModule × Bool :=
  if (importee.find_exported imported_name).isSome then
    (importee, false)
  else
    (importee.shim_missing_export imported_name, true)

/-- Interned symbol of an external module for an imported name
(`ExternalModule::find_exported_symbol`).  Modelled from the spec: one symbol
per imported name, created on first demand, so that all importers of the
same external binding share one identity. -/
def ExternalModule.find_exported_symbol (m : ExternalModule) (name : String) :
    Symbol × ExternalModule :=
  match lkp name m.symbols with
  | some s => (s, m)
  | none =>
    let s : Symbol := ⟨m.id, name, 0⟩
    (s, { m with symbols := upsert name s m.symbols })

/-- Fatal build errors raised by the linker (`BuildError`); `fatal` models
the panics of `fetch_module` / `fetch_normal_module` on an absent or
wrongly-shaped node. -/
inductive BuildError where
  | circularReexport (name : String) (file : String)
  | missingExport (name : String) (importer : ModuleId) (importee : ModuleId)
  | fatal (id : ModuleId)
deriving DecidableEq, Repr

/-- Warnings delivered through the `on_warn` sink. -/
inductive Warning where
  | shimmedExport (name : String) (file : String)
  | ambiguousExternalNamespaces (binding : String) (importee : ModuleId)
    (chosen : ModuleId) (candidates : List ModuleId)
deriving DecidableEq, Repr

/-- Linker state: the module map, the symbol union-find, the warning sink
and the `shim_missing_exports` option. -/
structure LinkSt where
  mods : ModuleById
  uf : UnionFind
  warnings : List Warning
  shim : Bool
deriving Repr

/-- Short-circuiting fold of a fallible step over a list, the shape of every
`try_for_each` in `graph.rs`. -/
def foldE {α : Type} (f : LinkSt → α → Except BuildError LinkSt) :
    LinkSt → List α → Except BuildError LinkSt
  | st, [] => .ok st
  | st, x :: xs =>
    match f st x with
    | .error e => .error e
    | .ok st' => foldE f st' xs

theorem foldE_preserve {α : Type} (f : LinkSt → α → Except BuildError LinkSt)
    (P : LinkSt → Prop)
    (hf : ∀ st x st', P st → f st x = .ok st' → P st') :
    ∀ l st st', P st → foldE f st l = .ok st' → P st' := by
  intro l
  induction l with
  | nil =>
    intro st st' hP h
    simp only [foldE] at h
    cases h
    exact hP
  | cons x xs ih =>
    intro st st' hP h
    simp only [foldE] at h
    cases hfx : f st x with
    | error e => rw [hfx] at h; exact Except.noConfusion h
    | ok st1 =>
      rw [hfx] at h
      exact ih st1 st' (hf st x st1 hP hfx) h

/-- Modelled from the spec: `std::path::Path::parent` as used by the
resolver; it is `none` exactly for the empty path and the filesystem root,
and otherwise strips the final path component. -/
def pathParent (p : String) : Option String :=
  if p = "" ∨ p = "/" then none
  else
    match (p.data.reverse.dropWhile (fun c => ¬ c = '/')) with
    | [] => some ""
    | _ :: r => some (if r = [] then "/" else String.mk r.reverse)

/-- Modelled from the spec: outcome of the wrapped `nodejs_resolver`
(`ResolveResult::Info` carrying the resolved path, or `Ignored`). -/
inductive ResolveResult where
  | info (path : String)
  | ignored
deriving DecidableEq, Repr

/-- Modelled from the spec (section 7): the resolver-side error kinds of
`rolldown_error`. -/
inductive ResolveError where
  | unresolvedEntry (specifier : String)
  | unresolvedImport (specifier : String) (importer : String)
deriving DecidableEq, Repr

/-- The path resolver (`rolldown_resolver::Resolver`): a working directory
plus the wrapped inner resolver, which is an external collaborator and is
therefore a parameter; `inner dir specifier = none` models its resolution
error. -/
structure Resolver where
  cwd : String
  inner : String → String → Option ResolveResult

/-- Transcription of `Resolver::resolve` (`rolldown_resolver/src/lib.rs`).
The outer `none` models a panic: the `expect` on an importer without a
parent directory, and the `unreachable` on an `Ignored` resolution. -/
def Resolver.resolve (r : Resolver) (importer : Option String) (specifier : String) :
    Option (Except ResolveError String) :=
  let importer_dir : Option String :=
    match importer with
    | some imp => pathParent imp
    | none => some r.cwd
  match importer_dir with
  | none => none
  | some dir =>
    match r.inner dir specifier with
    | some (.info p) => some (.ok p)
    | some .ignored => none
    | none =>
      match importer with
      | some imp => some (.error (.unresolvedImport specifier imp))
      | none => some (.error (.unresolvedEntry specifier))

/-- C7: Shim idempotence.  Applying the missing-export shim twice yields the
same module as applying it once: the second application finds the name
already exported, returns `false`, and leaves the module unchanged, so the
same missing name never produces two export entries. -/
theorem shim_idempotent (m : NormalModule) (name : String) :
    shim_missing_export_if_needed (shim_missing_export_if_needed m name).1 name =
      ((shim_missing_export_if_needed m name).1, false) := by
  unfold shim_missing_export_if_needed
  by_cases h : (m.find_exported name).isSome
  · simp [h]
  · simp only [h, Bool.false_eq_true, if_false]
    have h2 : ((m.shim_missing_export name).find_exported name).isSome = true := by
      unfold NormalModule.shim_missing_export NormalModule.find_exported
        NormalModule.add_to_linked_exports NormalModule.create_top_level_symbol
      simp [lkp_upsert_same]
    simp [h2]

/-- C9: Resolver error kinds.  When the inner resolution fails, `resolve`
returns `UnresolvedImport` carrying the specifier and the importer path if
an importer was supplied, and `UnresolvedEntry` otherwise; on success it
returns the resolved path. -/
theorem resolver_error_kinds (r : Resolver) (specifier imp dir p : String) :
    (pathParent imp = some dir → r.inner dir specifier = none →
      r.resolve (some imp) specifier =
        some (.error (.unresolvedImport specifier imp))) ∧
    (r.inner r.cwd specifier = none →
      r.resolve none specifier = some (.error (.unresolvedEntry specifier))) ∧
    (pathParent imp = some dir → r.inner dir specifier = some (.info p) →
      r.resolve (some imp) specifier = some (.ok p)) ∧
    (r.inner r.cwd specifier = some (.info p) →
      r.resolve none specifier = some (.ok p)) := by
  refine ⟨?_, ?_, ?_, ?_⟩
  · intro hpar hfail
    simp [Resolver.resolve, hpar, hfail]
  · intro hfail
    simp [Resolver.resolve, hfail]
  · intro hpar hok
    simp [Resolver.resolve, hpar, hok]
  · intro hok
    simp [Resolver.resolve, hok]

/-- Witness for C9 at concrete inputs: a resolver whose inner resolution
always fails yields `UnresolvedImport` with an importer and
`UnresolvedEntry` without one; a resolver that always succeeds returns the
resolved path. -/
theorem resolver_error_kinds_witness :
    (Resolver.mk "/cwd" (fun _ _ => none)).resolve (some "/a/b.js") "./c" =
        some (.error (.unresolvedImport "./c" "/a/b.js")) ∧
    (Resolver.mk "/cwd" (fun _ _ => none)).resolve none "./c" =
        some (.error (.unresolvedEntry "./c")) ∧
    (Resolver.mk "/cwd" (fun _ _ => some (.info "/a/c.js"))).resolve
        (some "/a/b.js") "./c" = some (.ok "/a/c.js") ∧
    (Resolver.mk "/cwd" (fun _ _ => some (.info "/a/c.js"))).resolve
        none "./c" = some (.ok "/a/c.js") := by
  refine ⟨?_, ?_, ?_, ?_⟩
  · exact (resolver_error_kinds (Resolver.mk "/cwd" (fun _ _ => none))
      "./c" "/a/b.js" "/a" "x").1 (by decide) rfl
  · exact (resolver_error_kinds (Resolver.mk "/cwd" (fun _ _ => none))
      "./c" "/a/b.js" "/a" "x").2.1 rfl
  · exact (resolver_error_kinds (Resolver.mk "/cwd" (fun _ _ => some (.info "/a/c.js")))
      "./c" "/a/b.js" "/a" "/a/c.js").2.2.1 (by decide) rfl
  · exact (resolver_error_kinds (Resolver.mk "/cwd" (fun _ _ => some (.info "/a/c.js")))
      "./c" "/a/b.js" "/a" "/a/c.js").2.2.2 rfl

/-- C10: `Resolver::resolve` is partial in its importer argument.  When the
supplied importer has no parent directory the call panics through `expect`
(modelled by `none`) before the inner resolver runs, and the error return
for resolution failure is only reachable when the importer has a parent
directory. -/
theorem resolver_panics_without_parent (r : Resolver) (imp specifier : String)
    (e : ResolveError) :
    (pathParent imp = none → r.resolve (some imp) specifier = none) ∧
    (r.resolve (some imp) specifier = some (.error e) →
      ∃ d, pathParent imp = some d) := by
  constructor
  · intro hpar
    simp [Resolver.resolve, hpar]
  · intro hres
    cases hpar : pathParent imp with
    | none =>
      rw [show r.resolve (some imp) specifier = none by
        simp [Resolver.resolve, hpar]] at hres
      exact Option.noConfusion hres
    | some d => exact ⟨d, rfl⟩

/-- Witness for C10: the root path and the empty path have no parent
directory, and resolving with either as importer panics. -/
theorem resolver_panics_without_parent_witness :
    (Resolver.mk "/cwd" (fun _ _ => none)).resolve (some "/") "./c" = none ∧
    (Resolver.mk "/cwd" (fun _ _ => none)).resolve (some "") "./c" = none := by
  constructor
  · exact (resolver_panics_without_parent (Resolver.mk "/cwd" (fun _ _ => none))
      "/" "./c" (.unresolvedEntry "x")).1 (by decide)
  · exact (resolver_panics_without_parent (Resolver.mk "/cwd" (fun _ _ => none))
      "" "./c" (.unresolvedEntry "x")).1 (by decide)

/-- Self re-export step of the exports pass (`graph.rs` 231-255): look the
name up in the module's own export table; on a miss fail with
`CircularReExport`, never shimming. -/
def process_self_re_export (st : LinkSt) (importee_id : ModuleId)
    (spec : ReExportedSpecifier) : Except BuildError LinkSt :=
  match getNorm st.mods importee_id with
  | none => .error (.fatal importee_id)
  | some importee =>
    let importee := importee.suggest_name spec.imported spec.exported_as
    let importee :=
      if spec.imported = "*" then importee.mark_namespace_id_referenced else importee
    match importee.find_exported spec.imported with
    | some original_spec =>
      let importee := importee.add_to_linked_exports spec.exported_as original_spec
      .ok { st with mods := setNorm st.mods importee_id importee }
    | none => .error (.circularReexport spec.imported importee_id.path)

/-- Cross-module re-export step for a normal importee (`graph.rs` 264-288):
optional shim, then copy the original exported specifier into the importer
under the re-exported name, or fail with `MissingExport`. -/
def process_cross_re_export (st : LinkSt) (importer_id importee_id : ModuleId)
    (spec : ReExportedSpecifier) : Except BuildError LinkSt :=
  match getNorm st.mods importee_id with
  | none => .error (.fatal importee_id)
  | some importee =>
    let importee := importee.suggest_name spec.imported spec.exported_as
    let importee :=
      if spec.imported = "*" then importee.mark_namespace_id_referenced else importee
    let shimStep :=
      if st.shim then shim_missing_export_if_needed importee spec.imported
      else (importee, false)
    let importee := shimStep.1
    let warnings :=
      if shimStep.2 then st.warnings ++ [.shimmedExport spec.imported importee_id.path]
      else st.warnings
    let st1 : LinkSt :=
      { st with mods := setNorm st.mods importee_id importee, warnings := warnings }
    match importee.find_exported spec.imported with
    | some original_spec =>
      match getNorm st1.mods importer_id with
      | none => .error (.fatal importer_id)
      | some importer =>
        let importer := importer.add_to_linked_exports spec.exported_as original_spec
        .ok { st1 with mods := setNorm st1.mods importer_id importer }
    | none => .error (.missingExport spec.imported importer_id importee_id)

/-- Re-export from an external importee (`graph.rs` 290-326): synthesize a
fresh top-level symbol in the importer, record the import edge to the
external module and export the fresh symbol locally. -/
def process_external_re_export (st : LinkSt) (importer_id importee_id : ModuleId)
    (spec : ReExportedSpecifier) : Except BuildError LinkSt :=
  match getNorm st.mods importer_id with
  | none => .error (.fatal importer_id)
  | some importer =>
    let name := if ¬ spec.exported_as = "default" then spec.exported_as else spec.imported
    let created := importer.create_top_level_symbol name
    let symbol_in_importer := created.1
    let importer := created.2
    let importer :=
      importer.add_to_linked_imports importee_id ⟨spec.imported, symbol_in_importer⟩
    let importer := importer.add_to_linked_exports spec.exported_as
      ⟨spec.exported_as, symbol_in_importer, importer_id⟩
    .ok { st with mods := setNorm st.mods importer_id importer }

/-- Dispatch one `(importee, re-export set)` pair of `re_exported_ids`
(`graph.rs` 229-330). -/
def process_re_export_pair (st : LinkSt) (importer_id : ModuleId)
    (pr : ModuleId × List ReExportedSpecifier) : Except BuildError LinkSt :=
  if importer_id = pr.1 then
    foldE (fun s sp => process_self_re_export s pr.1 sp) st pr.2
  else
    match lkp pr.1 st.mods with
    | some (.norm _) =>
      foldE (fun s sp => process_cross_re_export s importer_id pr.1 sp) st pr.2
    | some (.ext _) =>
      foldE (fun s sp => process_external_re_export s importer_id pr.1 sp) st pr.2
    | none => .error (.fatal pr.1)

/-- One step of the conflict table build of the wildcard phase
(`graph.rs` 348-369): first sight of a name records its specifier, a second
sight with a different specifier marks the name conflicted for good. -/
def non_conflicted_step (tmp : List (String × Option ExportedSpecifier))
    (kv : String × ExportedSpecifier) : List (String × Option ExportedSpecifier) :=
  match lkp kv.1 tmp with
  | some (some existed_spec) =>
    if existed_spec = kv.2 then tmp else upsert kv.1 none tmp
  | some none => tmp
  | none => upsert kv.1 (some kv.2) tmp

/-- The export entries of all normal wildcard targets, in target order
(`graph.rs` 344-347, the `filter_map(as_norm)` + `flat_map`). -/
def wildcard_export_entries (mods : ModuleById) (targets : List ModuleId) :
    List (String × ExportedSpecifier) :=
  targets.foldl
    (fun acc tid =>
      match lkp tid mods with
      | some (.norm t) => acc ++ t.linked_exports
      | _ => acc)
    []

/-- The names reachable through `export *` targets that carry a single
consistent specifier (`non_conflicted_names`, `graph.rs` 341-374). -/
def non_conflicted_names (mods : ModuleById) (targets : List ModuleId) : List String :=
  let tmp := (wildcard_export_entries mods targets).foldl non_conflicted_step []
  tmp.foldl
    (fun acc p => match p.2 with | some _ => acc ++ [p.1] | none => acc)
    []

/-- Propagate a wildcard target's own `export *` targets into the importer
(`graph.rs` 398-402 and 438-440). -/
def copy_re_export_all (importer : NormalModule) (tee : NormalModule) : NormalModule :=
  { importer with re_export_all := tee.re_export_all.foldl getOrInsert importer.re_export_all }

/-- Copy the non-default, non-explicit, non-conflicted exports of one
wildcard target into the importer (`graph.rs` 404-428). -/
def wildcard_copy_exports (importer : NormalModule) (tee : NormalModule)
    (explicit_names ncn : List String) : NormalModule :=
  tee.linked_exports.foldl
    (fun acc kv =>
      if kv.1 = "default" then acc
      else if kv.1 ∈ explicit_names then acc
      else if kv.1 ∈ ncn then acc.add_to_linked_exports kv.1 kv.2
      else acc)
    importer

/-- Process one wildcard target of the importer (`graph.rs` 384-465). -/
def wildcard_process_target (st : LinkSt) (importer_id : ModuleId)
    (explicit_names ncn : List String) (tid : ModuleId) : Except BuildError LinkSt :=
  if tid = importer_id then .ok st
  else
    match lkp tid st.mods, getNorm st.mods importer_id with
    | some (.norm tee), some importer =>
      let importer := copy_re_export_all importer tee
      let importer := wildcard_copy_exports importer tee explicit_names ncn
      let importer := copy_re_export_all importer tee
      .ok { st with mods := setNorm st.mods importer_id importer }
    | some (.ext _), some importer =>
      let new_set := getOrInsert importer.external_modules_of_re_export_all tid
      let importer := { importer with external_modules_of_re_export_all := new_set }
      .ok { st with mods := setNorm st.mods importer_id importer }
    | _, _ => .error (.fatal tid)

/-- The wildcard (`export *`) phase of one importer's exports pass
(`graph.rs` 332-465): snapshot the targets, compute the conflict-free name
set and the explicit-name snapshot, then process each target. -/
def process_re_export_all (st : LinkSt) (importer_id : ModuleId) :
    Except BuildError LinkSt :=
  match getNorm st.mods importer_id with
  | none => .error (.fatal importer_id)
  | some importer =>
    let targets := importer.re_export_all
    let ncn := non_conflicted_names st.mods targets
    let explicit_names := importer.linked_exports.map Prod.fst
    foldE (fun s tid => wildcard_process_target s importer_id explicit_names ncn tid)
      st targets

/-- The exports pass for one importer (`Graph::link_exports` body). -/
def link_exports_one (st : LinkSt) (importer_id : ModuleId) : Except BuildError LinkSt :=
  if importer_id.external then .ok st
  else
    match getNorm st.mods importer_id with
    | none => .error (.fatal importer_id)
    | some importer =>
      match foldE (fun s pr => process_re_export_pair s importer_id pr) st
          importer.re_exported_ids with
      | .error e => .error e
      | .ok st1 => process_re_export_all st1 importer_id

/-- The exports pass over the execution-ordered module list
(`Graph::link_exports`). -/
def link_exports (st : LinkSt) (order : List ModuleId) : Except BuildError LinkSt :=
  foldE link_exports_one st order

/-- Self-import step of the imports pass (`graph.rs` 493-541). -/
def process_self_import (st : LinkSt) (importee_id : ModuleId)
    (spec : ImportedSpecifier) : Except BuildError LinkSt :=
  match getNorm st.mods importee_id with
  | none => .error (.fatal importee_id)
  | some importee =>
    let importee :=
      if spec.imported = "*" then importee.mark_namespace_id_referenced else importee
    let importee := importee.suggest_name spec.imported spec.imported_as.name
    let shimStep :=
      if st.shim then shim_missing_export_if_needed importee spec.imported
      else (importee, false)
    let importee := shimStep.1
    let warnings :=
      if shimStep.2 then st.warnings ++ [.shimmedExport spec.imported importee_id.path]
      else st.warnings
    let st1 : LinkSt :=
      { st with mods := setNorm st.mods importee_id importee, warnings := warnings }
    match importee.find_exported spec.imported with
    | some exported_spec =>
      let uf := st1.uf.union spec.imported_as exported_spec.local_id
      let importee := importee.add_to_linked_imports exported_spec.owner
        ⟨exported_spec.exported_as, spec.imported_as⟩
      .ok { st1 with uf := uf, mods := setNorm st1.mods importee_id importee }
    | none => .error (.missingExport spec.imported importee_id importee_id)

/-- Cross-module import step against a normal importee (`graph.rs` 549-645),
including the external-namespace fallback on a miss. -/
def process_cross_import (st : LinkSt) (importer_id importee_id : ModuleId)
    (spec : ImportedSpecifier) : Except BuildError LinkSt :=
  match getNorm st.mods importee_id with
  | none => .error (.fatal importee_id)
  | some importee =>
    let importee :=
      if spec.imported = "*" then importee.mark_namespace_id_referenced else importee
    let importee := importee.suggest_name spec.imported spec.imported_as.name
    let shimStep :=
      if st.shim then shim_missing_export_if_needed importee spec.imported
      else (importee, false)
    let importee := shimStep.1
    let warnings :=
      if shimStep.2 then st.warnings ++ [.shimmedExport spec.imported importee_id.path]
      else st.warnings
    let st1 : LinkSt :=
      { st with mods := setNorm st.mods importee_id importee, warnings := warnings }
    match importee.find_exported spec.imported with
    | some exported_spec =>
      let uf := st1.uf.union spec.imported_as exported_spec.local_id
      match getNorm st1.mods importer_id with
      | none => .error (.fatal importer_id)
      | some importer =>
        let importer := importer.add_to_linked_imports exported_spec.owner
          ⟨exported_spec.exported_as, spec.imported_as⟩
        .ok { st1 with uf := uf, mods := setNorm st1.mods importer_id importer }
    | none =>
      match importee.external_modules_of_re_export_all with
      | [] => .error (.missingExport spec.imported importer_id importee_id)
      | first_external_id :: rest =>
        let warnings2 :=
          if 1 < (first_external_id :: rest).length then
            st1.warnings ++ [.ambiguousExternalNamespaces spec.imported_as.name
              importee_id first_external_id (first_external_id :: rest)]
          else st1.warnings
        let created := importee.create_top_level_symbol spec.imported_as.name
        let symbol_in_importee := created.1
        let importee := created.2
        let importee := importee.add_to_linked_imports first_external_id
          ⟨spec.imported, symbol_in_importee⟩
        let importee := importee.add_to_linked_exports spec.imported
          ⟨spec.imported, symbol_in_importee, importee_id⟩
        match getNorm st1.mods importer_id with
        | none => .error (.fatal importer_id)
        | some importer =>
          let importer :=
            importer.add_to_linked_imports importee_id ⟨spec.imported, spec.imported_as⟩
          let uf := st1.uf.union spec.imported_as symbol_in_importee
          let mods := setNorm (setNorm st1.mods importee_id importee) importer_id importer
          .ok { st1 with uf := uf, warnings := warnings2, mods := mods }

/-- Import step against an external importee (`graph.rs` 646-654): append
the specifier verbatim and union with the interned external symbol. -/
def process_external_import (st : LinkSt) (importer_id importee_id : ModuleId)
    (spec : ImportedSpecifier) : Except BuildError LinkSt :=
  match lkp importee_id st.mods with
  | some (.ext importee) =>
    match getNorm st.mods importer_id with
    | none => .error (.fatal importer_id)
    | some importer =>
      let importer := importer.add_to_linked_imports importee_id spec
      let interned := importee.find_exported_symbol spec.imported
      let uf := st.uf.union spec.imported_as interned.1
      let mods := setExt (setNorm st.mods importer_id importer) importee_id interned.2
      .ok { st with uf := uf, mods := mods }
  | _ => .error (.fatal importee_id)

/-- Insertion of one specifier into a list sorted by `imported`
(the model of `sort_unstable_by_key`). -/
def insert_by_imported (x : ImportedSpecifier) :
    List ImportedSpecifier → List ImportedSpecifier
  | [] => [x]
  | y :: ys =>
    if x.imported ≤ y.imported then x :: y :: ys else y :: insert_by_imported x ys

/-- Sort specifiers by their `imported` name for determinism
(`graph.rs` 496-497). -/
def sort_by_imported (l : List ImportedSpecifier) : List ImportedSpecifier :=
  l.foldr insert_by_imported []

/-- Dispatch one `(importee, specifier set)` pair of the raw `imports`
(`graph.rs` 488-660). -/
def process_import_pair (st : LinkSt) (importer_id : ModuleId)
    (pr : ModuleId × List ImportedSpecifier) : Except BuildError LinkSt :=
  if importer_id = pr.1 then
    foldE (fun s sp => process_self_import s pr.1 sp) st (sort_by_imported pr.2)
  else
    match lkp pr.1 st.mods with
    | some (.norm _) =>
      foldE (fun s sp => process_cross_import s importer_id pr.1 sp) st pr.2
    | some (.ext _) =>
      foldE (fun s sp => process_external_import s importer_id pr.1 sp) st pr.2
    | none => .error (.fatal pr.1)

/-- The imports pass for one importer (`Graph::link_imports` body). -/
def link_imports_one (st : LinkSt) (importer_id : ModuleId) : Except BuildError LinkSt :=
  if importer_id.external then .ok st
  else
    match getNorm st.mods importer_id with
    | none => .error (.fatal importer_id)
    | some importer =>
      foldE (fun s pr => process_import_pair s importer_id pr) st importer.imports

/-- The imports pass over the execution-ordered module list
(`Graph::link_imports`). -/
def link_imports (st : LinkSt) (order : List ModuleId) : Except BuildError LinkSt :=
  foldE link_imports_one st order

/-- Comparison on execution orders where the unset sentinel (`usize::MAX`)
sorts last. -/
def exec_order_le (a b : Option Nat) : Bool :=
  match b with
  | none => true
  | some bn =>
    match a with
    | none => false
    | some an => an ≤ bn

/-- Insertion into a module list sorted by execution order. -/
def insert_by_exec_order (x : ModuleId × NormOrExt) :
    List (ModuleId × NormOrExt) → List (ModuleId × NormOrExt)
  | [] => [x]
  | y :: ys =>
    if exec_order_le x.2.exec_order y.2.exec_order then x :: y :: ys
    else y :: insert_by_exec_order x ys

/-- The module ids sorted by `exec_order` (`Graph::link`, 190-196). -/
def order_modules (mods : ModuleById) : List ModuleId :=
  (mods.foldr insert_by_exec_order []).map Prod.fst

/-- The linker (`Graph::link`): the exports pass then the imports pass, both
over the execution-ordered module list. -/
def link (st : LinkSt) : Except BuildError LinkSt :=
  match link_exports st (order_modules st.mods) with
  | .error e => .error e
  | .ok st1 => link_imports st1 (order_modules st.mods)

/-- Stack action of the execution-order sweep (`Action::Enter` /
`Action::Exit` in `sort_modules`). -/
inductive SortAction where
  | enter
  | leave
deriving DecidableEq, Repr

/-- One depth-first sweep of `sort_modules` (`graph.rs` 112-143 and
148-173) over an explicit stack, with fuel; the head of the list is the top
of the stack.  On `enter` of an unvisited module its `Exit` marker and its
static dependencies (first dependency on top) are pushed, and when
`collectDyn` is set its dynamic dependencies are accumulated; on `leave`
the next integer is assigned.  `none` models fuel exhaustion or the
`unwrap` panic on a dependency id absent from the graph. -/
def dfs_pass (mods : ModuleById) (collectDyn : Bool) :
    Nat → List (SortAction × ModuleId) → List ModuleId → List (ModuleId × Nat) →
    Nat → List ModuleId → Option (List (ModuleId × Nat) × Nat × List ModuleId × List ModuleId)
  | 0, _, _, _, _, _ => none
  | _ + 1, [], entered, orders, counter, dyn => some (orders, counter, entered, dyn)
  | fuel + 1, (a, id) :: rest, entered, orders, counter, dyn =>
    match lkp id mods with
    | none => none
    | some module =>
      match a with
      | .enter =>
        if id ∈ entered then dfs_pass mods collectDyn fuel rest entered orders counter dyn
        else
          let stack' := module.dependencies.map (fun d => (SortAction.enter, d)) ++
            (SortAction.leave, id) :: rest
          let dyn' :=
            if collectDyn then
              module.dynamic_dependencies.foldl
                (fun acc d => if d ∈ acc then acc else acc ++ [d]) dyn
            else dyn
          dfs_pass mods collectDyn fuel stack' (entered ++ [id]) orders counter dyn'
      | .leave =>
        dfs_pass mods collectDyn fuel rest entered (upsert id counter orders) (counter + 1) dyn

/-- A fuel bound large enough for both sweeps: every stack element is popped
once and pushes happen only on the first entry of a module. -/
def sort_fuel (mods : ModuleById) (entries : List ModuleId) : Nat :=
  entries.length + mods.length +
    mods.foldl
      (fun acc p => acc + 2 + p.2.dependencies.length + p.2.dynamic_dependencies.length) 0 + 1

/-- Transcription of `Graph::sort_modules` (`graph.rs` 92-187): pass 1
sweeps the entries through static dependencies collecting dynamic entries,
pass 2 re-seeds the sweep with the collected dynamic entries but does not
collect dynamic dependencies again.  Returns the exec-order table; a module
absent from the table keeps the unset `usize::MAX` sentinel. -/
def sort_modules (mods : ModuleById) (entries : List ModuleId) :
    Option (List (ModuleId × Nat)) :=
  match dfs_pass mods true (sort_fuel mods entries)
      (entries.map (fun e => (SortAction.enter, e))) [] [] 0 [] with
  | none => none
  | some (orders, counter, entered, dyn) =>
    match dfs_pass mods false (sort_fuel mods entries)
        (dyn.reverse.map (fun e => (SortAction.enter, e))) entered orders counter [] with
    | none => none
    | some (orders2, _, _, _) => some orders2

/-- Concrete input exhibiting the C2 divergences: entry `E` and `F` form a
static cycle, `E` dynamically imports `C`, and `C` dynamically imports `D`. -/
def c2idE : ModuleId := ⟨"/E", false⟩

def c2idF : ModuleId := ⟨"/F", false⟩

def c2idC : ModuleId := ⟨"/C", false⟩

def c2idD : ModuleId := ⟨"/D", false⟩

def c2blank (id : ModuleId) : NormalModule :=
  ⟨id, [], [], [], [], [], [], [], [], [], false, none, false, 0⟩

def c2mods : ModuleById :=
  [(c2idE, .norm { c2blank c2idE with deps := [c2idF], dyn_deps := [c2idC] }),
   (c2idF, .norm { c2blank c2idF with deps := [c2idE] }),
   (c2idC, .norm { c2blank c2idC with dyn_deps := [c2idD] }),
   (c2idD, .norm (c2blank c2idD))]

/-- C2, evaluated at the failing input: `sort_modules` completes but leaves
module `D` — which is in the graph, reachable only through the
dynamic import of the dynamically imported `C` — without any exec order (the
`usize::MAX` sentinel, contradicting the claim and the source's own
`assert_ne!(m.exec_order(), usize::MAX)`), and within the static cycle
`{E, F}` the first-encountered module `E` receives the highest order of the
cycle (1) rather than the lowest (`F` gets 0). -/
theorem sort_modules_dynamic_gap :
    ∃ res, sort_modules c2mods [c2idE] = some res ∧
      lkp c2idD res = none ∧ lkp c2idE res = some 1 ∧ lkp c2idF res = some 0 ∧
      lkp c2idC res = some 2 ∧ (lkp c2idD c2mods).isSome = true := by
  refine ⟨_, rfl, ?_, ?_, ?_, ?_, ?_⟩ <;> decide

/-- C4: External re-export transformation.  For a re-export spec
whose importee is external, the exports pass creates in the importer a fresh
top-level symbol named after `spec.exported_as` (or after `spec.imported`
when re-exporting as `default`), adds the pair `{imported: spec.imported,
 imported_as: fresh}` to the importer's `linked_imports` keyed by the
external importee, and sets the importer's
`linked_exports[spec.exported_as]` to `{exported_as: spec.exported_as,
local_id: fresh, owner: importer_id}`. -/
theorem external_re_export_effects (st : LinkSt) (importer_id importee_id : ModuleId)
    (spec : ReExportedSpecifier) (importer : NormalModule)
    (hM : getNorm st.mods importer_id = some importer) :
    ∃ st', process_external_re_export st importer_id importee_id spec = .ok st' ∧
      ∃ importer' fresh, getNorm st'.mods importer_id = some importer' ∧
        fresh = Symbol.mk importer.id
          (if ¬ spec.exported_as = "default" then spec.exported_as else spec.imported)
          importer.next_disamb ∧
        (importee_id, ⟨spec.imported, fresh⟩) ∈ importer'.linked_imports ∧
        lkp spec.exported_as importer'.linked_exports =
          some ⟨spec.exported_as, fresh, importer_id⟩ := by
  simp only [process_external_re_export, hM]
  refine ⟨_, rfl, _, _,
    getNorm_setNorm_same st.mods importer_id _ importer hM, rfl, ?_, ?_⟩
  · simp [NormalModule.add_to_linked_exports, NormalModule.add_to_linked_imports,
      NormalModule.create_top_level_symbol]
  · simp [NormalModule.add_to_linked_exports, NormalModule.add_to_linked_imports,
      NormalModule.create_top_level_symbol, lkp_upsert_same]

/-- Witness for C4: a concrete importer re-exporting `{resolve}` from the
external module `"path"` (scenario S5 of the spec). -/
theorem external_re_export_effects_witness :
    ∃ st', process_external_re_export
        ⟨[(⟨"/entry", false⟩, .norm ⟨⟨"/entry", false⟩, [], [], [],
            [(⟨"path", true⟩, [⟨"resolve", "resolve"⟩])], [], [], [], [], [], false,
            some 0, true, 0⟩),
          (⟨"path", true⟩, .ext ⟨⟨"path", true⟩, [], some 1⟩)], ⟨[]⟩, [], false⟩
        ⟨"/entry", false⟩ ⟨"path", true⟩ ⟨"resolve", "resolve"⟩ = .ok st' ∧
      ∃ importer' fresh,
        getNorm st'.mods ⟨"/entry", false⟩ = some importer' ∧
        fresh = Symbol.mk ⟨"/entry", false⟩ "resolve" 0 ∧
        (ModuleId.mk "path" true, ⟨"resolve", fresh⟩) ∈ importer'.linked_imports ∧
        lkp "resolve" importer'.linked_exports =
          some ⟨"resolve", fresh, ⟨"/entry", false⟩⟩ := by
  have h := external_re_export_effects
    ⟨[(⟨"/entry", false⟩, .norm ⟨⟨"/entry", false⟩, [], [], [],
        [(⟨"path", true⟩, [⟨"resolve", "resolve"⟩])], [], [], [], [], [], false,
        some 0, true, 0⟩),
      (⟨"path", true⟩, .ext ⟨⟨"path", true⟩, [], some 1⟩)], ⟨[]⟩, [], false⟩
    ⟨"/entry", false⟩ ⟨"path", true⟩ ⟨"resolve", "resolve"⟩
    ⟨⟨"/entry", false⟩, [], [], [], [(⟨"path", true⟩, [⟨"resolve", "resolve"⟩])],
      [], [], [], [], [], false, some 0, true, 0⟩ (by decide)
  simpa using h

/-- Concrete input refuting C6 as stated: `/m` re-exports `{ghost as g}`
from itself, `ghost` is not exported, and `shim_missing_exports` is
enabled. -/
def c6mods : ModuleById :=
  [(⟨"/m", false⟩, .norm ⟨⟨"/m", false⟩, [], [], [],
      [(⟨"/m", false⟩, [⟨"ghost", "g"⟩])], [], [], [], [], [], false,
      some 0, true, 0⟩)]

def c6st : LinkSt := ⟨c6mods, ⟨[]⟩, [], true⟩

/-- Counterexample to C6 as stated: with `shim_missing_exports` enabled, a
self re-export requesting a name the module does not export is not shimmed
and is a hard `CircularReExport` error (the source comments this branch:
no shimming happens there no matter the option). -/
theorem shim_missing_exports_counterexample :
    c6st.shim = true ∧
      link c6st = .error (.circularReexport "ghost" "/m") := by
  constructor
  · rfl
  · rfl

theorem suggest_name_linked_exports (m : NormalModule) (a b : String) :
    (m.suggest_name a b).linked_exports = m.linked_exports := rfl

theorem mark_ns_linked_exports (m : NormalModule) :
    m.mark_namespace_id_referenced.linked_exports = m.linked_exports := rfl

theorem maybe_mark_linked_exports (m : NormalModule) (c : Prop) [Decidable c] :
    (if c then m.mark_namespace_id_referenced else m).linked_exports =
      m.linked_exports := by
  split <;> rfl

theorem maybe_mark_ext_set (m : NormalModule) (c : Prop) [Decidable c] :
    (if c then m.mark_namespace_id_referenced else m).external_modules_of_re_export_all =
      m.external_modules_of_re_export_all := by
  split <;> rfl

theorem maybe_mark_id (m : NormalModule) (c : Prop) [Decidable c] :
    (if c then m.mark_namespace_id_referenced else m).id = m.id := by
  split <;> rfl

theorem maybe_mark_next_disamb (m : NormalModule) (c : Prop) [Decidable c] :
    (if c then m.mark_namespace_id_referenced else m).next_disamb = m.next_disamb := by
  split <;> rfl

theorem maybe_mark_linked_imports (m : NormalModule) (c : Prop) [Decidable c] :
    (if c then m.mark_namespace_id_referenced else m).linked_imports =
      m.linked_imports := by
  split <;> rfl

/-- C6 as amended: every cross-module import or re-export that requests a
name the importee does not export is shimmed when `shim_missing_exports`
is enabled — the synthesized binding is added to the importee's
`linked_exports` and a `ShimmedExport` warning is emitted, and the step
succeeds — while a self re-export of a missing name raises
`CircularReExport` regardless of the flag; when the flag is disabled a
missing cross-module re-export is a hard `MissingExport` error, and a
missing cross-module import is a hard `MissingExport` error exactly when
the importee has no external wildcard targets — with external wildcard
targets present the import instead takes the external-namespace fallback
and succeeds. -/
theorem shim_missing_exports_behavior (st : LinkSt) (importer_id importee_id : ModuleId)
    (rspec : ReExportedSpecifier) (ispec : ImportedSpecifier)
    (importee : NormalModule)
    (h1 : getNorm st.mods importee_id = some importee)
    (h2 : (getNorm st.mods importer_id).isSome = true)
    (h5 : importer_id ≠ importee_id)
    (hmissR : lkp rspec.imported importee.linked_exports = none)
    (hmissI : lkp ispec.imported importee.linked_exports = none) :
    (st.shim = true →
      ∃ st', process_cross_re_export st importer_id importee_id rspec = .ok st' ∧
        ∃ tee', getNorm st'.mods importee_id = some tee' ∧
          (lkp rspec.imported tee'.linked_exports).isSome = true ∧
          st'.warnings = st.warnings ++ [.shimmedExport rspec.imported importee_id.path]) ∧
    (st.shim = true →
      ∃ st', process_cross_import st importer_id importee_id ispec = .ok st' ∧
        ∃ tee', getNorm st'.mods importee_id = some tee' ∧
          (lkp ispec.imported tee'.linked_exports).isSome = true ∧
          st'.warnings = st.warnings ++ [.shimmedExport ispec.imported importee_id.path]) ∧
    (st.shim = false →
      process_cross_re_export st importer_id importee_id rspec =
        .error (.missingExport rspec.imported importer_id importee_id)) ∧
    (st.shim = false → importee.external_modules_of_re_export_all = [] →
      process_cross_import st importer_id importee_id ispec =
        .error (.missingExport ispec.imported importer_id importee_id)) ∧
    (st.shim = false → ∀ fid restE,
      importee.external_modules_of_re_export_all = fid :: restE →
      ∃ st', process_cross_import st importer_id importee_id ispec =
        .ok st') := by
  obtain ⟨importer, himp⟩ := Option.isSome_iff_exists.mp h2
  refine ⟨?_, ?_, ?_, ?_, ?_⟩
  · intro hshim
    simp only [process_cross_re_export, h1, hshim, if_true,
      shim_missing_export_if_needed, NormalModule.find_exported,
      suggest_name_linked_exports, maybe_mark_linked_exports, hmissR,
      Option.isSome_none, Bool.false_eq_true, if_false,
      NormalModule.shim_missing_export, NormalModule.create_top_level_symbol,
      NormalModule.add_to_linked_exports, lkp_upsert_same]
    rw [getNorm_setNorm_other _ _ h5, himp]
    refine ⟨_, rfl, ?_⟩
    rw [getNorm_setNorm_other _ _ (Ne.symm h5)]
    refine ⟨_, getNorm_setNorm_same _ _ _ _ h1, ?_, rfl⟩
    simp [lkp_upsert_same]
  · intro hshim
    simp only [process_cross_import, h1, hshim, if_true,
      shim_missing_export_if_needed, NormalModule.find_exported,
      suggest_name_linked_exports, maybe_mark_linked_exports, hmissI,
      Option.isSome_none, Bool.false_eq_true, if_false,
      NormalModule.shim_missing_export, NormalModule.create_top_level_symbol,
      NormalModule.add_to_linked_exports, lkp_upsert_same]
    rw [getNorm_setNorm_other _ _ h5, himp]
    refine ⟨_, rfl, ?_⟩
    rw [getNorm_setNorm_other _ _ (Ne.symm h5)]
    refine ⟨_, getNorm_setNorm_same _ _ _ _ h1, ?_, rfl⟩
    simp [lkp_upsert_same]
  · intro hshim
    simp only [process_cross_re_export, h1, hshim, Bool.false_eq_true, if_false,
      NormalModule.find_exported, suggest_name_linked_exports,
      maybe_mark_linked_exports, hmissR]
  · intro hshim hext
    simp only [process_cross_import, h1, hshim, Bool.false_eq_true, if_false,
      NormalModule.find_exported, suggest_name_linked_exports,
      maybe_mark_linked_exports, hmissI, maybe_mark_ext_set]
    simp only [NormalModule.suggest_name, maybe_mark_ext_set] at *
    simp [hext]
  · intro hshim fid restE hext
    simp only [process_cross_import, h1, hshim, Bool.false_eq_true, if_false,
      NormalModule.find_exported, suggest_name_linked_exports,
      maybe_mark_linked_exports, hmissI]
    simp only [NormalModule.suggest_name, maybe_mark_ext_set] at *
    simp only [hext, maybe_mark_ext_set]
    rw [getNorm_setNorm_other _ _ h5, himp]
    exact ⟨_, rfl⟩

/-- Witness for C6 (amended) at a concrete input: importing the missing
`ghost` from `/m2` with shimming enabled succeeds, exports the shimmed name
and emits the warning. -/
theorem shim_missing_exports_behavior_witness :
    ∃ st', process_cross_import
        ⟨[(⟨"/e", false⟩, .norm ⟨⟨"/e", false⟩, [], [], [], [], [], [], [], [], [],
            false, some 1, true, 0⟩),
          (⟨"/m2", false⟩, .norm ⟨⟨"/m2", false⟩, [], [], [], [], [], [], [], [], [],
            false, some 0, false, 0⟩)], ⟨[]⟩, [], true⟩
        ⟨"/e", false⟩ ⟨"/m2", false⟩ ⟨"ghost", ⟨⟨"/e", false⟩, "ghost", 0⟩⟩ = .ok st' ∧
      ∃ tee', getNorm st'.mods ⟨"/m2", false⟩ = some tee' ∧
        (lkp "ghost" tee'.linked_exports).isSome = true ∧
        st'.warnings = [] ++ [.shimmedExport "ghost" "/m2"] := by
  exact (shim_missing_exports_behavior
    ⟨[(⟨"/e", false⟩, .norm ⟨⟨"/e", false⟩, [], [], [], [], [], [], [], [], [],
        false, some 1, true, 0⟩),
      (⟨"/m2", false⟩, .norm ⟨⟨"/m2", false⟩, [], [], [], [], [], [], [], [], [],
        false, some 0, false, 0⟩)], ⟨[]⟩, [], true⟩
    ⟨"/e", false⟩ ⟨"/m2", false⟩ ⟨"ghost", "ghost"⟩
    ⟨"ghost", ⟨⟨"/e", false⟩, "ghost", 0⟩⟩
    ⟨⟨"/m2", false⟩, [], [], [], [], [], [], [], [], [], false, some 0, false, 0⟩
    rfl (by decide) (by decide) rfl rfl).2.1 rfl

/-- Concrete input refuting C8 as stated: `/A` wildcard-re-exports `/B`,
`/B` wildcard-re-exports the external `c-ext`. -/
def c8mods : ModuleById :=
  [(⟨"/A", false⟩, .norm ⟨⟨"/A", false⟩, [⟨"/B", false⟩], [], [], [],
      [⟨"/B", false⟩], [], [], [], [], false, some 2, true, 0⟩),
   (⟨"/B", false⟩, .norm ⟨⟨"/B", false⟩, [⟨"c-ext", true⟩], [], [], [],
      [⟨"c-ext", true⟩], [], [], [], [], false, some 1, false, 0⟩),
   (⟨"c-ext", true⟩, .ext ⟨⟨"c-ext", true⟩, [], some 0⟩)]

def c8st : LinkSt := ⟨c8mods, ⟨[]⟩, [], false⟩

/-- Counterexample to C8 as stated: after the exports pass on the concrete
chain `A export* B`, `B export* c-ext` with `c-ext` external, the external
module is a member of `A.re_export_all` but not of
`A.external_modules_of_re_export_all`, although the claim requires the
latter for external targets. -/
theorem re_export_transitivity_counterexample :
    (ModuleId.mk "c-ext" true).external = true ∧
      ∃ st', link_exports c8st (order_modules c8st.mods) = .ok st' ∧
        ∃ A', getNorm st'.mods ⟨"/A", false⟩ = some A' ∧
          A'.external_modules_of_re_export_all = [] ∧
          ModuleId.mk "c-ext" true ∈ A'.re_export_all := by
  refine ⟨rfl, _, rfl, ?_⟩
  refine ⟨_, rfl, ?_, ?_⟩ <;> decide

/-- C5: External-namespace import fallback.  When a normal importee does
not export the requested name (shimming off, so the miss persists) but its
`external_modules_of_re_export_all` is non-empty, linking succeeds for the
specifier: the first external id is selected, an
`AmbiguousExternalNamespaces` warning listing all candidates is emitted
exactly when there are several, a fresh top-level symbol is created in
the importee, the importee gains `linked_imports` toward the chosen external id
and `linked_exports[s.imported] = {exported_as: s.imported, local_id:
fresh, owner: importee}`, the importer gains `linked_imports` toward
the importee carrying the original specifier, and `s.imported_as` is unioned
with the fresh symbol. -/
theorem external_namespace_fallback (st : LinkSt) (importer_id importee_id : ModuleId)
    (spec : ImportedSpecifier) (importee : NormalModule) (first : ModuleId)
    (rest : List ModuleId)
    (h1 : getNorm st.mods importee_id = some importee)
    (h2 : (getNorm st.mods importer_id).isSome = true)
    (h5 : importer_id ≠ importee_id)
    (hshim : st.shim = false)
    (hmiss : lkp spec.imported importee.linked_exports = none)
    (hext : importee.external_modules_of_re_export_all = first :: rest) :
    ∃ st', process_cross_import st importer_id importee_id spec = .ok st' ∧
      ∃ fresh, fresh = Symbol.mk importee.id spec.imported_as.name importee.next_disamb ∧
      (∃ tee', getNorm st'.mods importee_id = some tee' ∧
        (first, ⟨spec.imported, fresh⟩) ∈ tee'.linked_imports ∧
        lkp spec.imported tee'.linked_exports =
          some ⟨spec.imported, fresh, importee_id⟩) ∧
      (∃ ter', getNorm st'.mods importer_id = some ter' ∧
        (importee_id, ⟨spec.imported, spec.imported_as⟩) ∈ ter'.linked_imports) ∧
      st'.uf.same spec.imported_as fresh = true ∧
      st'.warnings =
        (if 1 < (first :: rest).length then
          st.warnings ++ [.ambiguousExternalNamespaces spec.imported_as.name
            importee_id first (first :: rest)]
        else st.warnings) := by
  obtain ⟨importer, himp⟩ := Option.isSome_iff_exists.mp h2
  simp only [process_cross_import, h1, hshim, Bool.false_eq_true, if_false,
    NormalModule.find_exported, suggest_name_linked_exports,
    maybe_mark_linked_exports, hmiss]
  simp only [NormalModule.suggest_name, maybe_mark_ext_set] at *
  simp only [hext, maybe_mark_ext_set]
  rw [getNorm_setNorm_other _ _ h5, himp]
  refine ⟨_, rfl,
    Symbol.mk importee.id spec.imported_as.name importee.next_disamb, rfl,
    ?_, ?_, ?_, ?_⟩
  · rw [getNorm_setNorm_other _ _ (Ne.symm h5)]
    refine ⟨_,
      getNorm_setNorm_same _ _ _ _ (getNorm_setNorm_same _ _ _ _ h1), ?_, ?_⟩
    · simp [NormalModule.create_top_level_symbol, NormalModule.add_to_linked_imports,
        NormalModule.add_to_linked_exports, maybe_mark_id, maybe_mark_next_disamb,
        maybe_mark_linked_imports]
    · simp [NormalModule.create_top_level_symbol, NormalModule.add_to_linked_imports,
        NormalModule.add_to_linked_exports, maybe_mark_id, maybe_mark_next_disamb,
        lkp_upsert_same]
  · refine ⟨_, getNorm_setNorm_same _ _ _ _
      (by rw [getNorm_setNorm_other _ _ h5, getNorm_setNorm_other _ _ h5]; exact himp), ?_⟩
    simp [NormalModule.add_to_linked_imports]
  · simp only [NormalModule.create_top_level_symbol, maybe_mark_id, maybe_mark_next_disamb]
    exact UnionFind.same_union_self _ _ _
  · rfl

/-- Witness for C5 at a concrete input: importing the missing `widget` from
`/dep`, which wildcard-re-exports two external modules, succeeds with the
ambiguity warning, the synthesized export in the importee and the unioned
fresh symbol. -/
theorem external_namespace_fallback_witness :
    ∃ st', process_cross_import
        ⟨[(⟨"/e2", false⟩, .norm ⟨⟨"/e2", false⟩, [], [], [], [], [], [], [], [], [],
            false, some 1, true, 0⟩),
          (⟨"/dep", false⟩, .norm ⟨⟨"/dep", false⟩, [], [], [], [], [],
            [⟨"ext1", true⟩, ⟨"ext2", true⟩], [], [], [], false, some 0, false, 0⟩)],
          ⟨[]⟩, [], false⟩
        ⟨"/e2", false⟩ ⟨"/dep", false⟩ ⟨"widget", ⟨⟨"/e2", false⟩, "widget", 0⟩⟩ =
          .ok st' ∧
      ∃ fresh, fresh = Symbol.mk ⟨"/dep", false⟩ "widget" 0 ∧
      (∃ tee', getNorm st'.mods ⟨"/dep", false⟩ = some tee' ∧
        (ModuleId.mk "ext1" true, ⟨"widget", fresh⟩) ∈ tee'.linked_imports ∧
        lkp "widget" tee'.linked_exports =
          some ⟨"widget", fresh, ⟨"/dep", false⟩⟩) ∧
      (∃ ter', getNorm st'.mods ⟨"/e2", false⟩ = some ter' ∧
        (ModuleId.mk "/dep" false,
          ⟨"widget", ⟨⟨"/e2", false⟩, "widget", 0⟩⟩) ∈ ter'.linked_imports) ∧
      st'.uf.same ⟨⟨"/e2", false⟩, "widget", 0⟩ fresh = true ∧
      st'.warnings =
        (if 1 < ([⟨"ext1", true⟩, ⟨"ext2", true⟩] : List ModuleId).length then
          [] ++ [.ambiguousExternalNamespaces "widget" ⟨"/dep", false⟩ ⟨"ext1", true⟩
            [⟨"ext1", true⟩, ⟨"ext2", true⟩]]
        else []) := by
  exact external_namespace_fallback
    ⟨[(⟨"/e2", false⟩, .norm ⟨⟨"/e2", false⟩, [], [], [], [], [], [], [], [], [],
        false, some 1, true, 0⟩),
      (⟨"/dep", false⟩, .norm ⟨⟨"/dep", false⟩, [], [], [], [], [],
        [⟨"ext1", true⟩, ⟨"ext2", true⟩], [], [], [], false, some 0, false, 0⟩)],
      ⟨[]⟩, [], false⟩
    ⟨"/e2", false⟩ ⟨"/dep", false⟩ ⟨"widget", ⟨⟨"/e2", false⟩, "widget", 0⟩⟩
    ⟨⟨"/dep", false⟩, [], [], [], [], [], [⟨"ext1", true⟩, ⟨"ext2", true⟩],
      [], [], [], false, some 0, false, 0⟩
    ⟨"ext1", true⟩ [⟨"ext2", true⟩] rfl (by decide) (by decide) rfl rfl rfl

theorem mem_getOrInsert_of_mem {α : Type} [DecidableEq α] {l : List α} {x : α} (y : α)
    (h : x ∈ l) : x ∈ getOrInsert l y := by
  unfold getOrInsert
  split
  · exact h
  · exact List.mem_append_left _ h

theorem mem_getOrInsert_self {α : Type} [DecidableEq α] (l : List α) (y : α) :
    y ∈ getOrInsert l y := by
  unfold getOrInsert
  split
  · assumption
  · exact List.mem_append_right _ (List.mem_singleton.mpr rfl)

theorem mem_foldl_getOrInsert_left {α : Type} [DecidableEq α] (l : List α) :
    ∀ (acc : List α) (x : α), x ∈ acc → x ∈ l.foldl getOrInsert acc := by
  induction l with
  | nil => intro acc x h; exact h
  | cons a as ih =>
    intro acc x h
    exact ih (getOrInsert acc a) x (mem_getOrInsert_of_mem a h)

theorem mem_foldl_getOrInsert_right {α : Type} [DecidableEq α] (l : List α) :
    ∀ (acc : List α) (x : α), x ∈ l → x ∈ l.foldl getOrInsert acc := by
  induction l with
  | nil => intro acc x h; cases h
  | cons a as ih =>
    intro acc x h
    rcases List.mem_cons.mp h with h | h
    · subst h
      exact mem_foldl_getOrInsert_left as _ x (mem_getOrInsert_self acc x)
    · exact ih _ x h

theorem getNorm_eq_lkp {mods : ModuleById} {id : ModuleId} {m : NormalModule} :
    getNorm mods id = some m ↔ lkp id mods = some (.norm m) := by
  unfold getNorm
  cases h : lkp id mods with
  | none => simp
  | some v => cases v <;> simp

/-- Growth relation used for C8: every normal module stays present and its
`re_export_all` set only grows. -/
def re_mono (st st' : LinkSt) : Prop :=
  ∀ id m, getNorm st.mods id = some m →
    ∃ m', getNorm st'.mods id = some m' ∧ ∀ x ∈ m.re_export_all, x ∈ m'.re_export_all

theorem re_mono_refl (st : LinkSt) : re_mono st st :=
  fun _ m h => ⟨m, h, fun _ hx => hx⟩

theorem re_mono_trans {st1 st2 st3 : LinkSt} (h1 : re_mono st1 st2)
    (h2 : re_mono st2 st3) : re_mono st1 st3 := by
  intro id m hm
  obtain ⟨m', hm', hsub⟩ := h1 id m hm
  obtain ⟨m'', hm'', hsub'⟩ := h2 id m' hm'
  exact ⟨m'', hm'', fun x hx => hsub' x (hsub x hx)⟩

theorem re_mono_setNorm (st : LinkSt) (uf : UnionFind) (w : List Warning) (sh : Bool)
    (id0 : ModuleId) (m0 m1 : NormalModule) (h0 : getNorm st.mods id0 = some m0)
    (hsub : ∀ x ∈ m0.re_export_all, x ∈ m1.re_export_all) :
    re_mono st ⟨setNorm st.mods id0 m1, uf, w, sh⟩ := by
  intro id m hm
  by_cases hid : id = id0
  · subst hid
    rw [h0] at hm
    cases hm
    exact ⟨m1, getNorm_setNorm_same _ _ _ _ h0, hsub⟩
  · exact ⟨m, by simpa using (getNorm_setNorm_other st.mods m1 hid).symm ▸ hm, fun _ hx => hx⟩

theorem re_mono_of_eq_mods {st st' : LinkSt} (h : st'.mods = st.mods) :
    re_mono st st' := by
  intro id m hm
  exact ⟨m, h ▸ hm, fun _ hx => hx⟩

theorem foldE_rel {α : Type} (f : LinkSt → α → Except BuildError LinkSt)
    (R : LinkSt → LinkSt → Prop) (hrefl : ∀ st, R st st)
    (htrans : ∀ {a b c}, R a b → R b c → R a c)
    (hf : ∀ st x st', f st x = .ok st' → R st st') :
    ∀ (l : List α) st st', foldE f st l = .ok st' → R st st' := by
  intro l
  induction l with
  | nil =>
    intro st st' h
    simp only [foldE] at h
    cases h
    exact hrefl st
  | cons x xs ih =>
    intro st st' h
    simp only [foldE] at h
    cases hfx : f st x with
    | error e => rw [hfx] at h; exact Except.noConfusion h
    | ok st1 =>
      rw [hfx] at h
      exact htrans (hf st x st1 hfx) (ih st1 st' h)

theorem foldE_split {α : Type} (f : LinkSt → α → Except BuildError LinkSt) :
    ∀ (l1 l2 : List α) st st', foldE f st (l1 ++ l2) = .ok st' →
      ∃ st1, foldE f st l1 = .ok st1 ∧ foldE f st1 l2 = .ok st' := by
  intro l1
  induction l1 with
  | nil =>
    intro l2 st st' h
    exact ⟨st, rfl, h⟩
  | cons x xs ih =>
    intro l2 st st' h
    simp only [List.cons_append, foldE] at h ⊢
    cases hfx : f st x with
    | error e => rw [hfx] at h; exact Except.noConfusion h
    | ok st1 =>
      rw [hfx] at h
      exact ih l2 st1 st' h

theorem wildcard_copy_exports_re (m tee : NormalModule) (en ncn : List String) :
    (wildcard_copy_exports m tee en ncn).re_export_all = m.re_export_all := by
  unfold wildcard_copy_exports
  induction tee.linked_exports generalizing m with
  | nil => rfl
  | cons kv rest ih =>
    simp only [List.foldl_cons]
    rw [ih]
    by_cases h1 : kv.1 = "default"
    · simp [h1]
    · by_cases h2 : kv.1 ∈ en
      · simp [h1, h2]
      · by_cases h3 : kv.1 ∈ ncn <;>
          simp [h1, h2, h3, NormalModule.add_to_linked_exports]

theorem process_self_re_export_mono (st st' : LinkSt) (id : ModuleId)
    (sp : ReExportedSpecifier) (h : process_self_re_export st id sp = .ok st') :
    re_mono st st' := by
  unfold process_self_re_export at h
  cases hg : getNorm st.mods id with
  | none => rw [hg] at h; exact Except.noConfusion h
  | some m =>
    rw [hg] at h
    dsimp only at h
    split at h
    · cases h
      refine re_mono_setNorm st _ _ _ id m _ hg ?_
      intro x hx
      by_cases hstar : sp.imported = "*" <;>
        simp [hstar, NormalModule.add_to_linked_exports, NormalModule.suggest_name,
          NormalModule.mark_namespace_id_referenced, hx]
    · exact Except.noConfusion h

/-- The growth relation at the level of module maps. -/
def re_mono_m (a b : ModuleById) : Prop :=
  ∀ id m, getNorm a id = some m →
    ∃ m', getNorm b id = some m' ∧ ∀ x ∈ m.re_export_all, x ∈ m'.re_export_all

theorem re_mono_m_refl (a : ModuleById) : re_mono_m a a :=
  fun _ m h => ⟨m, h, fun _ hx => hx⟩

theorem re_mono_m_trans {a b c : ModuleById} (h1 : re_mono_m a b)
    (h2 : re_mono_m b c) : re_mono_m a c := by
  intro id m hm
  obtain ⟨m', hm', hsub⟩ := h1 id m hm
  obtain ⟨m'', hm'', hsub'⟩ := h2 id m' hm'
  exact ⟨m'', hm'', fun x hx => hsub' x (hsub x hx)⟩

theorem re_mono_m_setNorm (mods : ModuleById) (id0 : ModuleId) (m0 m1 : NormalModule)
    (h0 : getNorm mods id0 = some m0)
    (hsub : ∀ x ∈ m0.re_export_all, x ∈ m1.re_export_all) :
    re_mono_m mods (setNorm mods id0 m1) := by
  intro id m hm
  by_cases hid : id = id0
  · subst hid
    rw [h0] at hm
    cases hm
    exact ⟨m1, getNorm_setNorm_same _ _ _ _ h0, hsub⟩
  · exact ⟨m, by simpa using (getNorm_setNorm_other mods m1 hid).symm ▸ hm,
      fun _ hx => hx⟩

theorem re_mono_iff_m (st st' : LinkSt) : re_mono st st' ↔ re_mono_m st.mods st'.mods :=
  Iff.rfl

theorem shim_missing_export_re (m : NormalModule) (n : String) :
    (m.shim_missing_export n).re_export_all = m.re_export_all := rfl

theorem shim_if_needed_re (m : NormalModule) (n : String) :
    (shim_missing_export_if_needed m n).1.re_export_all = m.re_export_all := by
  unfold shim_missing_export_if_needed
  split <;> rfl

theorem suggest_name_re (m : NormalModule) (a b : String) :
    (m.suggest_name a b).re_export_all = m.re_export_all := rfl

theorem maybe_mark_re (m : NormalModule) (c : Prop) [Decidable c] :
    (if c then m.mark_namespace_id_referenced else m).re_export_all =
      m.re_export_all := by
  split <;> rfl

theorem add_to_linked_imports_re (m : NormalModule) (o : ModuleId)
    (s : ImportedSpecifier) : (m.add_to_linked_imports o s).re_export_all =
      m.re_export_all := rfl

theorem add_to_linked_exports_re (m : NormalModule) (k : String)
    (e : ExportedSpecifier) : (m.add_to_linked_exports k e).re_export_all =
      m.re_export_all := rfl

theorem create_top_level_symbol_re (m : NormalModule) (n : String) :
    (m.create_top_level_symbol n).2.re_export_all = m.re_export_all := rfl

theorem process_cross_re_export_mono (st st' : LinkSt) (ter tee : ModuleId)
    (sp : ReExportedSpecifier) (h : process_cross_re_export st ter tee sp = .ok st') :
    re_mono st st' := by
  unfold process_cross_re_export at h
  cases hg : getNorm st.mods tee with
  | none => rw [hg] at h; exact Except.noConfusion h
  | some m =>
    rw [hg] at h
    dsimp only at h
    split at h
    · rename_i orig heq
      split at h
      · exact Except.noConfusion h
      · rename_i mter hg2
        cases h
        rw [re_mono_iff_m]
        refine re_mono_m_trans (re_mono_m_setNorm st.mods tee m _ hg ?_)
          (re_mono_m_setNorm _ ter mter _ hg2 ?_)
        · intro x hx
          by_cases hsh : st.shim = true <;> by_cases hstar : sp.imported = "*" <;>
            simp [hsh, hstar, shim_if_needed_re, suggest_name_re,
              NormalModule.suggest_name, NormalModule.mark_namespace_id_referenced, hx]
        · intro x hx
          simpa [add_to_linked_exports_re] using hx
    · exact Except.noConfusion h

theorem process_external_re_export_mono (st st' : LinkSt) (ter tee : ModuleId)
    (sp : ReExportedSpecifier) (h : process_external_re_export st ter tee sp = .ok st') :
    re_mono st st' := by
  unfold process_external_re_export at h
  cases hg : getNorm st.mods ter with
  | none => rw [hg] at h; exact Except.noConfusion h
  | some m =>
    rw [hg] at h
    dsimp only at h
    cases h
    rw [re_mono_iff_m]
    refine re_mono_m_setNorm st.mods ter m _ hg ?_
    intro x hx
    simpa [add_to_linked_exports_re, add_to_linked_imports_re,
      create_top_level_symbol_re] using hx

theorem process_re_export_pair_mono (st st' : LinkSt) (ter : ModuleId)
    (pr : ModuleId × List ReExportedSpecifier)
    (h : process_re_export_pair st ter pr = .ok st') : re_mono st st' := by
  unfold process_re_export_pair at h
  split at h
  · exact foldE_rel _ re_mono re_mono_refl (fun a b => re_mono_trans a b)
      (fun a x b hab => process_self_re_export_mono a b pr.1 x hab) pr.2 st st' h
  · split at h
    · exact foldE_rel _ re_mono re_mono_refl (fun a b => re_mono_trans a b)
        (fun a x b hab => process_cross_re_export_mono a b ter pr.1 x hab) pr.2 st st' h
    · exact foldE_rel _ re_mono re_mono_refl (fun a b => re_mono_trans a b)
        (fun a x b hab => process_external_re_export_mono a b ter pr.1 x hab) pr.2 st st' h
    · exact Except.noConfusion h

theorem wildcard_process_target_mono (st st' : LinkSt) (ter : ModuleId)
    (en ncn : List String) (tid : ModuleId)
    (h : wildcard_process_target st ter en ncn tid = .ok st') : re_mono st st' := by
  unfold wildcard_process_target at h
  split at h
  · cases h
    exact re_mono_refl st
  · split at h
    · rename_i tee mter heq1 heq2
      cases h
      rw [re_mono_iff_m]
      refine re_mono_m_setNorm st.mods ter mter _ heq2 ?_
      intro x hx
      refine mem_foldl_getOrInsert_left _ _ _ ?_
      rw [wildcard_copy_exports_re]
      exact mem_foldl_getOrInsert_left _ _ _ hx
    · rename_i e mter heq1 heq2
      cases h
      rw [re_mono_iff_m]
      refine re_mono_m_setNorm st.mods ter mter _ heq2 ?_
      intro x hx
      exact hx
    · exact Except.noConfusion h

theorem process_re_export_all_mono (st st' : LinkSt) (ter : ModuleId)
    (h : process_re_export_all st ter = .ok st') : re_mono st st' := by
  unfold process_re_export_all at h
  cases hg : getNorm st.mods ter with
  | none => rw [hg] at h; exact Except.noConfusion h
  | some m =>
    rw [hg] at h
    dsimp only at h
    exact foldE_rel _ re_mono re_mono_refl (fun a b => re_mono_trans a b)
      (fun a x b hab => wildcard_process_target_mono a b ter _ _ x hab) _ st st' h

theorem link_exports_one_mono (st st' : LinkSt) (ter : ModuleId)
    (h : link_exports_one st ter = .ok st') : re_mono st st' := by
  unfold link_exports_one at h
  split at h
  · cases h
    exact re_mono_refl st
  · cases hg : getNorm st.mods ter with
    | none => rw [hg] at h; exact Except.noConfusion h
    | some m =>
      rw [hg] at h
      dsimp only at h
      cases hfold : foldE (fun s pr => process_re_export_pair s ter pr) st
          m.re_exported_ids with
      | error e => rw [hfold] at h; exact Except.noConfusion h
      | ok st1 =>
        rw [hfold] at h
        refine re_mono_trans ?_ (process_re_export_all_mono st1 st' ter h)
        exact foldE_rel _ re_mono re_mono_refl (fun a b => re_mono_trans a b)
          (fun a x b hab => process_re_export_pair_mono a b ter x hab) _ st st1 hfold

theorem link_exports_mono (st st' : LinkSt) (order : List ModuleId)
    (h : link_exports st order = .ok st') : re_mono st st' :=
  foldE_rel _ re_mono re_mono_refl (fun a b => re_mono_trans a b)
    (fun a x b hab => link_exports_one_mono a b x hab) order st st' h

theorem wildcard_fold_grows (en ncn : List String) (A B C : ModuleId)
    (targets : List ModuleId) (stm st2 : LinkSt) (mBm : NormalModule)
    (h : foldE (fun s tid => wildcard_process_target s A en ncn tid) stm targets =
      .ok st2)
    (hBt : B ∈ targets) (hBA : ¬ B = A) (hBm : getNorm stm.mods B = some mBm)
    (hC : C ∈ mBm.re_export_all) :
    ∃ mA', getNorm st2.mods A = some mA' ∧ C ∈ mA'.re_export_all := by
  obtain ⟨t1, t2, rfl⟩ := List.append_of_mem hBt
  obtain ⟨sta, ha, hb⟩ := foldE_split _ t1 (B :: t2) stm st2 h
  have hmono_a : re_mono stm sta :=
    foldE_rel _ re_mono re_mono_refl (fun p q => re_mono_trans p q)
      (fun p x q hpq => wildcard_process_target_mono p q A en ncn x hpq) t1 stm sta ha
  obtain ⟨mBa, hBa, hsubBa⟩ := hmono_a B mBm hBm
  simp only [foldE] at hb
  cases htgt : wildcard_process_target sta A en ncn B with
  | error e => rw [htgt] at hb; exact Except.noConfusion hb
  | ok stb =>
    rw [htgt] at hb
    have hmono_b : re_mono stb st2 :=
      foldE_rel _ re_mono re_mono_refl (fun p q => re_mono_trans p q)
        (fun p x q hpq => wildcard_process_target_mono p q A en ncn x hpq) t2 stb st2 hb
    unfold wildcard_process_target at htgt
    rw [if_neg hBA, getNorm_eq_lkp.mp hBa] at htgt
    cases hgA : getNorm sta.mods A with
    | none => rw [hgA] at htgt; exact Except.noConfusion htgt
    | some mAa =>
      rw [hgA] at htgt
      dsimp only at htgt
      cases htgt
      have hC2 : C ∈ (copy_re_export_all
          (wildcard_copy_exports (copy_re_export_all mAa mBa) mBa en ncn)
          mBa).re_export_all := by
        unfold copy_re_export_all
        exact mem_foldl_getOrInsert_right _ _ _ (hsubBa C hC)
      obtain ⟨mA', hA', hsub'⟩ := hmono_b A _ (getNorm_setNorm_same _ _ _ _ hgA)
      exact ⟨mA', hA', hsub' C hC2⟩

/-- C8 as amended: if `A` wildcard-re-exports `B` and `B` wildcard-re-exports
`C`, then after the exports pass `C` is a member of `A.re_export_all`,
whether `C` is a normal or an external module (the code copies the target's
`re_export_all` verbatim; an external `C` is never moved into `A`'s
`external_modules_of_re_export_all`, as the counterexample shows). -/
theorem re_export_all_transitive (st st' : LinkSt) (order : List ModuleId)
    (A B C : ModuleId) (mA mB : NormalModule)
    (hA : getNorm st.mods A = some mA) (hB : getNorm st.mods B = some mB)
    (hABmem : B ∈ mA.re_export_all) (hBC : C ∈ mB.re_export_all)
    (hAorder : A ∈ order) (hAext : ¬ A.external = true) (hBA : ¬ B = A)
    (hok : link_exports st order = .ok st') :
    ∃ mA', getNorm st'.mods A = some mA' ∧ C ∈ mA'.re_export_all := by
  obtain ⟨l1, l2, rfl⟩ := List.append_of_mem hAorder
  unfold link_exports at hok
  obtain ⟨st1, h1, h2⟩ := foldE_split _ l1 (A :: l2) st st' hok
  have hmono1 : re_mono st st1 :=
    foldE_rel _ re_mono re_mono_refl (fun p q => re_mono_trans p q)
      (fun p x q hpq => link_exports_one_mono p q x hpq) l1 st st1 h1
  obtain ⟨mA1, hA1, hsubA1⟩ := hmono1 A mA hA
  obtain ⟨mB1, hB1, hsubB1⟩ := hmono1 B mB hB
  simp only [foldE] at h2
  cases hstep : link_exports_one st1 A with
  | error e => rw [hstep] at h2; exact Except.noConfusion h2
  | ok st2 =>
    rw [hstep] at h2
    have hmono3 : re_mono st2 st' :=
      foldE_rel _ re_mono re_mono_refl (fun p q => re_mono_trans p q)
        (fun p x q hpq => link_exports_one_mono p q x hpq) l2 st2 st' h2
    unfold link_exports_one at hstep
    rw [if_neg hAext, hA1] at hstep
    dsimp only at hstep
    cases hfold : foldE (fun s pr => process_re_export_pair s A pr) st1
        mA1.re_exported_ids with
    | error e => rw [hfold] at hstep; exact Except.noConfusion hstep
    | ok stm =>
      rw [hfold] at hstep
      dsimp only at hstep
      have hmono2 : re_mono st1 stm :=
        foldE_rel _ re_mono re_mono_refl (fun p q => re_mono_trans p q)
          (fun p x q hpq => process_re_export_pair_mono p q A x hpq) _ st1 stm hfold
      obtain ⟨mAm, hAm, hsubAm⟩ := hmono2 A mA1 hA1
      obtain ⟨mBm, hBm, hsubBm⟩ := hmono2 B mB1 hB1
      unfold process_re_export_all at hstep
      rw [hAm] at hstep
      dsimp only at hstep
      have hBmem : B ∈ mAm.re_export_all := hsubAm B (hsubA1 B hABmem)
      obtain ⟨mA2, hA2, hC2⟩ := wildcard_fold_grows _ _ A B C _ stm st2 mBm hstep
        hBmem hBA hBm (hsubBm C (hsubB1 C hBC))
      obtain ⟨mA', hA', hsub'⟩ := hmono3 A mA2 hA2
      exact ⟨mA', hA', hsub' C hC2⟩

/-- Witness for C8 (amended) at the counterexample input: the external
`c-ext` reached through `B` ends up in `A.re_export_all`. -/
theorem re_export_all_transitive_witness :
    ∃ mA', getNorm
        (match link_exports c8st (order_modules c8st.mods) with
          | .ok st' => st'
          | .error _ => c8st).mods ⟨"/A", false⟩ = some mA' ∧
      ModuleId.mk "c-ext" true ∈ mA'.re_export_all := by
  have h := re_export_all_transitive c8st
    (match hres : link_exports c8st (order_modules c8st.mods) with
      | .ok st' => st'
      | .error _ => c8st)
    (order_modules c8st.mods) ⟨"/A", false⟩ ⟨"/B", false⟩ ⟨"c-ext", true⟩
    ⟨⟨"/A", false⟩, [⟨"/B", false⟩], [], [], [], [⟨"/B", false⟩], [], [], [], [],
      false, some 2, true, 0⟩
    ⟨⟨"/B", false⟩, [⟨"c-ext", true⟩], [], [], [], [⟨"c-ext", true⟩], [], [], [], [],
      false, some 1, false, 0⟩
    rfl rfl (by decide) (by decide) (by decide) (by decide) (by decide) rfl
  exact h

/-- Characterization of the conflict-table fold of `non_conflicted_names`:
after processing the entry list `P`, a name maps to `some (some e)` exactly
when all its occurrences in `P` carry `e`, to `some none` exactly when two
occurrences disagree, and is absent exactly when unseen; the table keys stay
nodup. -/
def nc_ok (P : List (String × ExportedSpecifier))
    (tmp : List (String × Option ExportedSpecifier)) : Prop :=
  (∀ k, lkp k tmp = none ↔ ¬ k ∈ P.map Prod.fst) ∧
  (∀ k e, lkp k tmp = some (some e) ↔ ((k, e) ∈ P ∧ ∀ e', (k, e') ∈ P → e' = e)) ∧
  (∀ k, lkp k tmp = some none ↔ ∃ e e', (k, e) ∈ P ∧ (k, e') ∈ P ∧ ¬ e' = e) ∧
  (tmp.map Prod.fst).Nodup

theorem nc_ok_nil : nc_ok [] [] := by
  refine ⟨?_, ?_, ?_, ?_⟩ <;> simp [lkp]

theorem nc_ok_step (P : List (String × ExportedSpecifier))
    (tmp : List (String × Option ExportedSpecifier))
    (kv : String × ExportedSpecifier) (h : nc_ok P tmp) :
    nc_ok (P ++ [kv]) (non_conflicted_step tmp kv) := by
  obtain ⟨hnone, hsome, hconf, hnd⟩ := h
  unfold non_conflicted_step
  cases hl : lkp kv.1 tmp with
  | none =>
    have hnotin : ¬ kv.1 ∈ P.map Prod.fst := (hnone kv.1).mp hl
    refine ⟨?_, ?_, ?_, keys_upsert_nodup _ _ _ hnd⟩
    · intro k
      by_cases hk : k = kv.1
      · subst hk
        simp [lkp_upsert_same]
      · rw [lkp_upsert_other hk]
        rw [hnone k]
        simp only [List.map_append, List.mem_append]
        simp [hk]
    · intro k e
      by_cases hk : k = kv.1
      · subst hk
        rw [lkp_upsert_same]
        constructor
        · intro he
          cases he
          refine ⟨List.mem_append_right _ (by simp), ?_⟩
          intro e' he'
          rcases List.mem_append.mp he' with hp | hp
          · exact absurd (List.mem_map.mpr ⟨(kv.1, e'), hp, rfl⟩) hnotin
          · simpa using congrArg Prod.snd (List.mem_singleton.mp hp)
        · intro ⟨hmem, hall⟩
          have := hall kv.2 (List.mem_append_right _ (by simp [Prod.ext_iff]))
          rw [this]
      · rw [lkp_upsert_other hk, hsome k e]
        constructor
        · intro ⟨hmem, hall⟩
          refine ⟨List.mem_append_left _ hmem, ?_⟩
          intro e' he'
          rcases List.mem_append.mp he' with hp | hp
          · exact hall e' hp
          · exact absurd (congrArg Prod.fst (List.mem_singleton.mp hp)) hk
        · intro ⟨hmem, hall⟩
          rcases List.mem_append.mp hmem with hp | hp
          · exact ⟨hp, fun e' he' => hall e' (List.mem_append_left _ he')⟩
          · exact absurd (congrArg Prod.fst (List.mem_singleton.mp hp)) hk
    · intro k
      by_cases hk : k = kv.1
      · subst hk
        rw [lkp_upsert_same]
        constructor
        · intro hcon
          exact Option.noConfusion (Option.some.inj hcon)
        intro ⟨e, e', he, he', hne⟩
        exfalso
        rcases List.mem_append.mp he with hp | hp
        · exact absurd (List.mem_map.mpr ⟨(kv.1, e), hp, rfl⟩) hnotin
        · rcases List.mem_append.mp he' with hq | hq
          · exact absurd (List.mem_map.mpr ⟨(kv.1, e'), hq, rfl⟩) hnotin
          · have h1 := congrArg Prod.snd (List.mem_singleton.mp hp)
            have h2 := congrArg Prod.snd (List.mem_singleton.mp hq)
            exact hne (h2.trans h1.symm)
      · rw [lkp_upsert_other hk, hconf k]
        constructor
        · intro ⟨e, e', he, he', hne⟩
          exact ⟨e, e', List.mem_append_left _ he, List.mem_append_left _ he', hne⟩
        · intro ⟨e, e', he, he', hne⟩
          rcases List.mem_append.mp he with hp | hp
          · rcases List.mem_append.mp he' with hq | hq
            · exact ⟨e, e', hp, hq, hne⟩
            · exact absurd (congrArg Prod.fst (List.mem_singleton.mp hq)) hk
          · exact absurd (congrArg Prod.fst (List.mem_singleton.mp hp)) hk
  | some oe =>
    have hin : kv.1 ∈ P.map Prod.fst := by
      by_contra hc
      rw [(hnone kv.1).mpr hc] at hl
      exact Option.noConfusion hl
    cases oe with
    | some ex =>
      have hex := (hsome kv.1 ex).mp hl
      dsimp only
      by_cases heq : ex = kv.2
      · rw [if_pos heq]
        refine ⟨?_, ?_, ?_, hnd⟩
        · intro k
          rw [hnone k]
          simp only [List.map_append, List.mem_append]
          constructor
          · intro hni hcon
            rcases hcon with hp | hp
            · exact hni hp
            · simp only [List.map_cons, List.map_nil, List.mem_singleton] at hp
              subst hp
              exact hni hin
          · intro hni hp
            exact hni (Or.inl hp)
        · intro k e
          rw [hsome k e]
          constructor
          · intro ⟨hmem, hall⟩
            refine ⟨List.mem_append_left _ hmem, ?_⟩
            intro e' he'
            rcases List.mem_append.mp he' with hp | hp
            · exact hall e' hp
            · have h1 := List.mem_singleton.mp hp
              have hk : k = kv.1 := congrArg Prod.fst h1
              have h2 : e' = kv.2 := congrArg Prod.snd h1
              subst hk
              have : ex = e := hall ex hex.1
              rw [h2, ← heq, this]
          · intro ⟨hmem, hall⟩
            rcases List.mem_append.mp hmem with hp | hp
            · exact ⟨hp, fun e' he' => hall e' (List.mem_append_left _ he')⟩
            · have h1 := List.mem_singleton.mp hp
              have hk : k = kv.1 := congrArg Prod.fst h1
              have h2 : e = kv.2 := congrArg Prod.snd h1
              subst hk
              refine ⟨h2 ▸ heq ▸ hex.1, fun e' he' => hall e' (List.mem_append_left _ he')⟩
        · intro k
          rw [hconf k]
          constructor
          · intro ⟨e, e', he, he', hne⟩
            exact ⟨e, e', List.mem_append_left _ he, List.mem_append_left _ he', hne⟩
          · intro ⟨e, e', he, he', hne⟩
            have hg : ∀ x, (k, x) ∈ P ++ [kv] → (k, x) ∈ P ∨ (k = kv.1 ∧ x = kv.2) := by
              intro x hx
              rcases List.mem_append.mp hx with hp | hp
              · exact Or.inl hp
              · have h1 := List.mem_singleton.mp hp
                exact Or.inr ⟨congrArg Prod.fst h1, congrArg Prod.snd h1⟩
            rcases hg e he with hp | ⟨hk, hv⟩
            · rcases hg e' he' with hq | ⟨hk', hv'⟩
              · exact ⟨e, e', hp, hq, hne⟩
              · subst hk'
                refine ⟨e, ex, hp, hex.1, ?_⟩
                rw [hv', ← heq] at hne
                intro hcon
                exact hne hcon
            · subst hk
              rcases hg e' he' with hq | ⟨hk', hv'⟩
              · refine ⟨ex, e', hex.1, hq, ?_⟩
                rw [hv, ← heq] at hne
                intro hcon
                exact hne (hcon.symm ▸ rfl)
              · rw [hv, hv'] at hne
                exact absurd rfl hne
      · rw [if_neg heq]
        refine ⟨?_, ?_, ?_, keys_upsert_nodup _ _ _ hnd⟩
        · intro k
          by_cases hk : k = kv.1
          · subst hk
            rw [lkp_upsert_same]
            simp [hin]
          · rw [lkp_upsert_other hk, hnone k]
            simp only [List.map_append, List.mem_append]
            simp [hk]
        · intro k e
          by_cases hk : k = kv.1
          · subst hk
            rw [lkp_upsert_same]
            constructor
            · intro hcon
              exact Option.noConfusion (Option.some.inj hcon)
            intro ⟨hmem, hall⟩
            exfalso
            have h1 := hall ex (List.mem_append_left _ hex.1)
            have h2 := hall kv.2
              (List.mem_append_right _ (by simp [Prod.ext_iff]))
            exact heq (h1.symm ▸ h2 ▸ rfl)
          · rw [lkp_upsert_other hk, hsome k e]
            constructor
            · intro ⟨hmem, hall⟩
              refine ⟨List.mem_append_left _ hmem, ?_⟩
              intro e' he'
              rcases List.mem_append.mp he' with hp | hp
              · exact hall e' hp
              · exact absurd (congrArg Prod.fst (List.mem_singleton.mp hp)) hk
            · intro ⟨hmem, hall⟩
              rcases List.mem_append.mp hmem with hp | hp
              · exact ⟨hp, fun e' he' => hall e' (List.mem_append_left _ he')⟩
              · exact absurd (congrArg Prod.fst (List.mem_singleton.mp hp)) hk
        · intro k
          by_cases hk : k = kv.1
          · subst hk
            rw [lkp_upsert_same]
            simp only [true_iff]
            exact ⟨ex, kv.2, List.mem_append_left _ hex.1,
              List.mem_append_right _ (by simp [Prod.ext_iff]),
              fun hc => heq hc.symm⟩
          · rw [lkp_upsert_other hk, hconf k]
            constructor
            · intro ⟨e, e', he, he', hne⟩
              exact ⟨e, e', List.mem_append_left _ he, List.mem_append_left _ he', hne⟩
            · intro ⟨e, e', he, he', hne⟩
              rcases List.mem_append.mp he with hp | hp
              · rcases List.mem_append.mp he' with hq | hq
                · exact ⟨e, e', hp, hq, hne⟩
                · exact absurd (congrArg Prod.fst (List.mem_singleton.mp hq)) hk
              · exact absurd (congrArg Prod.fst (List.mem_singleton.mp hp)) hk
    | none =>
      have hcf := (hconf kv.1).mp hl
      dsimp only
      refine ⟨?_, ?_, ?_, hnd⟩
      · intro k
        rw [hnone k]
        simp only [List.map_append, List.mem_append]
        constructor
        · intro hni hcon
          rcases hcon with hp | hp
          · exact hni hp
          · simp only [List.map_cons, List.map_nil, List.mem_singleton] at hp
            subst hp
            exact hni hin
        · intro hni hp
          exact hni (Or.inl hp)
      · intro k e
        rw [hsome k e]
        by_cases hk : k = kv.1
        · subst hk
          constructor
          · intro ⟨hmem, hall⟩
            obtain ⟨e1, e2, he1, he2, hne⟩ := hcf
            exact absurd ((hall e2 he2).trans (hall e1 he1).symm) hne
          · intro ⟨hmem, hall⟩
            obtain ⟨e1, e2, he1, he2, hne⟩ := hcf
            exact absurd ((hall e2 (List.mem_append_left _ he2)).trans
              (hall e1 (List.mem_append_left _ he1)).symm) hne
        · constructor
          · intro ⟨hmem, hall⟩
            refine ⟨List.mem_append_left _ hmem, ?_⟩
            intro e' he'
            rcases List.mem_append.mp he' with hp | hp
            · exact hall e' hp
            · exact absurd (congrArg Prod.fst (List.mem_singleton.mp hp)) hk
          · intro ⟨hmem, hall⟩
            rcases List.mem_append.mp hmem with hp | hp
            · exact ⟨hp, fun e' he' => hall e' (List.mem_append_left _ he')⟩
            · exact absurd (congrArg Prod.fst (List.mem_singleton.mp hp)) hk
      · intro k
        rw [hconf k]
        constructor
        · intro ⟨e, e', he, he', hne⟩
          exact ⟨e, e', List.mem_append_left _ he, List.mem_append_left _ he', hne⟩
        · intro ⟨e, e', he, he', hne⟩
          by_cases hk : k = kv.1
          · subst hk
            obtain ⟨e1, e2, he1, he2, hne'⟩ := hcf
            exact ⟨e1, e2, he1, he2, hne'⟩
          · have hg : ∀ x, (k, x) ∈ P ++ [kv] → (k, x) ∈ P := by
              intro x hx
              rcases List.mem_append.mp hx with hp | hp
              · exact hp
              · exact absurd (congrArg Prod.fst (List.mem_singleton.mp hp)) hk
            exact ⟨e, e', hg e he, hg e' he', hne⟩

theorem nc_ok_fold (l : List (String × ExportedSpecifier)) :
    ∀ P tmp, nc_ok P tmp → nc_ok (P ++ l) (l.foldl non_conflicted_step tmp) := by
  induction l with
  | nil =>
    intro P tmp h
    simpa using h
  | cons kv rest ih =>
    intro P tmp h
    have := ih (P ++ [kv]) (non_conflicted_step tmp kv) (nc_ok_step P tmp kv h)
    simpa using this

theorem mem_nc_result_fold (tmp : List (String × Option ExportedSpecifier)) :
    ∀ (acc : List String) (k : String),
      (k ∈ tmp.foldl
        (fun acc p => match p.2 with | some _ => acc ++ [p.1] | none => acc) acc ↔
      k ∈ acc ∨ ∃ v, (k, some v) ∈ tmp) := by
  induction tmp with
  | nil => intro acc k; simp
  | cons p rest ih =>
    intro acc k
    obtain ⟨a, ov⟩ := p
    cases ov with
    | some v =>
      simp only [List.foldl_cons]
      rw [ih]
      constructor
      · intro hc
        rcases hc with hc | hc
        · rcases List.mem_append.mp hc with hc | hc
          · exact Or.inl hc
          · refine Or.inr ⟨v, ?_⟩
            have : k = a := List.mem_singleton.mp hc
            subst this
            exact List.mem_cons_self _ _
        · obtain ⟨w, hw⟩ := hc
          exact Or.inr ⟨w, List.mem_cons_of_mem _ hw⟩
      · intro hc
        rcases hc with hc | hc
        · exact Or.inl (List.mem_append_left _ hc)
        · obtain ⟨w, hw⟩ := hc
          rcases List.mem_cons.mp hw with hw | hw
          · have hk : k = a := congrArg Prod.fst hw
            subst hk
            exact Or.inl (List.mem_append_right _ (by simp))
          · exact Or.inr ⟨w, hw⟩
    | none =>
      simp only [List.foldl_cons]
      rw [ih]
      constructor
      · intro hc
        rcases hc with hc | hc
        · exact Or.inl hc
        · obtain ⟨w, hw⟩ := hc
          exact Or.inr ⟨w, List.mem_cons_of_mem _ hw⟩
      · intro hc
        rcases hc with hc | hc
        · exact Or.inl hc
        · obtain ⟨w, hw⟩ := hc
          rcases List.mem_cons.mp hw with hw | hw
          · exact absurd (congrArg Prod.snd hw) (by simp)
          · exact Or.inr ⟨w, hw⟩

/-- Membership characterization of `non_conflicted_names`: a name is
non-conflicted exactly when it occurs in the wildcard entry list and all its
occurrences carry the same specifier. -/
theorem mem_ncn_iff (mods : ModuleById) (targets : List ModuleId) (k : String) :
    k ∈ non_conflicted_names mods targets ↔
      ∃ e, (k, e) ∈ wildcard_export_entries mods targets ∧
        ∀ e', (k, e') ∈ wildcard_export_entries mods targets → e' = e := by
  unfold non_conflicted_names
  have hok : nc_ok (wildcard_export_entries mods targets)
      ((wildcard_export_entries mods targets).foldl non_conflicted_step []) := by
    have := nc_ok_fold (wildcard_export_entries mods targets) [] [] nc_ok_nil
    simpa using this
  obtain ⟨hnone, hsome, hconf, hnd⟩ := hok
  rw [mem_nc_result_fold]
  simp only [List.not_mem_nil, false_or]
  constructor
  · intro ⟨v, hv⟩
    have := (hsome k v).mp (lkp_of_mem_nodup hv hnd)
    exact ⟨v, this.1, this.2⟩
  · intro ⟨e, he, hall⟩
    exact ⟨e, mem_of_lkp_some ((hsome k e).mpr ⟨he, hall⟩)⟩

/-- Membership in the wildcard entry list comes exactly from the normal
targets' export tables. -/
theorem mem_wildcard_entries_iff (mods : ModuleById) (targets : List ModuleId)
    (x : String × ExportedSpecifier) :
    x ∈ wildcard_export_entries mods targets ↔
      ∃ tid ∈ targets, ∃ tm, getNorm mods tid = some tm ∧ x ∈ tm.linked_exports := by
  unfold wildcard_export_entries
  suffices h : ∀ (acc : List (String × ExportedSpecifier)),
      x ∈ targets.foldl
        (fun acc tid => match lkp tid mods with
          | some (.norm t) => acc ++ t.linked_exports
          | _ => acc) acc ↔
      x ∈ acc ∨ ∃ tid ∈ targets, ∃ tm, getNorm mods tid = some tm ∧
        x ∈ tm.linked_exports by
    rw [h []]
    simp
  induction targets with
  | nil => intro acc; simp
  | cons t rest ih =>
    intro acc
    simp only [List.foldl_cons]
    cases hl : lkp t mods with
    | none =>
      rw [ih]
      unfold getNorm
      constructor
      · intro hc
        rcases hc with hc | ⟨tid, htid, tm, htm, hx⟩
        · exact Or.inl hc
        · exact Or.inr ⟨tid, List.mem_cons_of_mem _ htid, tm, htm, hx⟩
      · intro hc
        rcases hc with hc | ⟨tid, htid, tm, htm, hx⟩
        · exact Or.inl hc
        · rcases List.mem_cons.mp htid with rfl | htid
          · rw [hl] at htm
            exact Option.noConfusion htm
          · exact Or.inr ⟨tid, htid, tm, htm, hx⟩
    | some v =>
      cases v with
      | norm tm0 =>
        rw [ih]
        constructor
        · intro hc
          rcases hc with hc | ⟨tid, htid, tm, htm, hx⟩
          · rcases List.mem_append.mp hc with hc | hc
            · exact Or.inl hc
            · exact Or.inr ⟨t, List.mem_cons_self _ _, tm0,
                by unfold getNorm; rw [hl], hc⟩
          · exact Or.inr ⟨tid, List.mem_cons_of_mem _ htid, tm, htm, hx⟩
        · intro hc
          rcases hc with hc | ⟨tid, htid, tm, htm, hx⟩
          · exact Or.inl (List.mem_append_left _ hc)
          · rcases List.mem_cons.mp htid with rfl | htid
            · unfold getNorm at htm
              rw [hl] at htm
              cases htm
              exact Or.inl (List.mem_append_right _ hx)
            · exact Or.inr ⟨tid, htid, tm, htm, hx⟩
      | ext em =>
        rw [ih]
        constructor
        · intro hc
          rcases hc with hc | ⟨tid, htid, tm, htm, hx⟩
          · exact Or.inl hc
          · exact Or.inr ⟨tid, List.mem_cons_of_mem _ htid, tm, htm, hx⟩
        · intro hc
          rcases hc with hc | ⟨tid, htid, tm, htm, hx⟩
          · exact Or.inl hc
          · rcases List.mem_cons.mp htid with rfl | htid
            · unfold getNorm at htm
              rw [hl] at htm
              exact Option.noConfusion htm
            · exact Or.inr ⟨tid, htid, tm, htm, hx⟩

theorem copy_re_export_all_linked_exports (m tee : NormalModule) :
    (copy_re_export_all m tee).linked_exports = m.linked_exports := rfl

/-- Lookup after the conditional copy fold of the wildcard phase: a
non-default, non-explicit, non-conflicted name present in the source list is
copied; everything else keeps the importer's previous binding. -/
theorem copy_fold_lookup (en ncn : List String) (n : String) :
    ∀ (L : List (String × ExportedSpecifier)) (m : NormalModule),
      (L.map Prod.fst).Nodup →
      lkp n (L.foldl (fun acc kv =>
        if kv.1 = "default" then acc
        else if kv.1 ∈ en then acc
        else if kv.1 ∈ ncn then acc.add_to_linked_exports kv.1 kv.2
        else acc) m).linked_exports =
      (if ¬ n = "default" ∧ ¬ n ∈ en ∧ n ∈ ncn then
        (match lkp n L with
          | some e => some e
          | none => lkp n m.linked_exports)
      else lkp n m.linked_exports) := by
  intro L
  induction L with
  | nil =>
    intro m _
    simp only [List.foldl_nil, lkp]
    split <;> rfl
  | cons kv rest ih =>
    intro m hnd
    simp only [List.map_cons, List.nodup_cons] at hnd
    simp only [List.foldl_cons]
    by_cases h1 : kv.1 = "default"
    · rw [if_pos h1, ih m hnd.2]
      by_cases hc : ¬ n = "default" ∧ ¬ n ∈ en ∧ n ∈ ncn
      · rw [if_pos hc, if_pos hc]
        have hne : ¬ kv.1 = n := fun hh => hc.1 (hh ▸ h1)
        simp [lkp, hne]
      · rw [if_neg hc, if_neg hc]
    · rw [if_neg h1]
      by_cases h2 : kv.1 ∈ en
      · rw [if_pos h2, ih m hnd.2]
        by_cases hc : ¬ n = "default" ∧ ¬ n ∈ en ∧ n ∈ ncn
        · rw [if_pos hc, if_pos hc]
          have hne : ¬ kv.1 = n := fun hh => hc.2.1 (hh ▸ h2)
          simp [lkp, hne]
        · rw [if_neg hc, if_neg hc]
      · rw [if_neg h2]
        by_cases h3 : kv.1 ∈ ncn
        · rw [if_pos h3, ih _ hnd.2]
          by_cases hk : kv.1 = n
          · subst hk
            have hc : ¬ kv.1 = "default" ∧ ¬ kv.1 ∈ en ∧ kv.1 ∈ ncn := ⟨h1, h2, h3⟩
            rw [if_pos hc, if_pos hc]
            have hrest : lkp kv.1 rest = none :=
              lkp_none_of_not_mem_keys hnd.1
            rw [hrest]
            simp [lkp, NormalModule.add_to_linked_exports, lkp_upsert_same]
          · by_cases hc : ¬ n = "default" ∧ ¬ n ∈ en ∧ n ∈ ncn
            · rw [if_pos hc, if_pos hc]
              simp only [lkp, hk, if_false]
              cases hr : lkp n rest with
              | none =>
                simp [NormalModule.add_to_linked_exports,
                  lkp_upsert_other (fun hh : n = kv.1 => hk hh.symm)]
              | some e => rfl
            · rw [if_neg hc, if_neg hc]
              simp [NormalModule.add_to_linked_exports,
                lkp_upsert_other (fun hh : n = kv.1 => hk hh.symm)]
        · rw [if_neg h3, ih m hnd.2]
          by_cases hc : ¬ n = "default" ∧ ¬ n ∈ en ∧ n ∈ ncn
          · rw [if_pos hc, if_pos hc]
            have hne : ¬ kv.1 = n := fun hh => h3 (hh ▸ hc.2.2)
            simp [lkp, hne]
          · rw [if_neg hc, if_neg hc]

theorem copy_re_export_all_getNormKeep (m tee : NormalModule) :
    (copy_re_export_all m tee).id = m.id := rfl

/-- Some non-self normal wildcard target exports the name. -/
def wcSrc (mods : ModuleById) (A : ModuleId) (ts : List ModuleId) (n : String) : Prop :=
  ∃ tid ∈ ts, ¬ tid = A ∧ ∃ tm, getNorm mods tid = some tm ∧
    n ∈ tm.linked_exports.map Prod.fst

/-- Some non-self normal wildcard target exports the name with specifier `e`. -/
def wcSrcVal (mods : ModuleById) (A : ModuleId) (ts : List ModuleId) (n : String)
    (e : ExportedSpecifier) : Prop :=
  ∃ tid ∈ ts, ¬ tid = A ∧ ∃ tm, getNorm mods tid = some tm ∧
    lkp n tm.linked_exports = some e

theorem wcSrc_nil (mods : ModuleById) (A : ModuleId) (n : String) :
    ¬ wcSrc mods A [] n := by
  intro ⟨tid, htid, _⟩
  cases htid

theorem wcSrcVal_nil (mods : ModuleById) (A : ModuleId) (n : String)
    (e : ExportedSpecifier) : ¬ wcSrcVal mods A [] n e := by
  intro ⟨tid, htid, _⟩
  cases htid

theorem wcSrc_cons_skip (mods : ModuleById) (A t : ModuleId) (rest : List ModuleId)
    (n : String) (h : t = A ∨ getNorm mods t = none) :
    wcSrc mods A (t :: rest) n ↔ wcSrc mods A rest n := by
  constructor
  · intro ⟨tid, htid, hne, tm, htm, hk⟩
    rcases List.mem_cons.mp htid with rfl | htid
    · rcases h with h | h
      · exact absurd h hne
      · rw [h] at htm
        exact Option.noConfusion htm
    · exact ⟨tid, htid, hne, tm, htm, hk⟩
  · intro ⟨tid, htid, hne, tm, htm, hk⟩
    exact ⟨tid, List.mem_cons_of_mem _ htid, hne, tm, htm, hk⟩

theorem wcSrcVal_cons_skip (mods : ModuleById) (A t : ModuleId) (rest : List ModuleId)
    (n : String) (e : ExportedSpecifier) (h : t = A ∨ getNorm mods t = none) :
    wcSrcVal mods A (t :: rest) n e ↔ wcSrcVal mods A rest n e := by
  constructor
  · intro ⟨tid, htid, hne, tm, htm, hk⟩
    rcases List.mem_cons.mp htid with rfl | htid
    · rcases h with h | h
      · exact absurd h hne
      · rw [h] at htm
        exact Option.noConfusion htm
    · exact ⟨tid, htid, hne, tm, htm, hk⟩
  · intro ⟨tid, htid, hne, tm, htm, hk⟩
    exact ⟨tid, List.mem_cons_of_mem _ htid, hne, tm, htm, hk⟩

theorem wcSrc_cons_norm (mods : ModuleById) (A t : ModuleId) (rest : List ModuleId)
    (n : String) (tm0 : NormalModule) (htA : ¬ t = A)
    (h : getNorm mods t = some tm0) :
    wcSrc mods A (t :: rest) n ↔
      (n ∈ tm0.linked_exports.map Prod.fst ∨ wcSrc mods A rest n) := by
  constructor
  · intro ⟨tid, htid, hne, tm, htm, hk⟩
    rcases List.mem_cons.mp htid with rfl | htid
    · rw [h] at htm
      cases htm
      exact Or.inl hk
    · exact Or.inr ⟨tid, htid, hne, tm, htm, hk⟩
  · intro hc
    rcases hc with hc | ⟨tid, htid, hne, tm, htm, hk⟩
    · exact ⟨t, List.mem_cons_self _ _, htA, tm0, h, hc⟩
    · exact ⟨tid, List.mem_cons_of_mem _ htid, hne, tm, htm, hk⟩

theorem wcSrcVal_cons_norm (mods : ModuleById) (A t : ModuleId) (rest : List ModuleId)
    (n : String) (e : ExportedSpecifier) (tm0 : NormalModule) (htA : ¬ t = A)
    (h : getNorm mods t = some tm0) :
    wcSrcVal mods A (t :: rest) n e ↔
      (lkp n tm0.linked_exports = some e ∨ wcSrcVal mods A rest n e) := by
  constructor
  · intro ⟨tid, htid, hne, tm, htm, hk⟩
    rcases List.mem_cons.mp htid with rfl | htid
    · rw [h] at htm
      cases htm
      exact Or.inl hk
    · exact Or.inr ⟨tid, htid, hne, tm, htm, hk⟩
  · intro hc
    rcases hc with hc | ⟨tid, htid, hne, tm, htm, hk⟩
    · exact ⟨t, List.mem_cons_self _ _, htA, tm0, h, hc⟩
    · exact ⟨tid, List.mem_cons_of_mem _ htid, hne, tm, htm, hk⟩

theorem wcSrc_congr (a b : ModuleById) (A : ModuleId) (ts : List ModuleId) (n : String)
    (h : ∀ id, ¬ id = A → lkp id a = lkp id b) :
    wcSrc a A ts n ↔ wcSrc b A ts n := by
  have hg : ∀ id, ¬ id = A → getNorm a id = getNorm b id := by
    intro id hid
    unfold getNorm
    rw [h id hid]
  constructor
  · intro ⟨tid, htid, hne, tm, htm, hk⟩
    exact ⟨tid, htid, hne, tm, (hg tid hne) ▸ htm, hk⟩
  · intro ⟨tid, htid, hne, tm, htm, hk⟩
    exact ⟨tid, htid, hne, tm, (hg tid hne).symm ▸ htm, hk⟩

theorem wcSrcVal_congr (a b : ModuleById) (A : ModuleId) (ts : List ModuleId)
    (n : String) (e : ExportedSpecifier)
    (h : ∀ id, ¬ id = A → lkp id a = lkp id b) :
    wcSrcVal a A ts n e ↔ wcSrcVal b A ts n e := by
  have hg : ∀ id, ¬ id = A → getNorm a id = getNorm b id := by
    intro id hid
    unfold getNorm
    rw [h id hid]
  constructor
  · intro ⟨tid, htid, hne, tm, htm, hk⟩
    exact ⟨tid, htid, hne, tm, (hg tid hne) ▸ htm, hk⟩
  · intro ⟨tid, htid, hne, tm, htm, hk⟩
    exact ⟨tid, htid, hne, tm, (hg tid hne).symm ▸ htm, hk⟩

/-- Effect of the wildcard target fold on the importer's export table: for a
name that is not an explicit export, an entry appears exactly when the name
is not `"default"`, is non-conflicted, and some non-self normal target
exports it; and any resulting entry is the binding of one of the targets. -/
theorem wildcard_fold_table (A : ModuleId) (en ncn : List String) :
    ∀ (ts : List ModuleId) (st st' : LinkSt) (mA : NormalModule),
      foldE (fun s tid => wildcard_process_target s A en ncn tid) st ts = .ok st' →
      getNorm st.mods A = some mA →
      (∀ id m, ¬ id = A → getNorm st.mods id = some m →
        (m.linked_exports.map Prod.fst).Nodup) →
      ∃ mA', getNorm st'.mods A = some mA' ∧
        (∀ id, ¬ id = A → lkp id st'.mods = lkp id st.mods) ∧
        ∀ n, ¬ n ∈ en →
          (((∃ e, lkp n mA'.linked_exports = some e) ↔
            ((∃ e, lkp n mA.linked_exports = some e) ∨
              (¬ n = "default" ∧ n ∈ ncn ∧ wcSrc st.mods A ts n))) ∧
          (∀ e, lkp n mA'.linked_exports = some e →
            (lkp n mA.linked_exports = some e ∨ wcSrcVal st.mods A ts n e))) := by
  intro ts
  induction ts with
  | nil =>
    intro st st' mA h hA hnd
    simp only [foldE] at h
    cases h
    refine ⟨mA, hA, fun _ _ => rfl, ?_⟩
    intro n hn
    constructor
    · constructor
      · intro he
        exact Or.inl he
      · intro hc
        rcases hc with hc | ⟨_, _, hsrc⟩
        · exact hc
        · exact absurd hsrc (wcSrc_nil st.mods A n)
    · intro e he
      exact Or.inl he
  | cons t rest ih =>
    intro st st' mA h hA hnd
    simp only [foldE] at h
    cases hstep : wildcard_process_target st A en ncn t with
    | error e => rw [hstep] at h; exact Except.noConfusion h
    | ok st1 =>
      rw [hstep] at h
      unfold wildcard_process_target at hstep
      by_cases htA : t = A
      · rw [if_pos htA] at hstep
        cases hstep
        obtain ⟨mA', hA', hframe, hchar⟩ := ih st st' mA h hA hnd
        refine ⟨mA', hA', hframe, ?_⟩
        intro n hn
        obtain ⟨hiff, hval⟩ := hchar n hn
        refine ⟨?_, ?_⟩
        · rw [hiff, wcSrc_cons_skip st.mods A t rest n (Or.inl htA)]
        · intro e he
          rcases hval e he with hc | hc
          · exact Or.inl hc
          · exact Or.inr ((wcSrcVal_cons_skip st.mods A t rest n e (Or.inl htA)).mpr hc)
      · rw [if_neg htA] at hstep
        split at hstep
        · rename_i tee mAx heq1 heq2
          rw [hA] at heq2
          cases heq2
          cases hstep
          have htee : getNorm st.mods t = some tee := getNorm_eq_lkp.mpr heq1
          have hndtee : (tee.linked_exports.map Prod.fst).Nodup := hnd t tee htA htee
          obtain ⟨mA', hA', hframe, hchar⟩ := ih _ st' _ h
            (getNorm_setNorm_same st.mods A _ mA hA)
            (by
              intro id m hid hg
              simp only [getNorm_setNorm_other _ _ hid] at hg
              exact hnd id m hid hg)
          have hframe0 : ∀ id, ¬ id = A →
              lkp id (setNorm st.mods A (copy_re_export_all
                (wildcard_copy_exports (copy_re_export_all mA tee) tee en ncn)
                tee)) = lkp id st.mods := by
            intro id hid
            rw [lkp_setNorm, if_neg hid]
          refine ⟨mA', hA', ?_, ?_⟩
          · intro id hid
            rw [hframe id hid]
            exact hframe0 id hid
          · intro n hn
            obtain ⟨hiff, hval⟩ := hchar n hn
            have hmid : lkp n (copy_re_export_all
                (wildcard_copy_exports (copy_re_export_all mA tee) tee en ncn)
                tee).linked_exports =
                (if ¬ n = "default" ∧ ¬ n ∈ en ∧ n ∈ ncn then
                  (match lkp n tee.linked_exports with
                    | some e => some e
                    | none => lkp n mA.linked_exports)
                else lkp n mA.linked_exports) := by
              rw [copy_re_export_all_linked_exports]
              unfold wildcard_copy_exports
              rw [copy_fold_lookup en ncn n tee.linked_exports
                (copy_re_export_all mA tee) hndtee,
                copy_re_export_all_linked_exports]
            refine ⟨?_, ?_⟩
            · rw [hiff, hmid,
                wcSrc_cons_norm st.mods A t rest n tee htA htee,
                wcSrc_congr _ st.mods A rest n hframe0]
              by_cases hc : ¬ n = "default" ∧ ¬ n ∈ en ∧ n ∈ ncn
              · rw [if_pos hc]
                cases hT : lkp n tee.linked_exports with
                | some e0 =>
                  have hkeys : n ∈ tee.linked_exports.map Prod.fst :=
                    mem_keys_of_lkp hT
                  constructor
                  · intro hcc
                    rcases hcc with hcc | hcc
                    · exact Or.inr ⟨hc.1, hc.2.2, Or.inl hkeys⟩
                    · exact Or.inr ⟨hcc.1, hcc.2.1, Or.inr hcc.2.2⟩
                  · intro hcc
                    exact Or.inl ⟨e0, rfl⟩
                | none =>
                  constructor
                  · intro hcc
                    rcases hcc with hcc | hcc
                    · exact Or.inl hcc
                    · exact Or.inr ⟨hcc.1, hcc.2.1, Or.inr hcc.2.2⟩
                  · intro hcc
                    rcases hcc with hcc | ⟨hd, hncn, hsrc⟩
                    · exact Or.inl hcc
                    · rcases hsrc with hsrc | hsrc
                      · obtain ⟨v, hv⟩ := lkp_isSome_of_mem_keys hsrc
                        rw [hv] at hT
                        exact Option.noConfusion hT
                      · exact Or.inr ⟨hd, hncn, hsrc⟩
              · rw [if_neg hc]
                have hcond : ¬ (¬ n = "default" ∧ n ∈ ncn ∧
                    (n ∈ tee.linked_exports.map Prod.fst ∨ wcSrc st.mods A rest n)) := by
                  intro ⟨hd, hncn, _⟩
                  exact hc ⟨hd, hn, hncn⟩
                have hcond2 : ¬ (¬ n = "default" ∧ n ∈ ncn ∧ wcSrc st.mods A rest n) := by
                  intro ⟨hd, hncn, _⟩
                  exact hc ⟨hd, hn, hncn⟩
                constructor
                · intro hcc
                  rcases hcc with hcc | hcc
                  · exact Or.inl hcc
                  · exact absurd hcc hcond2
                · intro hcc
                  rcases hcc with hcc | hcc
                  · exact Or.inl hcc
                  · exact absurd hcc hcond
            · intro e he
              rcases hval e he with hc | hc
              · rw [hmid] at hc
                by_cases hcc : ¬ n = "default" ∧ ¬ n ∈ en ∧ n ∈ ncn
                · rw [if_pos hcc] at hc
                  cases hT : lkp n tee.linked_exports with
                  | some e0 =>
                    rw [hT] at hc
                    cases hc
                    exact Or.inr ((wcSrcVal_cons_norm st.mods A t rest n _ tee
                      htA htee).mpr (Or.inl hT))
                  | none =>
                    rw [hT] at hc
                    exact Or.inl hc
                · rw [if_neg hcc] at hc
                  exact Or.inl hc
              · rw [wcSrcVal_congr _ st.mods A rest n e hframe0] at hc
                exact Or.inr ((wcSrcVal_cons_norm st.mods A t rest n e tee
                  htA htee).mpr (Or.inr hc))
        · rename_i em mAx heq1 heq2
          rw [hA] at heq2
          cases heq2
          cases hstep
          have hextnone : getNorm st.mods t = none := by
            unfold getNorm
            rw [heq1]
          obtain ⟨mA', hA', hframe, hchar⟩ := ih _ st' _ h
            (getNorm_setNorm_same st.mods A _ mA hA)
            (by
              intro id m hid hg
              simp only [getNorm_setNorm_other _ _ hid] at hg
              exact hnd id m hid hg)
          have hframe0 : ∀ id, ¬ id = A →
              lkp id (setNorm st.mods A { mA with external_modules_of_re_export_all := getOrInsert mA.external_modules_of_re_export_all t }) = lkp id st.mods := by
            intro id hid
            rw [lkp_setNorm, if_neg hid]
          refine ⟨mA', hA', ?_, ?_⟩
          · intro id hid
            rw [hframe id hid]
            exact hframe0 id hid
          · intro n hn
            obtain ⟨hiff, hval⟩ := hchar n hn
            refine ⟨?_, ?_⟩
            · rw [hiff, wcSrc_congr _ st.mods A rest n hframe0,
                wcSrc_cons_skip st.mods A t rest n (Or.inr hextnone)]
            · intro e he
              rcases hval e he with hc | hc
              · exact Or.inl hc
              · rw [wcSrcVal_congr _ st.mods A rest n e hframe0] at hc
                exact Or.inr ((wcSrcVal_cons_skip st.mods A t rest n e
                  (Or.inr hextnone)).mpr hc)
        · exact Except.noConfusion hstep

/-- C3: Wildcard-derived export set.  After the wildcard phase of the
exports pass for module `M`, a name `n` that is not an explicit export of
`M` has an entry in `M.linked_exports` if and only if `n` is not
`"default"`, some non-self normal wildcard target exports `n`, and all
wildcard targets exporting `n` carry the identical `ExportedSpecifier`; and
any entry the phase produces for `n` is exactly that common specifier.  A
name carried with differing specifiers by two targets therefore stays
absent unless exported explicitly. -/
theorem wildcard_derived_exports (st st' : LinkSt) (Aid : ModuleId)
    (mA : NormalModule) (n : String)
    (hA : getNorm st.mods Aid = some mA)
    (h : process_re_export_all st Aid = .ok st')
    (hnd : ∀ id m, ¬ id = Aid → getNorm st.mods id = some m →
      (m.linked_exports.map Prod.fst).Nodup)
    (hn : ¬ n ∈ mA.linked_exports.map Prod.fst) :
    ∃ mA', getNorm st'.mods Aid = some mA' ∧
      ((∃ e, lkp n mA'.linked_exports = some e) ↔
        (¬ n = "default" ∧ wcSrc st.mods Aid mA.re_export_all n ∧
          (∀ tid1, tid1 ∈ mA.re_export_all → ∀ tid2, tid2 ∈ mA.re_export_all →
            ∀ tm1 tm2 e1 e2, getNorm st.mods tid1 = some tm1 →
              getNorm st.mods tid2 = some tm2 →
              lkp n tm1.linked_exports = some e1 →
              lkp n tm2.linked_exports = some e2 → e1 = e2))) ∧
      (∀ e, lkp n mA'.linked_exports = some e →
        ∀ tid, tid ∈ mA.re_export_all → ∀ tm e0, getNorm st.mods tid = some tm →
          lkp n tm.linked_exports = some e0 → e = e0) := by
  unfold process_re_export_all at h
  rw [hA] at h
  dsimp only at h
  obtain ⟨mA', hA', hframe, hchar⟩ := wildcard_fold_table Aid
    (mA.linked_exports.map Prod.fst)
    (non_conflicted_names st.mods mA.re_export_all)
    mA.re_export_all st st' mA h hA hnd
  obtain ⟨hiff, hval⟩ := hchar n hn
  have hbase : lkp n mA.linked_exports = none := lkp_none_of_not_mem_keys hn
  have hmem_lkp : ∀ tid tm, tid ∈ mA.re_export_all → getNorm st.mods tid = some tm →
      ∀ e', (n, e') ∈ tm.linked_exports → lkp n tm.linked_exports = some e' := by
    intro tid tm htid htm e' hmem
    by_cases hAid : tid = Aid
    · subst hAid
      rw [hA] at htm
      cases htm
      exact absurd (List.mem_map.mpr ⟨(n, e'), hmem, rfl⟩) hn
    · exact lkp_of_mem_nodup hmem (hnd tid tm hAid htm)
  have hbridge : ∀ e0 tid0 tm0, tid0 ∈ mA.re_export_all →
      getNorm st.mods tid0 = some tm0 → lkp n tm0.linked_exports = some e0 →
      ((n ∈ non_conflicted_names st.mods mA.re_export_all) ↔
        (∀ tid1, tid1 ∈ mA.re_export_all → ∀ tid2, tid2 ∈ mA.re_export_all →
          ∀ tm1 tm2 e1 e2, getNorm st.mods tid1 = some tm1 →
            getNorm st.mods tid2 = some tm2 →
            lkp n tm1.linked_exports = some e1 →
            lkp n tm2.linked_exports = some e2 → e1 = e2)) := by
    intro e0 tid0 tm0 htid0 htm0 hlkp0
    constructor
    · intro hncn
      obtain ⟨e, hee, hall⟩ := (mem_ncn_iff st.mods mA.re_export_all n).mp hncn
      intro tid1 htid1 tid2 htid2 tm1 tm2 e1 e2 htm1 htm2 hl1 hl2
      have h1 : (n, e1) ∈ wildcard_export_entries st.mods mA.re_export_all :=
        (mem_wildcard_entries_iff _ _ _).mpr
          ⟨tid1, htid1, tm1, htm1, mem_of_lkp_some hl1⟩
      have h2 : (n, e2) ∈ wildcard_export_entries st.mods mA.re_export_all :=
        (mem_wildcard_entries_iff _ _ _).mpr
          ⟨tid2, htid2, tm2, htm2, mem_of_lkp_some hl2⟩
      rw [hall e1 h1, hall e2 h2]
    · intro hagree
      refine (mem_ncn_iff st.mods mA.re_export_all n).mpr ⟨e0, ?_, ?_⟩
      · exact (mem_wildcard_entries_iff _ _ _).mpr
          ⟨tid0, htid0, tm0, htm0, mem_of_lkp_some hlkp0⟩
      · intro e' he'
        obtain ⟨tid2, htid2, tm2, htm2, hmem2⟩ :=
          (mem_wildcard_entries_iff _ _ _).mp he'
        have hl2 := hmem_lkp tid2 tm2 htid2 htm2 e' hmem2
        exact hagree tid2 htid2 tid0 htid0 tm2 tm0 e' e0 htm2 htm0 hl2 hlkp0
  refine ⟨mA', hA', ?_, ?_⟩
  · rw [hiff]
    simp only [hbase, Option.noConfusion]
    constructor
    · intro hc
      rcases hc with ⟨e, he⟩ | ⟨hd, hncn, hsrc⟩
      · exact Option.noConfusion he
      · obtain ⟨tid0, htid0, hne0, tm0, htm0, hk0⟩ := hsrc
        obtain ⟨e0, hlkp0⟩ := lkp_isSome_of_mem_keys hk0
        exact ⟨hd, ⟨tid0, htid0, hne0, tm0, htm0, hk0⟩,
          (hbridge e0 tid0 tm0 htid0 htm0 hlkp0).mp hncn⟩
    · intro ⟨hd, hsrc, hagree⟩
      obtain ⟨tid0, htid0, hne0, tm0, htm0, hk0⟩ := hsrc
      obtain ⟨e0, hlkp0⟩ := lkp_isSome_of_mem_keys hk0
      exact Or.inr ⟨hd, (hbridge e0 tid0 tm0 htid0 htm0 hlkp0).mpr hagree,
        tid0, htid0, hne0, tm0, htm0, hk0⟩
  · intro e he tid htid tm e0 htm hl0
    rcases hval e he with hc | hc
    · rw [hbase] at hc
      exact Option.noConfusion hc
    · obtain ⟨tid1, htid1, hne1, tm1, htm1, hl1⟩ := hc
      have hentry : (∃ e', lkp n mA'.linked_exports = some e') := ⟨e, he⟩
      rw [hiff] at hentry
      rcases hentry with ⟨e', he'⟩ | ⟨hd, hncn, hsrc⟩
      · rw [hbase] at he'
        exact Option.noConfusion he'
      · have hagree := (hbridge e0 tid tm htid htm hl0).mp hncn
        exact hagree tid1 htid1 tid htid tm1 tm e e0 htm1 htm hl1 hl0

/-- Concrete input for the C3 witness: `/M` wildcard-re-exports `/a` and
`/b`; `/a` exports `x` and `y`, `/b` exports a conflicting `x`. -/
def c3aSpecX : ExportedSpecifier := ⟨"x", ⟨⟨"/a", false⟩, "x", 0⟩, ⟨"/a", false⟩⟩

def c3aSpecY : ExportedSpecifier := ⟨"y", ⟨⟨"/a", false⟩, "y", 0⟩, ⟨"/a", false⟩⟩

def c3bSpecX : ExportedSpecifier := ⟨"x", ⟨⟨"/b", false⟩, "x", 0⟩, ⟨"/b", false⟩⟩

def c3M : NormalModule :=
  ⟨⟨"/M", false⟩, [], [], [], [], [⟨"/a", false⟩, ⟨"/b", false⟩], [], [], [], [],
    false, some 2, true, 0⟩

def c3a : NormalModule :=
  ⟨⟨"/a", false⟩, [], [], [], [], [], [], [],
    [("x", c3aSpecX), ("y", c3aSpecY)], [], false, some 0, false, 0⟩

def c3b : NormalModule :=
  ⟨⟨"/b", false⟩, [], [], [], [], [], [], [],
    [("x", c3bSpecX)], [], false, some 1, false, 0⟩

def c3st : LinkSt :=
  ⟨[(⟨"/M", false⟩, .norm c3M), (⟨"/a", false⟩, .norm c3a),
    (⟨"/b", false⟩, .norm c3b)], ⟨[]⟩, [], false⟩

def c3res : LinkSt :=
  match process_re_export_all c3st ⟨"/M", false⟩ with
  | .ok s => s
  | .error _ => c3st

/-- Witness for C3 at a concrete input (scenario S3): the conflicting `x`
stays hidden and the unconflicted `y` is copied. -/
theorem wildcard_derived_exports_witness :
    process_re_export_all c3st ⟨"/M", false⟩ = .ok c3res ∧
    ∃ mA', getNorm c3res.mods ⟨"/M", false⟩ = some mA' ∧
      lkp "x" mA'.linked_exports = none ∧
      (∃ e, lkp "y" mA'.linked_exports = some e) := by
  have hndp : ∀ id m, ¬ id = ModuleId.mk "/M" false →
      getNorm c3st.mods id = some m → (m.linked_exports.map Prod.fst).Nodup := by
    intro id m _ hg
    have hmem := mem_of_lkp_some (getNorm_eq_lkp.mp hg)
    simp only [c3st, List.mem_cons, List.not_mem_nil, or_false, Prod.mk.injEq] at hmem
    rcases hmem with ⟨_, h⟩ | ⟨_, h⟩ | ⟨_, h⟩ <;>
      (cases h; decide)
  obtain ⟨mA', hA', hiffx, hvalx⟩ := wildcard_derived_exports c3st c3res
    ⟨"/M", false⟩ c3M "x" rfl rfl hndp (by decide)
  obtain ⟨mA2, hA2, hiffy, hvaly⟩ := wildcard_derived_exports c3st c3res
    ⟨"/M", false⟩ c3M "y" rfl rfl hndp (by decide)
  have hsame : mA2 = mA' := by
    rw [hA'] at hA2
    exact (Option.some.inj hA2).symm
  subst hsame
  refine ⟨rfl, mA2, hA', ?_, ?_⟩
  · cases hx : lkp "x" mA2.linked_exports with
    | none => rfl
    | some e =>
      exfalso
      obtain ⟨_, _, hagree⟩ := hiffx.mp ⟨e, hx⟩
      have h1 : getNorm c3st.mods ⟨"/a", false⟩ = some c3a := rfl
      have h2 : getNorm c3st.mods ⟨"/b", false⟩ = some c3b := rfl
      have := hagree ⟨"/a", false⟩ (by decide) ⟨"/b", false⟩ (by decide)
        c3a c3b c3aSpecX c3bSpecX h1 h2 rfl rfl
      exact absurd this (by decide)
  · refine hiffy.mpr ⟨by decide, ⟨⟨"/a", false⟩, by decide, by decide, c3a, rfl,
      by decide⟩, ?_⟩
    intro tid1 htid1 tid2 htid2 tm1 tm2 e1 e2 g1 g2 l1 l2
    have hval : ∀ tid tm e', tid ∈ c3M.re_export_all →
        getNorm c3st.mods tid = some tm → lkp "y" tm.linked_exports = some e' →
        e' = c3aSpecY := by
      intro tid tm e' htid htm hl
      have htid2 : tid = ModuleId.mk "/a" false ∨ tid = ModuleId.mk "/b" false := by
        simpa [c3M] using htid
      rcases htid2 with rfl | rfl
      · have htm' : some c3a = some tm := htm
        cases htm'
        have hl' : some c3aSpecY = some e' := hl
        exact (Option.some.inj hl').symm
      · have htm' : some c3b = some tm := htm
        cases htm'
        have hl' : (none : Option ExportedSpecifier) = some e' := hl
        exact Option.noConfusion hl'
    rw [hval tid1 tm1 e1 htid1 g1 l1, hval tid2 tm2 e2 htid2 g2 l2]

/-- The module map stores an external module at `id`. -/
def stored_ext_b (mods : ModuleById) (id : ModuleId) : Bool :=
  match lkp id mods with
  | some (NormOrExt.ext _) => true
  | _ => false

theorem stored_ext_b_iff (mods : ModuleById) (id : ModuleId) :
    stored_ext_b mods id = true ↔ ∃ E, lkp id mods = some (NormOrExt.ext E) := by
  unfold stored_ext_b
  cases h : lkp id mods with
  | none => simp
  | some v =>
    cases v with
    | norm m => simp
    | ext m => simp

/-- An export entry is coherent when the module it names as owner exports
the entry's public name with the same local symbol. -/
def entry_coherent (mods : ModuleById) (e : ExportedSpecifier) : Prop :=
  ∃ N eo, getNorm mods e.owner = some N ∧
    lkp e.exported_as N.linked_exports = some eo ∧ eo.local_id = e.local_id

/-- Executable check of `entry_coherent`. -/
def entry_coherent_b (mods : ModuleById) (e : ExportedSpecifier) : Bool :=
  match getNorm mods e.owner with
  | none => false
  | some N =>
    match lkp e.exported_as N.linked_exports with
    | none => false
    | some eo => decide (eo.local_id = e.local_id)

theorem entry_coherent_b_iff (mods : ModuleById) (e : ExportedSpecifier) :
    entry_coherent_b mods e = true ↔ entry_coherent mods e := by
  unfold entry_coherent_b entry_coherent
  cases hg : getNorm mods e.owner with
  | none =>
    simp only [Bool.false_eq_true, false_iff]
    intro ⟨N, eo, hN, _⟩
    exact Option.noConfusion hN
  | some N =>
    cases hl : lkp e.exported_as N.linked_exports with
    | none =>
      dsimp only
      rw [hl]
      simp only [Bool.false_eq_true, false_iff]
      intro ⟨N2, eo, hN2, hl2, _⟩
      have hh : N2 = N := (Option.some.inj hN2).symm
      rw [hh, hl] at hl2
      exact Option.noConfusion hl2
    | some eo =>
      dsimp only
      rw [hl]
      simp only [decide_eq_true_eq]
      constructor
      · intro hloc
        exact ⟨N, eo, rfl, hl, hloc⟩
      · intro ⟨N2, eo2, hN2, hl2, hloc⟩
        have hh : N2 = N := (Option.some.inj hN2).symm
        rw [hh, hl] at hl2
        have he : eo2 = eo := (Option.some.inj hl2).symm
        rw [he] at hloc
        exact hloc

/-- Soundness of one `linked_imports` entry `(owner, s)` — the property of
claim C1: the owner is stored external, or the owner exports `s.imported`
with a local symbol union-find-equivalent to `s.imported_as`. -/
def entry_sound (mods : ModuleById) (uf : UnionFind) (owner : ModuleId)
    (s : ImportedSpecifier) : Prop :=
  (∃ E, lkp owner mods = some (NormOrExt.ext E)) ∨
  (∃ N e, getNorm mods owner = some N ∧ lkp s.imported N.linked_exports = some e ∧
    uf.same s.imported_as e.local_id = true)

/-- Structural health of every stored normal module: export-table keys are
free of duplicates (hash-map faithfulness) and everything collected in
`external_modules_of_re_export_all` is stored external. -/
def nodes_ok (mods : ModuleById) : Prop :=
  ∀ id N, getNorm mods id = some N →
    ((N.linked_exports.map Prod.fst).Nodup ∧
     ∀ eid ∈ N.external_modules_of_re_export_all,
       ∃ E, lkp eid mods = some (NormOrExt.ext E))

/-- Every export entry of every stored normal module is coherent. -/
def exports_coherent (mods : ModuleById) : Prop :=
  ∀ id N, getNorm mods id = some N → ∀ k e, lkp k N.linked_exports = some e →
    entry_coherent mods e

/-- Every `linked_imports` entry of every stored normal module is sound. -/
def sound_all (mods : ModuleById) (uf : UnionFind) : Prop :=
  ∀ id N, getNorm mods id = some N → ∀ p ∈ N.linked_imports,
    entry_sound mods uf p.1 p.2

/-- The linker invariant: structural health, export coherence and import
soundness. -/
def InvM (mods : ModuleById) (uf : UnionFind) : Prop :=
  nodes_ok mods ∧ exports_coherent mods ∧ sound_all mods uf

/-- Link soundness of a linker state — the property claim C1 asserts of the
state `Graph::link` returns. -/
def link_sound (st : LinkSt) : Prop :=
  ∀ id N, getNorm st.mods id = some N → ∀ p ∈ N.linked_imports,
    entry_sound st.mods st.uf p.1 p.2

/-- All re-exported public names of a `re_exported_ids` map, in iteration
order. -/
def flatNames : List (ModuleId × List ReExportedSpecifier) → List String
  | [] => []
  | pr :: rest => pr.2.map (fun sp => sp.exported_as) ++ flatNames rest

/-- Well-formedness of one graph node before linking: the export names
(current table keys plus the pending re-exported names) are pairwise
distinct — duplicate export names are a syntax error in ES modules — the
collected external wildcard targets are stored external, every seeded
export entry is coherent, and `linked_imports` starts empty. -/
def node_wf_b (mods : ModuleById) (x : NormOrExt) : Bool :=
  match x with
  | NormOrExt.ext _ => true
  | NormOrExt.norm N =>
    decide (((N.linked_exports.map Prod.fst) ++ flatNames N.re_exported_ids).Nodup) &&
    N.external_modules_of_re_export_all.all (fun eid => stored_ext_b mods eid) &&
    N.linked_exports.all (fun kv => entry_coherent_b mods kv.2) &&
    decide (N.linked_imports = [])

/-- Well-formedness of the module graph handed to `Graph::link`: distinct
module ids and well-formed nodes. -/
def WF (mods : ModuleById) : Bool :=
  decide ((mods.map Prod.fst).Nodup) && mods.all (fun p => node_wf_b mods p.2)

theorem lkp_of_getNorm {mods : ModuleById} {id : ModuleId} {N : NormalModule}
    (h : getNorm mods id = some N) : lkp id mods = some (NormOrExt.norm N) := by
  unfold getNorm at h
  revert h
  cases hl : lkp id mods with
  | none =>
    intro h
    exact Option.noConfusion h
  | some v =>
    cases v with
    | norm m =>
      intro h
      have hm : m = N := Option.some.inj h
      rw [hm]
    | ext m =>
      intro h
      exact Option.noConfusion h

theorem getNorm_of_lkp_norm {mods : ModuleById} {id : ModuleId} {N : NormalModule}
    (h : lkp id mods = some (NormOrExt.norm N)) : getNorm mods id = some N := by
  unfold getNorm
  rw [h]

theorem WF_keys_nodup {mods : ModuleById} (h : WF mods = true) :
    (mods.map Prod.fst).Nodup := by
  unfold WF at h
  simp only [Bool.and_eq_true] at h
  exact of_decide_eq_true h.1

theorem WF_node {mods : ModuleById} {id : ModuleId} {N : NormalModule}
    (h : WF mods = true) (hN : getNorm mods id = some N) :
    ((N.linked_exports.map Prod.fst) ++ flatNames N.re_exported_ids).Nodup ∧
    (∀ eid ∈ N.external_modules_of_re_export_all,
      ∃ E, lkp eid mods = some (NormOrExt.ext E)) ∧
    (∀ k e, lkp k N.linked_exports = some e → entry_coherent mods e) ∧
    N.linked_imports = [] := by
  have hww := h
  unfold WF at hww
  simp only [Bool.and_eq_true] at hww
  have hmem : (id, NormOrExt.norm N) ∈ mods := mem_of_lkp_some (lkp_of_getNorm hN)
  have hnode : node_wf_b mods (NormOrExt.norm N) = true :=
    List.all_eq_true.mp hww.2 _ hmem
  dsimp only [node_wf_b] at hnode
  simp only [Bool.and_eq_true] at hnode
  obtain ⟨⟨⟨h1, h2⟩, h3⟩, h4⟩ := hnode
  refine ⟨of_decide_eq_true h1, ?_, ?_, of_decide_eq_true h4⟩
  · intro eid hm
    have hb := List.all_eq_true.mp h2 _ hm
    exact (stored_ext_b_iff mods eid).mp hb
  · intro k e hke
    have hmem2 : (k, e) ∈ N.linked_exports := mem_of_lkp_some hke
    have hb := List.all_eq_true.mp h3 _ hmem2
    exact (entry_coherent_b_iff mods e).mp hb

theorem WF_InvM {mods : ModuleById} (uf : UnionFind) (h : WF mods = true) :
    InvM mods uf := by
  refine ⟨?_, ?_, ?_⟩
  · intro id N hN
    obtain ⟨h1, h2, _, _⟩ := WF_node h hN
    exact ⟨List.Nodup.of_append_left h1, h2⟩
  · intro id N hN k e hke
    exact (WF_node h hN).2.2.1 k e hke
  · intro id N hN p hp
    rw [(WF_node h hN).2.2.2] at hp
    cases hp

theorem setNorm_setNorm (mods : ModuleById) (id : ModuleId) (a b : NormalModule) :
    setNorm (setNorm mods id a) id b = setNorm mods id b := by
  unfold setNorm
  rw [List.map_map]
  apply List.map_congr_left
  intro p _
  by_cases h : p.1 = id <;> simp [Function.comp, h]

theorem getNorm_setExt_other (mods : ModuleById) {eid id : ModuleId}
    (E : ExternalModule) (h : ¬ id = eid) :
    getNorm (setExt mods eid E) id = getNorm mods id := by
  unfold getNorm
  rw [lkp_setExt, if_neg h]

theorem getNorm_setExt_same (mods : ModuleById) (eid : ModuleId) (E : ExternalModule) :
    getNorm (setExt mods eid E) eid = none := by
  unfold getNorm
  rw [lkp_setExt, if_pos rfl]
  cases lkp eid mods <;> rfl

theorem entry_coherent_setNorm {mods : ModuleById} {id0 : ModuleId}
    {M Mn : NormalModule} (hM : getNorm mods id0 = some M)
    (P1 : ∀ q v, lkp q M.linked_exports = some v → lkp q Mn.linked_exports = some v)
    {e : ExportedSpecifier} (h : entry_coherent mods e) :
    entry_coherent (setNorm mods id0 Mn) e := by
  obtain ⟨N, eo, hN, hl, hloc⟩ := h
  by_cases ho : e.owner = id0
  · rw [ho] at hN
    have hNM : N = M := Option.some.inj (hN.symm.trans hM)
    refine ⟨Mn, eo, ?_, ?_, hloc⟩
    · rw [ho]
      exact getNorm_setNorm_same mods id0 Mn M hM
    · apply P1
      rw [← hNM]
      exact hl
  · exact ⟨N, eo, by rw [getNorm_setNorm_other mods Mn ho]; exact hN, hl, hloc⟩

theorem entry_sound_setNorm {mods : ModuleById} {uf : UnionFind} {id0 : ModuleId}
    {M Mn : NormalModule} (hM : getNorm mods id0 = some M)
    (P1 : ∀ q v, lkp q M.linked_exports = some v → lkp q Mn.linked_exports = some v)
    {o : ModuleId} {s : ImportedSpecifier} (h : entry_sound mods uf o s) :
    entry_sound (setNorm mods id0 Mn) uf o s := by
  rcases h with ⟨E, hE⟩ | ⟨N, e, hN, hl, hsm⟩
  · left
    refine ⟨E, ?_⟩
    rw [lkp_setNorm]
    have ho : ¬ o = id0 := by
      intro hh
      rw [hh] at hE
      have hcon := (lkp_of_getNorm hM).symm.trans hE
      exact NormOrExt.noConfusion (Option.some.inj hcon)
    rw [if_neg ho]
    exact hE
  · right
    by_cases ho : o = id0
    · rw [ho] at hN
      have hNM : N = M := Option.some.inj (hN.symm.trans hM)
      refine ⟨Mn, e, ?_, ?_, hsm⟩
      · rw [ho]
        exact getNorm_setNorm_same mods id0 Mn M hM
      · apply P1
        rw [← hNM]
        exact hl
    · exact ⟨N, e, by rw [getNorm_setNorm_other mods Mn ho]; exact hN, hl, hsm⟩

theorem entry_sound_union (mods : ModuleById) (uf : UnionFind) (a b : Symbol)
    {o : ModuleId} {s : ImportedSpecifier} (h : entry_sound mods uf o s) :
    entry_sound mods (uf.union a b) o s := by
  rcases h with hl | ⟨N, e, hN, hlk, hsm⟩
  · exact Or.inl hl
  · exact Or.inr ⟨N, e, hN, hlk, UnionFind.same_mono uf a b _ _ hsm⟩

theorem sound_all_union (mods : ModuleById) (uf : UnionFind) (a b : Symbol)
    (h : sound_all mods uf) : sound_all mods (uf.union a b) :=
  fun id N hN p hp => entry_sound_union mods uf a b (h id N hN p hp)

/-- The master preservation step: replacing the module at `id0` by a version
whose export table preserves all previous bindings and adds only self-placed
or coherent entries, whose keys stay distinct, whose external-target set
stays stored-external, and whose import list grows only by sound entries,
keeps the whole linker invariant. -/
theorem inv_step (mods : ModuleById) (uf : UnionFind) (id0 : ModuleId)
    (M Mn : NormalModule)
    (hM : getNorm mods id0 = some M)
    (hno : nodes_ok mods) (hco : exports_coherent mods) (hso : sound_all mods uf)
    (P1 : ∀ q v, lkp q M.linked_exports = some v → lkp q Mn.linked_exports = some v)
    (P2 : ∀ k e, lkp k Mn.linked_exports = some e →
      lkp k M.linked_exports = some e ∨ (e.owner = id0 ∧ e.exported_as = k) ∨
      entry_coherent mods e)
    (P4 : (Mn.linked_exports.map Prod.fst).Nodup)
    (P5 : ∀ eid ∈ Mn.external_modules_of_re_export_all,
      ∃ E, lkp eid mods = some (NormOrExt.ext E))
    (P3 : ∀ p ∈ Mn.linked_imports, p ∈ M.linked_imports ∨
      entry_sound (setNorm mods id0 Mn) uf p.1 p.2) :
    nodes_ok (setNorm mods id0 Mn) ∧ exports_coherent (setNorm mods id0 Mn) ∧
      sound_all (setNorm mods id0 Mn) uf := by
  have hMn : getNorm (setNorm mods id0 Mn) id0 = some Mn :=
    getNorm_setNorm_same mods id0 Mn M hM
  have hextkeep : ∀ eid E, lkp eid mods = some (NormOrExt.ext E) →
      lkp eid (setNorm mods id0 Mn) = some (NormOrExt.ext E) := by
    intro eid E hE
    rw [lkp_setNorm]
    have hne : ¬ eid = id0 := by
      intro hh
      rw [hh] at hE
      have hcon := (lkp_of_getNorm hM).symm.trans hE
      exact NormOrExt.noConfusion (Option.some.inj hcon)
    rw [if_neg hne]
    exact hE
  refine ⟨?_, ?_, ?_⟩
  · intro id N hN
    by_cases hid : id = id0
    · rw [hid] at hN
      have hNMn : N = Mn := Option.some.inj (hN.symm.trans hMn)
      rw [hNMn]
      exact ⟨P4, fun eid hm => (P5 eid hm).elim fun E hE => ⟨E, hextkeep eid E hE⟩⟩
    · rw [getNorm_setNorm_other mods Mn hid] at hN
      obtain ⟨h1, h2⟩ := hno id N hN
      exact ⟨h1, fun eid hm => (h2 eid hm).elim fun E hE => ⟨E, hextkeep eid E hE⟩⟩
  · intro id N hN k e hke
    by_cases hid : id = id0
    · rw [hid] at hN
      have hNMn : N = Mn := Option.some.inj (hN.symm.trans hMn)
      rw [hNMn] at hke
      rcases P2 k e hke with hold | ⟨ho, hk⟩ | hcoh
      · exact entry_coherent_setNorm hM P1 (hco id0 M hM k e hold)
      · exact ⟨Mn, e, by rw [ho]; exact hMn, by rw [hk]; exact hke, rfl⟩
      · exact entry_coherent_setNorm hM P1 hcoh
    · rw [getNorm_setNorm_other mods Mn hid] at hN
      exact entry_coherent_setNorm hM P1 (hco id N hN k e hke)
  · intro id N hN p hp
    by_cases hid : id = id0
    · rw [hid] at hN
      have hNMn : N = Mn := Option.some.inj (hN.symm.trans hMn)
      rw [hNMn] at hp
      rcases P3 p hp with hold | hsnd
      · exact entry_sound_setNorm hM P1 (hso id0 M hM p hold)
      · exact hsnd
    · rw [getNorm_setNorm_other mods Mn hid] at hN
      exact entry_sound_setNorm hM P1 (hso id N hN p hp)

theorem suggest_name_linked_imports (m : NormalModule) (a b : String) :
    (m.suggest_name a b).linked_imports = m.linked_imports := rfl

theorem suggest_name_ext_set (m : NormalModule) (a b : String) :
    (m.suggest_name a b).external_modules_of_re_export_all =
      m.external_modules_of_re_export_all := rfl

theorem suggest_name_rei (m : NormalModule) (a b : String) :
    (m.suggest_name a b).re_exported_ids = m.re_exported_ids := rfl

theorem maybe_mark_rei (m : NormalModule) (c : Prop) [Decidable c] :
    (if c then m.mark_namespace_id_referenced else m).re_exported_ids =
      m.re_exported_ids := by
  split <;> rfl

theorem add_le_linked_imports (m : NormalModule) (k : String) (v : ExportedSpecifier) :
    (m.add_to_linked_exports k v).linked_imports = m.linked_imports := rfl

theorem add_le_ext_set (m : NormalModule) (k : String) (v : ExportedSpecifier) :
    (m.add_to_linked_exports k v).external_modules_of_re_export_all =
      m.external_modules_of_re_export_all := rfl

theorem add_le_rei (m : NormalModule) (k : String) (v : ExportedSpecifier) :
    (m.add_to_linked_exports k v).re_exported_ids = m.re_exported_ids := rfl

theorem add_le_le (m : NormalModule) (k : String) (v : ExportedSpecifier) :
    (m.add_to_linked_exports k v).linked_exports = upsert k v m.linked_exports := rfl

theorem add_li_le (m : NormalModule) (o : ModuleId) (s : ImportedSpecifier) :
    (m.add_to_linked_imports o s).linked_exports = m.linked_exports := rfl

theorem add_li_li (m : NormalModule) (o : ModuleId) (s : ImportedSpecifier) :
    (m.add_to_linked_imports o s).linked_imports = m.linked_imports ++ [(o, s)] := rfl

theorem add_li_ext_set (m : NormalModule) (o : ModuleId) (s : ImportedSpecifier) :
    (m.add_to_linked_imports o s).external_modules_of_re_export_all =
      m.external_modules_of_re_export_all := rfl

theorem add_li_rei (m : NormalModule) (o : ModuleId) (s : ImportedSpecifier) :
    (m.add_to_linked_imports o s).re_exported_ids = m.re_exported_ids := rfl

theorem ctls_le (m : NormalModule) (n : String) :
    (m.create_top_level_symbol n).2.linked_exports = m.linked_exports := rfl

theorem ctls_li (m : NormalModule) (n : String) :
    (m.create_top_level_symbol n).2.linked_imports = m.linked_imports := rfl

theorem ctls_ext_set (m : NormalModule) (n : String) :
    (m.create_top_level_symbol n).2.external_modules_of_re_export_all =
      m.external_modules_of_re_export_all := rfl

theorem ctls_rei (m : NormalModule) (n : String) :
    (m.create_top_level_symbol n).2.re_exported_ids = m.re_exported_ids := rfl

theorem mark_ns_linked_imports (m : NormalModule) :
    m.mark_namespace_id_referenced.linked_imports = m.linked_imports := rfl

theorem mark_ns_ext_set (m : NormalModule) :
    m.mark_namespace_id_referenced.external_modules_of_re_export_all =
      m.external_modules_of_re_export_all := rfl

theorem mark_ns_rei (m : NormalModule) :
    m.mark_namespace_id_referenced.re_exported_ids = m.re_exported_ids := rfl

/-- Updating the interned symbol table of a stored external module keeps the
linker invariant. -/
theorem inv_setExt (mods : ModuleById) (uf : UnionFind) (eid : ModuleId)
    (E0 En : ExternalModule) (hE : lkp eid mods = some (NormOrExt.ext E0))
    (hno : nodes_ok mods) (hco : exports_coherent mods) (hso : sound_all mods uf) :
    nodes_ok (setExt mods eid En) ∧ exports_coherent (setExt mods eid En) ∧
      sound_all (setExt mods eid En) uf := by
  have hextkeep : ∀ x E, lkp x mods = some (NormOrExt.ext E) →
      ∃ F, lkp x (setExt mods eid En) = some (NormOrExt.ext F) := by
    intro x E h
    rw [lkp_setExt]
    by_cases hx : x = eid
    · subst hx
      exact ⟨En, by rw [if_pos rfl, h]; rfl⟩
    · exact ⟨E, by rw [if_neg hx]; exact h⟩
  have hnorm_ne : ∀ {o : ModuleId} {N : NormalModule}, getNorm mods o = some N →
      ¬ o = eid := by
    intro o N hN hh
    rw [hh] at hN
    have hcon := (lkp_of_getNorm hN).symm.trans hE
    exact NormOrExt.noConfusion (Option.some.inj hcon)
  have hcoh_t : ∀ e, entry_coherent mods e → entry_coherent (setExt mods eid En) e := by
    intro e he
    obtain ⟨N, eo, hN, hl, hloc⟩ := he
    exact ⟨N, eo, by rw [getNorm_setExt_other mods En (hnorm_ne hN)]; exact hN, hl, hloc⟩
  have hsnd_t : ∀ o s, entry_sound mods uf o s → entry_sound (setExt mods eid En) uf o s := by
    intro o s h
    rcases h with ⟨E, hEx⟩ | ⟨N, e, hN, hl, hsm⟩
    · exact Or.inl (hextkeep o E hEx)
    · exact Or.inr ⟨N, e, by rw [getNorm_setExt_other mods En (hnorm_ne hN)]; exact hN,
        hl, hsm⟩
  refine ⟨?_, ?_, ?_⟩
  · intro id N hN
    by_cases hid : id = eid
    · rw [hid, getNorm_setExt_same] at hN
      exact Option.noConfusion hN
    · rw [getNorm_setExt_other mods En hid] at hN
      obtain ⟨h1, h2⟩ := hno id N hN
      exact ⟨h1, fun x hm => (h2 x hm).elim fun E hEx => hextkeep x E hEx⟩
  · intro id N hN k e hke
    by_cases hid : id = eid
    · rw [hid, getNorm_setExt_same] at hN
      exact Option.noConfusion hN
    · rw [getNorm_setExt_other mods En hid] at hN
      exact hcoh_t e (hco id N hN k e hke)
  · intro id N hN p hp
    by_cases hid : id = eid
    · rw [hid, getNorm_setExt_same] at hN
      exact Option.noConfusion hN
    · rw [getNorm_setExt_other mods En hid] at hN
      exact hsnd_t p.1 p.2 (hso id N hN p hp)

/-- Pending-name discipline of one module: its current export keys plus the
names still to be inserted are pairwise distinct. -/
def pendM (mods : ModuleById) (id0 : ModuleId) (names : List String) : Prop :=
  ∀ N, getNorm mods id0 = some N →
    ((N.linked_exports.map Prod.fst) ++ names).Nodup

/-- Frame of the exports pass: every module other than `id0` keeps its
export table and its re-export map. -/
def frameE (a b : ModuleById) (id0 : ModuleId) : Prop :=
  ∀ id, ¬ id = id0 → ∀ N, getNorm b id = some N →
    ∃ N0, getNorm a id = some N0 ∧ N.linked_exports = N0.linked_exports ∧
      N.re_exported_ids = N0.re_exported_ids

theorem frameE_refl (a : ModuleById) (id0 : ModuleId) : frameE a a id0 :=
  fun _ _ N hN => ⟨N, hN, rfl, rfl⟩

theorem frameE_trans {a b c : ModuleById} {id0 : ModuleId}
    (h1 : frameE a b id0) (h2 : frameE b c id0) : frameE a c id0 := by
  intro id hid N hN
  obtain ⟨N1, hN1, e1, e2⟩ := h2 id hid N hN
  obtain ⟨N0, hN0, f1, f2⟩ := h1 id hid N1 hN1
  exact ⟨N0, hN0, e1.trans f1, e2.trans f2⟩

theorem frameE_setNorm (mods : ModuleById) (id0 : ModuleId) (Mn : NormalModule) :
    frameE mods (setNorm mods id0 Mn) id0 := by
  intro id hid N hN
  rw [getNorm_setNorm_other mods Mn hid] at hN
  exact ⟨N, hN, rfl, rfl⟩

/-- Strong frame: every key other than `id0` maps to the same stored node. -/
def frameL (a b : ModuleById) (id0 : ModuleId) : Prop :=
  ∀ id, ¬ id = id0 → lkp id b = lkp id a

theorem frameL_refl (a : ModuleById) (id0 : ModuleId) : frameL a a id0 :=
  fun _ _ => rfl

theorem frameL_trans {a b c : ModuleById} {id0 : ModuleId}
    (h1 : frameL a b id0) (h2 : frameL b c id0) : frameL a c id0 :=
  fun id hid => (h2 id hid).trans (h1 id hid)

theorem frameL_setNorm (mods : ModuleById) (id0 : ModuleId) (Mn : NormalModule) :
    frameL mods (setNorm mods id0 Mn) id0 := by
  intro id hid
  rw [lkp_setNorm, if_neg hid]

theorem frameE_of_frameL {a b : ModuleById} {id0 : ModuleId} (h : frameL a b id0) :
    frameE a b id0 := by
  intro id hid N hN
  refine ⟨N, ?_, rfl, rfl⟩
  unfold getNorm at *
  rw [h id hid] at hN
  exact hN

/-- A name at the head of the pending list is absent from the module's
current export table. -/
theorem fresh_of_pend {mods : ModuleById} {id0 : ModuleId} {M : NormalModule}
    {a : String} {rest : List String}
    (hp : pendM mods id0 (a :: rest)) (hM : getNorm mods id0 = some M) :
    lkp a M.linked_exports = none := by
  have hnd := hp M hM
  have hdis := List.disjoint_of_nodup_append hnd
  exact lkp_none_of_not_mem_keys (fun hmem => hdis hmem (List.mem_cons_self a rest))

/-- Self re-export step: preserves the invariant, leaves the union-find,
the option and everything outside `id0` unchanged, and consumes the head
pending name. -/
theorem inv_self_re_step (st st' : LinkSt) (id0 : ModuleId)
    (sp : ReExportedSpecifier) (rest : List String)
    (hInv : InvM st.mods st.uf)
    (hpend : pendM st.mods id0 (sp.exported_as :: rest))
    (h : process_self_re_export st id0 sp = Except.ok st') :
    InvM st'.mods st'.uf ∧ st'.uf = st.uf ∧ st'.shim = st.shim ∧
      frameE st.mods st'.mods id0 ∧ pendM st'.mods id0 rest := by
  obtain ⟨hno, hco, hso⟩ := hInv
  cases hg : getNorm st.mods id0 with
  | none =>
    unfold process_self_re_export at h
    rw [hg] at h
    exact Except.noConfusion h
  | some M =>
    cases hfind : lkp sp.imported M.linked_exports with
    | none =>
      unfold process_self_re_export at h
      rw [hg] at h
      simp only [NormalModule.find_exported, maybe_mark_linked_exports,
        suggest_name_linked_exports, hfind] at h
      exact Except.noConfusion h
    | some e =>
      have hres : ∃ M2 : NormalModule, process_self_re_export st id0 sp =
          Except.ok ⟨setNorm st.mods id0 M2, st.uf, st.warnings, st.shim⟩ ∧
          M2.linked_exports = upsert sp.exported_as e M.linked_exports ∧
          M2.linked_imports = M.linked_imports ∧
          M2.external_modules_of_re_export_all =
            M.external_modules_of_re_export_all ∧
          M2.re_exported_ids = M.re_exported_ids := by
        refine ⟨(if sp.imported = "*" then
            (M.suggest_name sp.imported sp.exported_as).mark_namespace_id_referenced
          else M.suggest_name sp.imported sp.exported_as).add_to_linked_exports
            sp.exported_as e, ?_, ?_, ?_, ?_, ?_⟩
        · simp only [process_self_re_export, hg, NormalModule.find_exported,
            maybe_mark_linked_exports, suggest_name_linked_exports, hfind]
        · simp only [add_le_le, maybe_mark_linked_exports, suggest_name_linked_exports]
        · simp only [add_le_linked_imports, maybe_mark_linked_imports,
            suggest_name_linked_imports]
        · simp only [add_le_ext_set, maybe_mark_ext_set, suggest_name_ext_set]
        · simp only [add_le_rei, maybe_mark_rei, suggest_name_rei]
      obtain ⟨M2, hrun, hle, hli, hex, hrei⟩ := hres
      rw [hrun] at h
      have hst : st' = ⟨setNorm st.mods id0 M2, st.uf, st.warnings, st.shim⟩ :=
        (Except.ok.inj h).symm
      subst hst
      have hnd := hpend M hg
      have hdis := List.disjoint_of_nodup_append hnd
      have hmem : ¬ sp.exported_as ∈ M.linked_exports.map Prod.fst :=
        fun hm => hdis hm (List.mem_cons_self _ _)
      have hfresh : lkp sp.exported_as M.linked_exports = none :=
        lkp_none_of_not_mem_keys hmem
      have hkeys : M2.linked_exports.map Prod.fst =
          (M.linked_exports.map Prod.fst) ++ [sp.exported_as] := by
        rw [hle, keys_upsert, if_neg hmem]
      refine ⟨?_, rfl, rfl, frameE_setNorm st.mods id0 M2, ?_⟩
      · refine inv_step st.mods st.uf id0 M M2 hg hno hco hso ?_ ?_ ?_ ?_ ?_
        · intro q v hv
          rw [hle, lkp_upsert]
          by_cases hq : q = sp.exported_as
          · rw [hq, hfresh] at hv
            exact Option.noConfusion hv
          · rw [if_neg hq]
            exact hv
        · intro k e2 hk2
          rw [hle, lkp_upsert] at hk2
          by_cases hk : k = sp.exported_as
          · rw [if_pos hk] at hk2
            have he2 : e2 = e := (Option.some.inj hk2).symm
            rw [he2]
            exact Or.inr (Or.inr (hco id0 M hg sp.imported e hfind))
          · rw [if_neg hk] at hk2
            exact Or.inl hk2
        · rw [hkeys]
          refine List.Nodup.append (List.Nodup.of_append_left hnd)
            (List.nodup_singleton _) ?_
          intro x hx hx2
          rw [List.mem_singleton] at hx2
          rw [hx2] at hx
          exact hmem hx
        · rw [hex]
          exact (hno id0 M hg).2
        · intro p hp
          rw [hli] at hp
          exact Or.inl hp
      · intro N hN
        have hN2 : N = M2 := Option.some.inj
          ((getNorm_setNorm_same st.mods id0 M2 M hg).symm.trans hN).symm
        rw [hN2, hkeys, List.append_assoc]
        exact hnd

/-- Cross re-export step against a normal importee, with shimming disabled:
preserves the invariant, keeps the union-find and the export tables outside
`id0`, and consumes the head pending name. -/
theorem inv_cross_re_step (st st' : LinkSt) (id0 tee : ModuleId)
    (sp : ReExportedSpecifier) (rest : List String)
    (hInv : InvM st.mods st.uf) (hsh : st.shim = false) (hne : ¬ id0 = tee)
    (hpend : pendM st.mods id0 (sp.exported_as :: rest))
    (h : process_cross_re_export st id0 tee sp = Except.ok st') :
    InvM st'.mods st'.uf ∧ st'.uf = st.uf ∧ st'.shim = st.shim ∧
      frameE st.mods st'.mods id0 ∧ pendM st'.mods id0 rest := by
  obtain ⟨hno, hco, hso⟩ := hInv
  cases hg : getNorm st.mods tee with
  | none =>
    unfold process_cross_re_export at h
    rw [hg] at h
    exact Except.noConfusion h
  | some Mt =>
    have hgn1 : ∀ m : NormalModule, getNorm (setNorm st.mods tee m) id0 =
        getNorm st.mods id0 := fun m => getNorm_setNorm_other st.mods m hne
    cases hfind : lkp sp.imported Mt.linked_exports with
    | none =>
      unfold process_cross_re_export at h
      rw [hg] at h
      simp only [hsh, Bool.false_eq_true, if_false, NormalModule.find_exported,
        maybe_mark_linked_exports, suggest_name_linked_exports, hfind] at h
      exact Except.noConfusion h
    | some e =>
      cases hg2 : getNorm st.mods id0 with
      | none =>
        unfold process_cross_re_export at h
        rw [hg] at h
        simp only [hsh, Bool.false_eq_true, if_false, NormalModule.find_exported,
          maybe_mark_linked_exports, suggest_name_linked_exports, hfind,
          hgn1, hg2] at h
        exact Except.noConfusion h
      | some Mr =>
        have hres : ∃ Mt1 M2 : NormalModule, process_cross_re_export st id0 tee sp =
            Except.ok ⟨setNorm (setNorm st.mods tee Mt1) id0 M2, st.uf,
              st.warnings, st.shim⟩ ∧
            Mt1.linked_exports = Mt.linked_exports ∧
            Mt1.linked_imports = Mt.linked_imports ∧
            Mt1.external_modules_of_re_export_all =
              Mt.external_modules_of_re_export_all ∧
            Mt1.re_exported_ids = Mt.re_exported_ids ∧
            M2.linked_exports = upsert sp.exported_as e Mr.linked_exports ∧
            M2.linked_imports = Mr.linked_imports ∧
            M2.external_modules_of_re_export_all =
              Mr.external_modules_of_re_export_all ∧
            M2.re_exported_ids = Mr.re_exported_ids := by
          refine ⟨(if sp.imported = "*" then
              (Mt.suggest_name sp.imported sp.exported_as).mark_namespace_id_referenced
            else Mt.suggest_name sp.imported sp.exported_as),
            Mr.add_to_linked_exports sp.exported_as e,
            ?_, ?_, ?_, ?_, ?_, ?_, ?_, ?_, ?_⟩
          · simp only [process_cross_re_export, hg, hsh, Bool.false_eq_true, if_false,
              NormalModule.find_exported, maybe_mark_linked_exports,
              suggest_name_linked_exports, hfind, hgn1, hg2]
          · simp only [maybe_mark_linked_exports, suggest_name_linked_exports]
          · simp only [maybe_mark_linked_imports, suggest_name_linked_imports]
          · simp only [maybe_mark_ext_set, suggest_name_ext_set]
          · simp only [maybe_mark_rei, suggest_name_rei]
          · simp only [add_le_le]
          · simp only [add_le_linked_imports]
          · simp only [add_le_ext_set]
          · simp only [add_le_rei]
        obtain ⟨Mt1, M2, hrun, t1, t2, t3, t4, r1, r2, r3, r4⟩ := hres
        rw [hrun] at h
        have hst : st' = ⟨setNorm (setNorm st.mods tee Mt1) id0 M2, st.uf,
            st.warnings, st.shim⟩ := (Except.ok.inj h).symm
        subst hst
        have hA := inv_step st.mods st.uf tee Mt Mt1 hg hno hco hso
          (by intro q v hv; rw [t1]; exact hv)
          (by intro k e2 hk2; rw [t1] at hk2; exact Or.inl hk2)
          (by rw [t1]; exact (hno tee Mt hg).1)
          (by rw [t3]; exact (hno tee Mt hg).2)
          (by intro p hp; rw [t2] at hp; exact Or.inl hp)
        obtain ⟨hno1, hco1, hso1⟩ := hA
        have hg2b : getNorm (setNorm st.mods tee Mt1) id0 = some Mr := by
          rw [hgn1]
          exact hg2
        have hnd := hpend Mr hg2
        have hdis := List.disjoint_of_nodup_append hnd
        have hmem : ¬ sp.exported_as ∈ Mr.linked_exports.map Prod.fst :=
          fun hm => hdis hm (List.mem_cons_self _ _)
        have hfresh : lkp sp.exported_as Mr.linked_exports = none :=
          lkp_none_of_not_mem_keys hmem
        have hkeys : M2.linked_exports.map Prod.fst =
            (Mr.linked_exports.map Prod.fst) ++ [sp.exported_as] := by
          rw [r1, keys_upsert, if_neg hmem]
        have hcoh_e : entry_coherent (setNorm st.mods tee Mt1) e := by
          refine hco1 tee Mt1 (getNorm_setNorm_same st.mods tee Mt1 Mt hg)
            sp.imported e ?_
          rw [t1]
          exact hfind
        refine ⟨?_, rfl, rfl, ?_, ?_⟩
        · refine inv_step (setNorm st.mods tee Mt1) st.uf id0 Mr M2 hg2b
            hno1 hco1 hso1 ?_ ?_ ?_ ?_ ?_
          · intro q v hv
            rw [r1, lkp_upsert]
            by_cases hq : q = sp.exported_as
            · rw [hq, hfresh] at hv
              exact Option.noConfusion hv
            · rw [if_neg hq]
              exact hv
          · intro k e2 hk2
            rw [r1, lkp_upsert] at hk2
            by_cases hk : k = sp.exported_as
            · rw [if_pos hk] at hk2
              have he2 : e2 = e := (Option.some.inj hk2).symm
              rw [he2]
              exact Or.inr (Or.inr hcoh_e)
            · rw [if_neg hk] at hk2
              exact Or.inl hk2
          · rw [hkeys]
            refine List.Nodup.append (List.Nodup.of_append_left hnd)
              (List.nodup_singleton _) ?_
            intro x hx hx2
            rw [List.mem_singleton] at hx2
            rw [hx2] at hx
            exact hmem hx
          · intro eid hm
            rw [r3] at hm
            obtain ⟨E, hE⟩ := (hno id0 Mr hg2).2 eid hm
            refine ⟨E, ?_⟩
            rw [lkp_setNorm]
            have heid : ¬ eid = tee := by
              intro hh
              rw [hh] at hE
              have hcon := (lkp_of_getNorm hg).symm.trans hE
              exact NormOrExt.noConfusion (Option.some.inj hcon)
            rw [if_neg heid]
            exact hE
          · intro p hp
            rw [r2] at hp
            exact Or.inl hp
        · refine frameE_trans (b := setNorm st.mods tee Mt1) ?_
            (frameE_setNorm _ id0 M2)
          intro id hid N hN
          by_cases hidt : id = tee
          · rw [hidt] at hN
            have hN2 : N = Mt1 := Option.some.inj
              ((getNorm_setNorm_same st.mods tee Mt1 Mt hg).symm.trans hN).symm
            rw [hidt]
            exact ⟨Mt, hg, by rw [hN2, t1], by rw [hN2, t4]⟩
          · rw [getNorm_setNorm_other st.mods Mt1 hidt] at hN
            exact ⟨N, hN, rfl, rfl⟩
        · intro N hN
          have hN2 : N = M2 := Option.some.inj
            ((getNorm_setNorm_same _ id0 M2 Mr hg2b).symm.trans hN).symm
          rw [hN2, hkeys, List.append_assoc]
          exact hnd

/-- External re-export step: preserves the invariant, keeps the union-find
and the export tables outside `id0`, consumes the head pending name, and
keeps the importee stored external. -/
theorem inv_ext_re_step (st st' : LinkSt) (id0 tee : ModuleId)
    (sp : ReExportedSpecifier) (rest : List String) (E0 : ExternalModule)
    (hInv : InvM st.mods st.uf)
    (hext : lkp tee st.mods = some (NormOrExt.ext E0))
    (hpend : pendM st.mods id0 (sp.exported_as :: rest))
    (h : process_external_re_export st id0 tee sp = Except.ok st') :
    InvM st'.mods st'.uf ∧ st'.uf = st.uf ∧ st'.shim = st.shim ∧
      frameE st.mods st'.mods id0 ∧ pendM st'.mods id0 rest ∧
      lkp tee st'.mods = some (NormOrExt.ext E0) := by
  obtain ⟨hno, hco, hso⟩ := hInv
  cases hg : getNorm st.mods id0 with
  | none =>
    unfold process_external_re_export at h
    rw [hg] at h
    exact Except.noConfusion h
  | some Mr =>
    have hres : ∃ (sym : Symbol) (M3 : NormalModule),
        process_external_re_export st id0 tee sp =
          Except.ok ⟨setNorm st.mods id0 M3, st.uf, st.warnings, st.shim⟩ ∧
        M3.linked_exports =
          upsert sp.exported_as ⟨sp.exported_as, sym, id0⟩ Mr.linked_exports ∧
        M3.linked_imports = Mr.linked_imports ++ [(tee, ⟨sp.imported, sym⟩)] ∧
        M3.external_modules_of_re_export_all =
          Mr.external_modules_of_re_export_all ∧
        M3.re_exported_ids = Mr.re_exported_ids := by
      refine ⟨(Mr.create_top_level_symbol (if ¬ sp.exported_as = "default" then
          sp.exported_as else sp.imported)).1,
        (((Mr.create_top_level_symbol (if ¬ sp.exported_as = "default" then
            sp.exported_as else sp.imported)).2).add_to_linked_imports tee
          ⟨sp.imported, (Mr.create_top_level_symbol (if ¬ sp.exported_as = "default"
            then sp.exported_as else sp.imported)).1⟩).add_to_linked_exports
          sp.exported_as ⟨sp.exported_as,
            (Mr.create_top_level_symbol (if ¬ sp.exported_as = "default" then
              sp.exported_as else sp.imported)).1, id0⟩,
        ?_, ?_, ?_, ?_, ?_⟩
      · simp only [process_external_re_export, hg]
      · simp only [add_le_le, add_li_le, ctls_le]
      · simp only [add_le_linked_imports, add_li_li, ctls_li]
      · simp only [add_le_ext_set, add_li_ext_set, ctls_ext_set]
      · simp only [add_le_rei, add_li_rei, ctls_rei]
    obtain ⟨sym, M3, hrun, r1, r2, r3, r4⟩ := hres
    rw [hrun] at h
    have hst : st' = ⟨setNorm st.mods id0 M3, st.uf, st.warnings, st.shim⟩ :=
      (Except.ok.inj h).symm
    subst hst
    have hnd := hpend Mr hg
    have hdis := List.disjoint_of_nodup_append hnd
    have hmem : ¬ sp.exported_as ∈ Mr.linked_exports.map Prod.fst :=
      fun hm => hdis hm (List.mem_cons_self _ _)
    have hfresh : lkp sp.exported_as Mr.linked_exports = none :=
      lkp_none_of_not_mem_keys hmem
    have hkeys : M3.linked_exports.map Prod.fst =
        (Mr.linked_exports.map Prod.fst) ++ [sp.exported_as] := by
      rw [r1, keys_upsert, if_neg hmem]
    have htee : ¬ tee = id0 := by
      intro hh
      rw [hh] at hext
      have hcon := (lkp_of_getNorm hg).symm.trans hext
      exact NormOrExt.noConfusion (Option.some.inj hcon)
    have hkeep : lkp tee (setNorm st.mods id0 M3) = some (NormOrExt.ext E0) := by
      rw [lkp_setNorm, if_neg htee]
      exact hext
    refine ⟨?_, rfl, rfl, frameE_setNorm st.mods id0 M3, ?_, hkeep⟩
    · refine inv_step st.mods st.uf id0 Mr M3 hg hno hco hso ?_ ?_ ?_ ?_ ?_
      · intro q v hv
        rw [r1, lkp_upsert]
        by_cases hq : q = sp.exported_as
        · rw [hq, hfresh] at hv
          exact Option.noConfusion hv
        · rw [if_neg hq]
          exact hv
      · intro k e2 hk2
        rw [r1, lkp_upsert] at hk2
        by_cases hk : k = sp.exported_as
        · rw [if_pos hk] at hk2
          have he2 : e2 = ExportedSpecifier.mk sp.exported_as sym id0 :=
            (Option.some.inj hk2).symm
          rw [he2]
          exact Or.inr (Or.inl ⟨rfl, hk.symm⟩)
        · rw [if_neg hk] at hk2
          exact Or.inl hk2
      · rw [hkeys]
        refine List.Nodup.append (List.Nodup.of_append_left hnd)
          (List.nodup_singleton _) ?_
        intro x hx hx2
        rw [List.mem_singleton] at hx2
        rw [hx2] at hx
        exact hmem hx
      · rw [r3]
        exact (hno id0 Mr hg).2
      · intro p hp
        rw [r2] at hp
        rcases List.mem_append.mp hp with hp | hp
        · exact Or.inl hp
        · rw [List.mem_singleton] at hp
          rw [hp]
          exact Or.inr (Or.inl ⟨E0, hkeep⟩)
    · intro N hN
      have hN2 : N = M3 := Option.some.inj
        ((getNorm_setNorm_same st.mods id0 M3 Mr hg).symm.trans hN).symm
      rw [hN2, hkeys, List.append_assoc]
      exact hnd

/-- Fold of self re-export steps over a spec list, consuming the matching
pending names. -/
theorem inv_self_re_fold (id0 : ModuleId) (specs : List ReExportedSpecifier) :
    ∀ (st st' : LinkSt) (rest : List String),
      InvM st.mods st.uf →
      pendM st.mods id0 (specs.map (fun sp => sp.exported_as) ++ rest) →
      foldE (fun s sp => process_self_re_export s id0 sp) st specs =
        Except.ok st' →
      InvM st'.mods st'.uf ∧ st'.uf = st.uf ∧ st'.shim = st.shim ∧
        frameE st.mods st'.mods id0 ∧ pendM st'.mods id0 rest := by
  induction specs with
  | nil =>
    intro st st' rest h1 h2 h3
    have hst : st = st' := Except.ok.inj h3
    rw [← hst]
    exact ⟨h1, rfl, rfl, frameE_refl _ _, h2⟩
  | cons sp tail ih =>
    intro st st' rest h1 h2 h3
    unfold foldE at h3
    cases hstep : process_self_re_export st id0 sp with
    | error e =>
      rw [hstep] at h3
      exact Except.noConfusion h3
    | ok st1 =>
      rw [hstep] at h3
      obtain ⟨hI1, hUf, hSh, hFr, hPd⟩ :=
        inv_self_re_step st st1 id0 sp
          (tail.map (fun sp => sp.exported_as) ++ rest) h1 h2 hstep
      obtain ⟨hI2, hUf2, hSh2, hFr2, hPd2⟩ := ih st1 st' rest hI1 hPd h3
      exact ⟨hI2, hUf2.trans hUf, hSh2.trans hSh, frameE_trans hFr hFr2, hPd2⟩

/-- Fold of cross re-export steps over a spec list, with shimming
disabled. -/
theorem inv_cross_re_fold (id0 tee : ModuleId) (specs : List ReExportedSpecifier) :
    ∀ (st st' : LinkSt) (rest : List String),
      InvM st.mods st.uf → st.shim = false → ¬ id0 = tee →
      pendM st.mods id0 (specs.map (fun sp => sp.exported_as) ++ rest) →
      foldE (fun s sp => process_cross_re_export s id0 tee sp) st specs =
        Except.ok st' →
      InvM st'.mods st'.uf ∧ st'.uf = st.uf ∧ st'.shim = st.shim ∧
        frameE st.mods st'.mods id0 ∧ pendM st'.mods id0 rest := by
  induction specs with
  | nil =>
    intro st st' rest h1 _ _ h2 h3
    have hst : st = st' := Except.ok.inj h3
    rw [← hst]
    exact ⟨h1, rfl, rfl, frameE_refl _ _, h2⟩
  | cons sp tail ih =>
    intro st st' rest h1 hsh hne h2 h3
    unfold foldE at h3
    cases hstep : process_cross_re_export st id0 tee sp with
    | error e =>
      rw [hstep] at h3
      exact Except.noConfusion h3
    | ok st1 =>
      rw [hstep] at h3
      obtain ⟨hI1, hUf, hSh, hFr, hPd⟩ :=
        inv_cross_re_step st st1 id0 tee sp
          (tail.map (fun sp => sp.exported_as) ++ rest) h1 hsh hne h2 hstep
      obtain ⟨hI2, hUf2, hSh2, hFr2, hPd2⟩ :=
        ih st1 st' rest hI1 (hSh.trans hsh) hne hPd h3
      exact ⟨hI2, hUf2.trans hUf, hSh2.trans hSh, frameE_trans hFr hFr2, hPd2⟩

/-- Fold of external re-export steps over a spec list. -/
theorem inv_ext_re_fold (id0 tee : ModuleId) (specs : List ReExportedSpecifier) :
    ∀ (st st' : LinkSt) (rest : List String) (E0 : ExternalModule),
      InvM st.mods st.uf →
      lkp tee st.mods = some (NormOrExt.ext E0) →
      pendM st.mods id0 (specs.map (fun sp => sp.exported_as) ++ rest) →
      foldE (fun s sp => process_external_re_export s id0 tee sp) st specs =
        Except.ok st' →
      InvM st'.mods st'.uf ∧ st'.uf = st.uf ∧ st'.shim = st.shim ∧
        frameE st.mods st'.mods id0 ∧ pendM st'.mods id0 rest := by
  induction specs with
  | nil =>
    intro st st' rest E0 h1 _ h2 h3
    have hst : st = st' := Except.ok.inj h3
    rw [← hst]
    exact ⟨h1, rfl, rfl, frameE_refl _ _, h2⟩
  | cons sp tail ih =>
    intro st st' rest E0 h1 hext h2 h3
    unfold foldE at h3
    cases hstep : process_external_re_export st id0 tee sp with
    | error e =>
      rw [hstep] at h3
      exact Except.noConfusion h3
    | ok st1 =>
      rw [hstep] at h3
      obtain ⟨hI1, hUf, hSh, hFr, hPd, hKp⟩ :=
        inv_ext_re_step st st1 id0 tee sp
          (tail.map (fun sp => sp.exported_as) ++ rest) E0 h1 hext h2 hstep
      obtain ⟨hI2, hUf2, hSh2, hFr2, hPd2⟩ :=
        ih st1 st' rest E0 hI1 hKp hPd h3
      exact ⟨hI2, hUf2.trans hUf, hSh2.trans hSh, frameE_trans hFr hFr2, hPd2⟩

/-- One `(importee, spec set)` pair of the explicit re-export phase
preserves the invariant and consumes its pending names. -/
theorem inv_re_pair (st st' : LinkSt) (id0 : ModuleId)
    (pr : ModuleId × List ReExportedSpecifier) (rest : List String)
    (hInv : InvM st.mods st.uf) (hsh : st.shim = false)
    (hpend : pendM st.mods id0
      (pr.2.map (fun sp => sp.exported_as) ++ rest))
    (h : process_re_export_pair st id0 pr = Except.ok st') :
    InvM st'.mods st'.uf ∧ st'.uf = st.uf ∧ st'.shim = st.shim ∧
      frameE st.mods st'.mods id0 ∧ pendM st'.mods id0 rest := by
  unfold process_re_export_pair at h
  by_cases hid : id0 = pr.1
  · rw [if_pos hid] at h
    rw [← hid] at h
    exact inv_self_re_fold id0 pr.2 st st' rest hInv hpend h
  · rw [if_neg hid] at h
    cases hl : lkp pr.1 st.mods with
    | none =>
      rw [hl] at h
      exact Except.noConfusion h
    | some v =>
      rw [hl] at h
      cases v with
      | norm t =>
        exact inv_cross_re_fold id0 pr.1 pr.2 st st' rest hInv hsh hid hpend h
      | ext E0 =>
        exact inv_ext_re_fold id0 pr.1 pr.2 st st' rest E0 hInv hl hpend h

/-- The whole explicit re-export phase of one importer preserves the
invariant and consumes all its pending names. -/
theorem inv_re_pairs_fold (id0 : ModuleId)
    (pairs : List (ModuleId × List ReExportedSpecifier)) :
    ∀ (st st' : LinkSt) (rest : List String),
      InvM st.mods st.uf → st.shim = false →
      pendM st.mods id0 (flatNames pairs ++ rest) →
      foldE (fun s pr => process_re_export_pair s id0 pr) st pairs =
        Except.ok st' →
      InvM st'.mods st'.uf ∧ st'.uf = st.uf ∧ st'.shim = st.shim ∧
        frameE st.mods st'.mods id0 ∧ pendM st'.mods id0 rest := by
  induction pairs with
  | nil =>
    intro st st' rest h1 _ h2 h3
    have hst : st = st' := Except.ok.inj h3
    rw [← hst]
    exact ⟨h1, rfl, rfl, frameE_refl _ _, h2⟩
  | cons pr tail ih =>
    intro st st' rest h1 hsh h2 h3
    unfold foldE at h3
    cases hstep : process_re_export_pair st id0 pr with
    | error e =>
      rw [hstep] at h3
      exact Except.noConfusion h3
    | ok st1 =>
      rw [hstep] at h3
      have heq : flatNames (pr :: tail) ++ rest =
          pr.2.map (fun sp => sp.exported_as) ++ (flatNames tail ++ rest) := by
        simp only [flatNames, List.append_assoc]
      rw [heq] at h2
      obtain ⟨hI1, hUf, hSh, hFr, hPd⟩ :=
        inv_re_pair st st1 id0 pr (flatNames tail ++ rest) h1 hsh h2 hstep
      obtain ⟨hI2, hUf2, hSh2, hFr2, hPd2⟩ :=
        ih st1 st' rest hI1 (hSh.trans hsh) hPd h3
      exact ⟨hI2, hUf2.trans hUf, hSh2.trans hSh, frameE_trans hFr hFr2, hPd2⟩

theorem copy_re_export_all_ext_set (m tee : NormalModule) :
    (copy_re_export_all m tee).external_modules_of_re_export_all =
      m.external_modules_of_re_export_all := rfl

theorem copy_re_export_all_li (m tee : NormalModule) :
    (copy_re_export_all m tee).linked_imports = m.linked_imports := rfl

theorem copy_re_export_all_rei (m tee : NormalModule) :
    (copy_re_export_all m tee).re_exported_ids = m.re_exported_ids := rfl

/-- The conditional copy fold of the wildcard phase touches only the export
table. -/
theorem copy_fold_fields (en ncn : List String) :
    ∀ (L : List (String × ExportedSpecifier)) (m : NormalModule),
      (L.foldl (fun acc kv =>
        if kv.1 = "default" then acc
        else if kv.1 ∈ en then acc
        else if kv.1 ∈ ncn then acc.add_to_linked_exports kv.1 kv.2
        else acc) m).linked_imports = m.linked_imports ∧
      (L.foldl (fun acc kv =>
        if kv.1 = "default" then acc
        else if kv.1 ∈ en then acc
        else if kv.1 ∈ ncn then acc.add_to_linked_exports kv.1 kv.2
        else acc) m).external_modules_of_re_export_all =
        m.external_modules_of_re_export_all ∧
      (L.foldl (fun acc kv =>
        if kv.1 = "default" then acc
        else if kv.1 ∈ en then acc
        else if kv.1 ∈ ncn then acc.add_to_linked_exports kv.1 kv.2
        else acc) m).re_exported_ids = m.re_exported_ids := by
  intro L
  induction L with
  | nil =>
    intro m
    exact ⟨rfl, rfl, rfl⟩
  | cons kv rest ih =>
    intro m
    simp only [List.foldl_cons]
    by_cases h1 : kv.1 = "default"
    · rw [if_pos h1]
      exact ih m
    · rw [if_neg h1]
      by_cases h2 : kv.1 ∈ en
      · rw [if_pos h2]
        exact ih m
      · rw [if_neg h2]
        by_cases h3 : kv.1 ∈ ncn
        · rw [if_pos h3]
          obtain ⟨a, b, c⟩ := ih (m.add_to_linked_exports kv.1 kv.2)
          exact ⟨a.trans (add_le_linked_imports m kv.1 kv.2),
            b.trans (add_le_ext_set m kv.1 kv.2), c.trans (add_le_rei m kv.1 kv.2)⟩
        · rw [if_neg h3]
          exact ih m

/-- The conditional copy fold keeps the export keys duplicate-free. -/
theorem copy_fold_keys_nodup (en ncn : List String) :
    ∀ (L : List (String × ExportedSpecifier)) (m : NormalModule),
      (m.linked_exports.map Prod.fst).Nodup →
      ((L.foldl (fun acc kv =>
        if kv.1 = "default" then acc
        else if kv.1 ∈ en then acc
        else if kv.1 ∈ ncn then acc.add_to_linked_exports kv.1 kv.2
        else acc) m).linked_exports.map Prod.fst).Nodup := by
  intro L
  induction L with
  | nil =>
    intro m hm
    exact hm
  | cons kv rest ih =>
    intro m hm
    simp only [List.foldl_cons]
    by_cases h1 : kv.1 = "default"
    · rw [if_pos h1]
      exact ih m hm
    · rw [if_neg h1]
      by_cases h2 : kv.1 ∈ en
      · rw [if_pos h2]
        exact ih m hm
      · rw [if_neg h2]
        by_cases h3 : kv.1 ∈ ncn
        · rw [if_pos h3]
          refine ih (m.add_to_linked_exports kv.1 kv.2) ?_
          rw [add_le_le]
          exact keys_upsert_nodup kv.1 kv.2 m.linked_exports hm
        · rw [if_neg h3]
          exact ih m hm

/-- Wildcard-phase invariant of the importer's export table: every binding
at a non-explicit name is the common specifier all wildcard targets agree
on. -/
def Wprop (E : List (String × ExportedSpecifier)) (en : List String)
    (M : NormalModule) : Prop :=
  ∀ q v, ¬ q ∈ en → lkp q M.linked_exports = some v →
    (q, v) ∈ E ∧ ∀ w, (q, w) ∈ E → w = v

/-- One wildcard target step preserves the invariant, the strong frame and
the wildcard-table invariant. -/
theorem inv_wc_target (st0 stk stk2 : LinkSt) (id0 : ModuleId)
    (targets : List ModuleId) (en ncn : List String) (tid : ModuleId)
    (hncn : ncn = non_conflicted_names st0.mods targets)
    (htid : tid ∈ targets)
    (hInv : InvM stk.mods stk.uf)
    (hfrm : frameL st0.mods stk.mods id0)
    (hW : ∀ Mk, getNorm stk.mods id0 = some Mk →
      Wprop (wildcard_export_entries st0.mods targets) en Mk)
    (h : wildcard_process_target stk id0 en ncn tid = Except.ok stk2) :
    InvM stk2.mods stk2.uf ∧ stk2.uf = stk.uf ∧ stk2.shim = stk.shim ∧
      frameL st0.mods stk2.mods id0 ∧
      (∀ Mk, getNorm stk2.mods id0 = some Mk →
        Wprop (wildcard_export_entries st0.mods targets) en Mk) := by
  obtain ⟨hno, hco, hso⟩ := hInv
  unfold wildcard_process_target at h
  by_cases ht : tid = id0
  · rw [if_pos ht] at h
    have hst : stk = stk2 := Except.ok.inj h
    rw [← hst]
    exact ⟨⟨hno, hco, hso⟩, rfl, rfl, hfrm, hW⟩
  · rw [if_neg ht] at h
    cases hl : lkp tid stk.mods with
    | none =>
      rw [hl] at h
      cases hgk : getNorm stk.mods id0 <;> rw [hgk] at h <;>
        exact Except.noConfusion h
    | some v =>
      cases v with
      | norm tee =>
        cases hgk : getNorm stk.mods id0 with
        | none =>
          rw [hl, hgk] at h
          exact Except.noConfusion h
        | some Mk =>
          rw [hl, hgk] at h
          have hst : stk2 = ⟨setNorm stk.mods id0
              (copy_re_export_all (wildcard_copy_exports
                (copy_re_export_all Mk tee) tee en ncn) tee),
              stk.uf, stk.warnings, stk.shim⟩ := (Except.ok.inj h).symm
          subst hst
          have hgtee : getNorm stk.mods tid = some tee := getNorm_of_lkp_norm hl
          have hgtee0 : getNorm st0.mods tid = some tee := by
            unfold getNorm
            rw [← hfrm tid ht, hl]
          have hndtee : (tee.linked_exports.map Prod.fst).Nodup :=
            (hno tid tee hgtee).1
          have hmemE : ∀ q w, lkp q tee.linked_exports = some w →
              (q, w) ∈ wildcard_export_entries st0.mods targets := by
            intro q w hw
            exact (mem_wildcard_entries_iff st0.mods targets (q, w)).mpr
              ⟨tid, htid, tee, hgtee0, mem_of_lkp_some hw⟩
          have hlkp : ∀ n, lkp n (copy_re_export_all (wildcard_copy_exports
              (copy_re_export_all Mk tee) tee en ncn) tee).linked_exports =
              (if ¬ n = "default" ∧ ¬ n ∈ en ∧ n ∈ ncn then
                (match lkp n tee.linked_exports with
                  | some e => some e
                  | none => lkp n Mk.linked_exports)
              else lkp n Mk.linked_exports) := by
            intro n
            rw [copy_re_export_all_linked_exports]
            unfold wildcard_copy_exports
            rw [copy_fold_lookup en ncn n tee.linked_exports
              (copy_re_export_all Mk tee) hndtee]
            rw [copy_re_export_all_linked_exports]
          refine ⟨?_, rfl, rfl,
            frameL_trans hfrm (frameL_setNorm stk.mods id0 _), ?_⟩
          · refine inv_step stk.mods stk.uf id0 Mk _ hgk hno hco hso ?_ ?_ ?_ ?_ ?_
            · intro q v hv
              rw [hlkp q]
              by_cases hc : ¬ q = "default" ∧ ¬ q ∈ en ∧ q ∈ ncn
              · rw [if_pos hc]
                cases hcase : lkp q tee.linked_exports with
                | none => exact hv
                | some w =>
                  obtain ⟨hvm, hvu⟩ := hW Mk hgk q v hc.2.1 hv
                  have hwv : w = v := hvu w (hmemE q w hcase)
                  rw [hwv]
              · rw [if_neg hc]
                exact hv
            · intro k e2 hk2
              rw [hlkp k] at hk2
              by_cases hc : ¬ k = "default" ∧ ¬ k ∈ en ∧ k ∈ ncn
              · rw [if_pos hc] at hk2
                cases hcase : lkp k tee.linked_exports with
                | none =>
                  rw [hcase] at hk2
                  exact Or.inl hk2
                | some w =>
                  rw [hcase] at hk2
                  have he2 : e2 = w := (Option.some.inj hk2).symm
                  rw [he2]
                  exact Or.inr (Or.inr (hco tid tee hgtee k w hcase))
              · rw [if_neg hc] at hk2
                exact Or.inl hk2
            · rw [copy_re_export_all_linked_exports]
              unfold wildcard_copy_exports
              refine copy_fold_keys_nodup en ncn tee.linked_exports
                (copy_re_export_all Mk tee) ?_
              rw [copy_re_export_all_linked_exports]
              exact (hno id0 Mk hgk).1
            · intro eid hm
              rw [copy_re_export_all_ext_set] at hm
              unfold wildcard_copy_exports at hm
              rw [(copy_fold_fields en ncn tee.linked_exports
                (copy_re_export_all Mk tee)).2.1] at hm
              rw [copy_re_export_all_ext_set] at hm
              exact (hno id0 Mk hgk).2 eid hm
            · intro p hp
              rw [copy_re_export_all_li] at hp
              unfold wildcard_copy_exports at hp
              rw [(copy_fold_fields en ncn tee.linked_exports
                (copy_re_export_all Mk tee)).1] at hp
              rw [copy_re_export_all_li] at hp
              exact Or.inl hp
          · intro Mz hMz q v hq hv
            have hMz2 : Mz = copy_re_export_all (wildcard_copy_exports
                (copy_re_export_all Mk tee) tee en ncn) tee :=
              Option.some.inj ((getNorm_setNorm_same stk.mods id0 _ Mk hgk).symm.trans
                hMz).symm
            rw [hMz2, hlkp q] at hv
            by_cases hc : ¬ q = "default" ∧ ¬ q ∈ en ∧ q ∈ ncn
            · rw [if_pos hc] at hv
              cases hcase : lkp q tee.linked_exports with
              | none =>
                rw [hcase] at hv
                exact hW Mk hgk q v hq hv
              | some w =>
                rw [hcase] at hv
                have hwv : w = v := Option.some.inj hv
                have hqn : q ∈ non_conflicted_names st0.mods targets := by
                  rw [← hncn]
                  exact hc.2.2
                obtain ⟨e0, he0, hall⟩ :=
                  (mem_ncn_iff st0.mods targets q).mp hqn
                have hwe0 : w = e0 := hall w (hmemE q w hcase)
                refine ⟨by rw [← hwv]; exact hmemE q w hcase, ?_⟩
                intro w2 hw2
                rw [hall w2 hw2, ← hwe0, hwv]
            · rw [if_neg hc] at hv
              exact hW Mk hgk q v hq hv
      | ext E0 =>
        cases hgk : getNorm stk.mods id0 with
        | none =>
          rw [hl, hgk] at h
          exact Except.noConfusion h
        | some Mk =>
          rw [hl, hgk] at h
          have hst : stk2 = ⟨setNorm stk.mods id0 { Mk with external_modules_of_re_export_all := getOrInsert Mk.external_modules_of_re_export_all tid }, stk.uf, stk.warnings, stk.shim⟩ := (Except.ok.inj h).symm
          subst hst
          refine ⟨?_, rfl, rfl,
            frameL_trans hfrm (frameL_setNorm stk.mods id0 _), ?_⟩
          · refine inv_step stk.mods stk.uf id0 Mk _ hgk hno hco hso ?_ ?_ ?_ ?_ ?_
            · intro q v hv
              exact hv
            · intro k e2 hk2
              exact Or.inl hk2
            · exact (hno id0 Mk hgk).1
            · intro eid hm
              unfold getOrInsert at hm
              by_cases hmem : tid ∈ Mk.external_modules_of_re_export_all
              · rw [if_pos hmem] at hm
                exact (hno id0 Mk hgk).2 eid hm
              · rw [if_neg hmem] at hm
                rcases List.mem_append.mp hm with hm | hm
                · exact (hno id0 Mk hgk).2 eid hm
                · rw [List.mem_singleton] at hm
                  rw [hm]
                  exact ⟨E0, hl⟩
            · intro p hp
              exact Or.inl hp
          · intro Mz hMz q v hq hv
            have hMz2 : Mz = { Mk with external_modules_of_re_export_all := getOrInsert Mk.external_modules_of_re_export_all tid } :=
              Option.some.inj ((getNorm_setNorm_same stk.mods id0 _ Mk hgk).symm.trans
                hMz).symm
            rw [hMz2] at hv
            exact hW Mk hgk q v hq hv

/-- Generic invariant preservation through a short-circuiting fold. -/
theorem foldE_pres {α : Type} (f : LinkSt → α → Except BuildError LinkSt)
    (P : LinkSt → Prop) (l : List α) :
    ∀ (st st' : LinkSt),
      (∀ s s2 x, x ∈ l → P s → f s x = Except.ok s2 → P s2) →
      P st → foldE f st l = Except.ok st' → P st' := by
  induction l with
  | nil =>
    intro st st' _ hP h
    have hst := Except.ok.inj h
    rw [← hst]
    exact hP
  | cons x tail ih =>
    intro st st' hstep hP h
    unfold foldE at h
    cases hx : f st x with
    | error e =>
      rw [hx] at h
      exact Except.noConfusion h
    | ok st1 =>
      rw [hx] at h
      exact ih st1 st' (fun s s2 y hy => hstep s s2 y (List.mem_cons_of_mem _ hy))
        (hstep st st1 x (List.mem_cons_self _ _) hP hx) h

/-- The whole wildcard phase of one importer preserves the invariant and
everything outside the importer. -/
theorem inv_wc_phase (st st' : LinkSt) (id0 : ModuleId)
    (hInv : InvM st.mods st.uf)
    (h : process_re_export_all st id0 = Except.ok st') :
    InvM st'.mods st'.uf ∧ st'.uf = st.uf ∧ st'.shim = st.shim ∧
      frameE st.mods st'.mods id0 := by
  unfold process_re_export_all at h
  cases hg : getNorm st.mods id0 with
  | none =>
    rw [hg] at h
    exact Except.noConfusion h
  | some M0 =>
    rw [hg] at h
    have hP := foldE_pres
      (fun s tid => wildcard_process_target s id0
        (M0.linked_exports.map Prod.fst)
        (non_conflicted_names st.mods M0.re_export_all) tid)
      (fun s => InvM s.mods s.uf ∧ s.uf = st.uf ∧ s.shim = st.shim ∧
        frameL st.mods s.mods id0 ∧
        (∀ Mk, getNorm s.mods id0 = some Mk →
          Wprop (wildcard_export_entries st.mods M0.re_export_all)
            (M0.linked_exports.map Prod.fst) Mk))
      M0.re_export_all st st' ?_ ?_ h
    · exact ⟨hP.1, hP.2.1, hP.2.2.1, frameE_of_frameL hP.2.2.2.1⟩
    · intro s s2 tid htid hPs hstep
      obtain ⟨hI, hU, hS, hF, hWp⟩ := hPs
      obtain ⟨hI2, hU2, hS2, hF2, hW2⟩ := inv_wc_target st s s2 id0
        M0.re_export_all (M0.linked_exports.map Prod.fst)
        (non_conflicted_names st.mods M0.re_export_all) tid rfl htid hI hF hWp hstep
      exact ⟨hI2, hU2.trans hU, hS2.trans hS, hF2, hW2⟩
    · refine ⟨hInv, rfl, rfl, frameL_refl _ _, ?_⟩
      intro Mk hMk q v hq hv
      have hMkM : Mk = M0 := Option.some.inj (hMk.symm.trans hg)
      rw [hMkM] at hv
      exact absurd (mem_keys_of_lkp hv) hq

/-- The exports pass of one importer preserves the invariant, the
union-find, the option, and the export tables of all other modules. -/
theorem inv_link_exports_one (st st' : LinkSt) (id0 : ModuleId)
    (hInv : InvM st.mods st.uf) (hsh : st.shim = false)
    (hpend : ∀ N, getNorm st.mods id0 = some N →
      ((N.linked_exports.map Prod.fst) ++ flatNames N.re_exported_ids).Nodup)
    (h : link_exports_one st id0 = Except.ok st') :
    InvM st'.mods st'.uf ∧ st'.uf = st.uf ∧ st'.shim = st.shim ∧
      frameE st.mods st'.mods id0 := by
  unfold link_exports_one at h
  cases hbx : id0.external with
  | true =>
    rw [hbx] at h
    rw [if_pos rfl] at h
    have hst : st = st' := Except.ok.inj h
    rw [← hst]
    exact ⟨hInv, rfl, rfl, frameE_refl _ _⟩
  | false =>
    rw [hbx] at h
    rw [if_neg Bool.false_ne_true] at h
    cases hg : getNorm st.mods id0 with
    | none =>
      rw [hg] at h
      exact Except.noConfusion h
    | some M0 =>
      rw [hg] at h
      dsimp only at h
      cases hf : foldE (fun s pr => process_re_export_pair s id0 pr) st
          M0.re_exported_ids with
      | error e =>
        rw [hf] at h
        exact Except.noConfusion h
      | ok st1 =>
        rw [hf] at h
        have hpd : pendM st.mods id0 (flatNames M0.re_exported_ids ++ []) := by
          intro N hN
          have hNM : N = M0 := Option.some.inj (hN.symm.trans hg)
          rw [hNM, List.append_nil]
          exact hpend M0 hg
        obtain ⟨hI1, hUf1, hSh1, hFr1, _⟩ :=
          inv_re_pairs_fold id0 M0.re_exported_ids st st1 [] hInv hsh hpd hf
        obtain ⟨hI2, hUf2, hSh2, hFr2⟩ := inv_wc_phase st1 st' id0 hI1 h
        exact ⟨hI2, hUf2.trans hUf1, hSh2.trans hSh1, frameE_trans hFr1 hFr2⟩

/-- The whole exports pass preserves the invariant when every listed module
is processed at most once and satisfies the pending-name discipline. -/
theorem inv_link_exports (order : List ModuleId) :
    ∀ (st st' : LinkSt),
      InvM st.mods st.uf → st.shim = false →
      (∀ id ∈ order, ∀ N, getNorm st.mods id = some N →
        ((N.linked_exports.map Prod.fst) ++ flatNames N.re_exported_ids).Nodup) →
      order.Nodup →
      link_exports st order = Except.ok st' →
      InvM st'.mods st'.uf ∧ st'.shim = st.shim ∧ st'.uf = st.uf := by
  induction order with
  | nil =>
    intro st st' h1 _ _ _ h5
    have hst : st = st' := Except.ok.inj h5
    rw [← hst]
    exact ⟨h1, rfl, rfl⟩
  | cons id0 tail ih =>
    intro st st' h1 hsh hpend hnd h5
    unfold link_exports foldE at h5
    cases hstep : link_exports_one st id0 with
    | error e =>
      rw [hstep] at h5
      exact Except.noConfusion h5
    | ok st1 =>
      rw [hstep] at h5
      obtain ⟨hI1, hUf1, hSh1, hFr1⟩ := inv_link_exports_one st st1 id0 h1 hsh
        (hpend id0 (List.mem_cons_self _ _)) hstep
      have hnd2 := List.nodup_cons.mp hnd
      have hpend2 : ∀ id ∈ tail, ∀ N, getNorm st1.mods id = some N →
          ((N.linked_exports.map Prod.fst) ++ flatNames N.re_exported_ids).Nodup := by
        intro id hid N hN
        have hne : ¬ id = id0 := fun hh => hnd2.1 (hh ▸ hid)
        obtain ⟨N0, hN0, hle, hrei⟩ := hFr1 id hne N hN
        rw [hle, hrei]
        exact hpend id (List.mem_cons_of_mem _ hid) N0 hN0
      obtain ⟨hI2, hSh2, hUf2⟩ := ih st1 st' hI1 (hSh1.trans hsh) hpend2 hnd2.2 h5
      exact ⟨hI2, hSh2.trans hSh1, hUf2.trans hUf1⟩

/-- Self import step with shimming disabled: preserves the invariant. -/
theorem inv_self_import_step (st st' : LinkSt) (id0 : ModuleId)
    (spec : ImportedSpecifier)
    (hInv : InvM st.mods st.uf) (hsh : st.shim = false)
    (h : process_self_import st id0 spec = Except.ok st') :
    InvM st'.mods st'.uf ∧ st'.shim = st.shim := by
  obtain ⟨hno, hco, hso⟩ := hInv
  cases hg : getNorm st.mods id0 with
  | none =>
    unfold process_self_import at h
    rw [hg] at h
    exact Except.noConfusion h
  | some M =>
    cases hfind : lkp spec.imported M.linked_exports with
    | none =>
      unfold process_self_import at h
      rw [hg] at h
      simp only [hsh, Bool.false_eq_true, if_false, NormalModule.find_exported,
        suggest_name_linked_exports, maybe_mark_linked_exports, hfind] at h
      exact Except.noConfusion h
    | some e =>
      set M2 : NormalModule := ((if spec.imported = "*" then
          M.mark_namespace_id_referenced else M).suggest_name spec.imported
          spec.imported_as.name).add_to_linked_imports e.owner
          ⟨e.exported_as, spec.imported_as⟩ with hM2def
      have hres : process_self_import st id0 spec = Except.ok
          ⟨setNorm (setNorm st.mods id0
            ((if spec.imported = "*" then M.mark_namespace_id_referenced
              else M).suggest_name spec.imported spec.imported_as.name)) id0 M2,
            st.uf.union spec.imported_as e.local_id, st.warnings, st.shim⟩ := by
        rw [hM2def]
        simp only [process_self_import, hg, hsh, Bool.false_eq_true, if_false,
          NormalModule.find_exported, suggest_name_linked_exports,
          maybe_mark_linked_exports, hfind]
      rw [hres] at h
      rw [setNorm_setNorm] at h
      have hst : st' = ⟨setNorm st.mods id0 M2,
          st.uf.union spec.imported_as e.local_id, st.warnings, st.shim⟩ :=
        (Except.ok.inj h).symm
      subst hst
      have hso2 := sound_all_union st.mods st.uf spec.imported_as e.local_id hso
      have hlee : M2.linked_exports = M.linked_exports := by
        rw [hM2def, add_li_le, suggest_name_linked_exports, maybe_mark_linked_exports]
      have hext2 : M2.external_modules_of_re_export_all =
          M.external_modules_of_re_export_all := by
        rw [hM2def, add_li_ext_set, suggest_name_ext_set, maybe_mark_ext_set]
      have hli2 : M2.linked_imports =
          M.linked_imports ++ [(e.owner, ⟨e.exported_as, spec.imported_as⟩)] := by
        rw [hM2def, add_li_li, suggest_name_linked_imports, maybe_mark_linked_imports]
      refine ⟨?_, rfl⟩
      refine inv_step st.mods (st.uf.union spec.imported_as e.local_id) id0 M M2
        hg hno hco hso2 ?_ ?_ ?_ ?_ ?_
      · intro q v hv
        rw [hlee]
        exact hv
      · intro k e2 hk2
        rw [hlee] at hk2
        exact Or.inl hk2
      · rw [hlee]
        exact (hno id0 M hg).1
      · intro eid hm
        rw [hext2] at hm
        exact (hno id0 M hg).2 eid hm
      · intro p hp
        rw [hli2] at hp
        rcases List.mem_append.mp hp with hp | hp
        · exact Or.inl hp
        · rw [List.mem_singleton] at hp
          rw [hp]
          obtain ⟨Nc, ec, hNc, hlc, hlocc⟩ := hco id0 M hg spec.imported e hfind
          by_cases ho : e.owner = id0
          · have hNcM : Nc = M := by
              rw [ho] at hNc
              exact Option.some.inj (hNc.symm.trans hg)
            refine Or.inr (Or.inr ⟨M2, ec, ?_, ?_, ?_⟩)
            · rw [ho]
              exact getNorm_setNorm_same st.mods id0 M2 M hg
            · rw [hlee, ← hNcM]
              exact hlc
            · rw [hlocc]
              exact UnionFind.same_union_self st.uf spec.imported_as e.local_id
          · refine Or.inr (Or.inr ⟨Nc, ec, ?_, hlc, ?_⟩)
            · rw [getNorm_setNorm_other st.mods M2 ho]
              exact hNc
            · rw [hlocc]
              exact UnionFind.same_union_self st.uf spec.imported_as e.local_id

/-- Cross import step against a normal importee, with shimming disabled:
preserves the invariant (both on a hit and through the external-namespace
fallback). -/
theorem inv_cross_import_step (st st' : LinkSt) (id0 tee : ModuleId)
    (spec : ImportedSpecifier)
    (hInv : InvM st.mods st.uf) (hsh : st.shim = false) (hne : ¬ id0 = tee)
    (h : process_cross_import st id0 tee spec = Except.ok st') :
    InvM st'.mods st'.uf ∧ st'.shim = st.shim := by
  obtain ⟨hno, hco, hso⟩ := hInv
  cases hg : getNorm st.mods tee with
  | none =>
    unfold process_cross_import at h
    rw [hg] at h
    exact Except.noConfusion h
  | some Mt =>
    have hgn1 : ∀ m : NormalModule, getNorm (setNorm st.mods tee m) id0 =
        getNorm st.mods id0 := fun m => getNorm_setNorm_other st.mods m hne
    set M1t : NormalModule := (if spec.imported = "*" then
        Mt.mark_namespace_id_referenced else Mt).suggest_name spec.imported
        spec.imported_as.name with hM1tdef
    have hle1 : M1t.linked_exports = Mt.linked_exports := by
      rw [hM1tdef, suggest_name_linked_exports, maybe_mark_linked_exports]
    have hli1 : M1t.linked_imports = Mt.linked_imports := by
      rw [hM1tdef, suggest_name_linked_imports, maybe_mark_linked_imports]
    have hex1 : M1t.external_modules_of_re_export_all =
        Mt.external_modules_of_re_export_all := by
      rw [hM1tdef, suggest_name_ext_set, maybe_mark_ext_set]
    cases hfind : lkp spec.imported Mt.linked_exports with
    | some e =>
      cases hg2 : getNorm st.mods id0 with
      | none =>
        unfold process_cross_import at h
        rw [hg] at h
        simp only [hsh, Bool.false_eq_true, if_false, NormalModule.find_exported,
          suggest_name_linked_exports, maybe_mark_linked_exports, hfind,
          hgn1, hg2] at h
        exact Except.noConfusion h
      | some Mr =>
        set M2r : NormalModule := Mr.add_to_linked_imports e.owner
          ⟨e.exported_as, spec.imported_as⟩ with hM2rdef
        have hres : process_cross_import st id0 tee spec = Except.ok
            ⟨setNorm (setNorm st.mods tee M1t) id0 M2r,
              st.uf.union spec.imported_as e.local_id, st.warnings, st.shim⟩ := by
          rw [hM2rdef, hM1tdef]
          simp only [process_cross_import, hg, hsh, Bool.false_eq_true, if_false,
            NormalModule.find_exported, suggest_name_linked_exports,
            maybe_mark_linked_exports, hfind, hgn1, hg2]
        rw [hres] at h
        have hst : st' = ⟨setNorm (setNorm st.mods tee M1t) id0 M2r,
            st.uf.union spec.imported_as e.local_id, st.warnings, st.shim⟩ :=
          (Except.ok.inj h).symm
        subst hst
        have hso2 := sound_all_union st.mods st.uf spec.imported_as e.local_id hso
        have hle2r : M2r.linked_exports = Mr.linked_exports := by
          rw [hM2rdef, add_li_le]
        have hex2r : M2r.external_modules_of_re_export_all =
            Mr.external_modules_of_re_export_all := by
          rw [hM2rdef, add_li_ext_set]
        have hli2r : M2r.linked_imports =
            Mr.linked_imports ++ [(e.owner, ⟨e.exported_as, spec.imported_as⟩)] := by
          rw [hM2rdef, add_li_li]
        obtain ⟨hnoA, hcoA, hsoA⟩ := inv_step st.mods
          (st.uf.union spec.imported_as e.local_id) tee Mt M1t hg hno hco hso2
          (by intro q v hv; rw [hle1]; exact hv)
          (by intro k e2 hk2; rw [hle1] at hk2; exact Or.inl hk2)
          (by rw [hle1]; exact (hno tee Mt hg).1)
          (by intro eid hm; rw [hex1] at hm; exact (hno tee Mt hg).2 eid hm)
          (by intro p hp; rw [hli1] at hp; exact Or.inl hp)
        have hgB : getNorm (setNorm st.mods tee M1t) id0 = some Mr := by
          rw [hgn1]
          exact hg2
        have hcohe : entry_coherent (setNorm st.mods tee M1t) e := by
          refine hcoA tee M1t (getNorm_setNorm_same st.mods tee M1t Mt hg)
            spec.imported e ?_
          rw [hle1]
          exact hfind
        refine ⟨?_, rfl⟩
        refine inv_step (setNorm st.mods tee M1t)
          (st.uf.union spec.imported_as e.local_id) id0 Mr M2r hgB
          hnoA hcoA hsoA ?_ ?_ ?_ ?_ ?_
        · intro q v hv
          rw [hle2r]
          exact hv
        · intro k e2 hk2
          rw [hle2r] at hk2
          exact Or.inl hk2
        · rw [hle2r]
          exact (hnoA id0 Mr hgB).1
        · intro eid hm
          rw [hex2r] at hm
          exact (hnoA id0 Mr hgB).2 eid hm
        · intro p hp
          rw [hli2r] at hp
          rcases List.mem_append.mp hp with hp | hp
          · exact Or.inl hp
          · rw [List.mem_singleton] at hp
            rw [hp]
            obtain ⟨Nc, ec, hNc, hlc, hlocc⟩ := hcohe
            by_cases ho : e.owner = id0
            · have hNcMr : Nc = Mr := by
                rw [ho] at hNc
                exact Option.some.inj (hNc.symm.trans hgB)
              refine Or.inr (Or.inr ⟨M2r, ec, ?_, ?_, ?_⟩)
              · rw [ho]
                exact getNorm_setNorm_same _ id0 M2r Mr hgB
              · rw [hle2r, ← hNcMr]
                exact hlc
              · rw [hlocc]
                exact UnionFind.same_union_self st.uf spec.imported_as e.local_id
            · refine Or.inr (Or.inr ⟨Nc, ec, ?_, hlc, ?_⟩)
              · rw [getNorm_setNorm_other _ M2r ho]
                exact hNc
              · rw [hlocc]
                exact UnionFind.same_union_self st.uf spec.imported_as e.local_id
    | none =>
      cases hextset : Mt.external_modules_of_re_export_all with
      | nil =>
        unfold process_cross_import at h
        rw [hg] at h
        simp only [hsh, Bool.false_eq_true, if_false, NormalModule.find_exported,
          suggest_name_linked_exports, maybe_mark_linked_exports, hfind,
          suggest_name_ext_set, maybe_mark_ext_set, hextset] at h
        exact Except.noConfusion h
      | cons fid restE =>
        cases hg2 : getNorm st.mods id0 with
        | none =>
          unfold process_cross_import at h
          rw [hg] at h
          simp only [hsh, Bool.false_eq_true, if_false, NormalModule.find_exported,
            suggest_name_linked_exports, maybe_mark_linked_exports, hfind,
            suggest_name_ext_set, maybe_mark_ext_set, hextset, hgn1, hg2] at h
          exact Except.noConfusion h
        | some Mr =>
          set sym : Symbol := (M1t.create_top_level_symbol spec.imported_as.name).1
            with hsymdef
          set M4t : NormalModule :=
            (((M1t.create_top_level_symbol
              spec.imported_as.name).2).add_to_linked_imports fid
              ⟨spec.imported, sym⟩).add_to_linked_exports spec.imported
              ⟨spec.imported, sym, tee⟩ with hM4tdef
          set M2r : NormalModule := Mr.add_to_linked_imports tee
            ⟨spec.imported, spec.imported_as⟩ with hM2rdef
          set w2 : List Warning := (if 1 < (fid :: restE).length then
            st.warnings ++ [Warning.ambiguousExternalNamespaces
              spec.imported_as.name tee fid (fid :: restE)]
            else st.warnings) with hw2def
          have hres : process_cross_import st id0 tee spec = Except.ok
              ⟨setNorm (setNorm (setNorm st.mods tee M1t) tee M4t) id0 M2r,
                st.uf.union spec.imported_as sym, w2, st.shim⟩ := by
            rw [hw2def, hM2rdef, hM4tdef, hsymdef, hM1tdef]
            simp only [process_cross_import, hg, hsh, Bool.false_eq_true, if_false,
              NormalModule.find_exported, suggest_name_linked_exports,
              maybe_mark_linked_exports, hfind, suggest_name_ext_set,
              maybe_mark_ext_set, hextset, hgn1, hg2]
          rw [hres] at h
          rw [setNorm_setNorm] at h
          have hst : st' = ⟨setNorm (setNorm st.mods tee M4t) id0 M2r,
              st.uf.union spec.imported_as sym, w2, st.shim⟩ :=
            (Except.ok.inj h).symm
          subst hst
          have hso2 := sound_all_union st.mods st.uf spec.imported_as sym hso
          have hle4 : M4t.linked_exports =
              upsert spec.imported ⟨spec.imported, sym, tee⟩ Mt.linked_exports := by
            rw [hM4tdef, add_le_le, add_li_le, ctls_le, hle1]
          have hli4 : M4t.linked_imports =
              Mt.linked_imports ++ [(fid, ⟨spec.imported, sym⟩)] := by
            rw [hM4tdef, add_le_linked_imports, add_li_li, ctls_li, hli1]
          have hex4 : M4t.external_modules_of_re_export_all =
              Mt.external_modules_of_re_export_all := by
            rw [hM4tdef, add_le_ext_set, add_li_ext_set, ctls_ext_set, hex1]
          have hfidext : ∃ E, lkp fid st.mods = some (NormOrExt.ext E) :=
            (hno tee Mt hg).2 fid (by rw [hextset]; exact List.mem_cons_self _ _)
          obtain ⟨Ef, hEf⟩ := hfidext
          have hfid_ne : ¬ fid = tee := by
            intro hh
            rw [hh] at hEf
            have hcon := (lkp_of_getNorm hg).symm.trans hEf
            exact NormOrExt.noConfusion (Option.some.inj hcon)
          obtain ⟨hnoA, hcoA, hsoA⟩ := inv_step st.mods
            (st.uf.union spec.imported_as sym) tee Mt M4t hg hno hco hso2
            (by intro q v hv
                rw [hle4, lkp_upsert]
                by_cases hq : q = spec.imported
                · rw [hq, hfind] at hv
                  exact Option.noConfusion hv
                · rw [if_neg hq]
                  exact hv)
            (by intro k e2 hk2
                rw [hle4, lkp_upsert] at hk2
                by_cases hk : k = spec.imported
                · rw [if_pos hk] at hk2
                  have he2 : e2 = ExportedSpecifier.mk spec.imported sym tee :=
                    (Option.some.inj hk2).symm
                  rw [he2]
                  exact Or.inr (Or.inl ⟨rfl, hk.symm⟩)
                · rw [if_neg hk] at hk2
                  exact Or.inl hk2)
            (by rw [hle4]
                exact keys_upsert_nodup _ _ _ (hno tee Mt hg).1)
            (by intro eid hm
                rw [hex4] at hm
                exact (hno tee Mt hg).2 eid hm)
            (by intro p hp
                rw [hli4] at hp
                rcases List.mem_append.mp hp with hp | hp
                · exact Or.inl hp
                · rw [List.mem_singleton] at hp
                  rw [hp]
                  refine Or.inr (Or.inl ⟨Ef, ?_⟩)
                  rw [lkp_setNorm, if_neg hfid_ne]
                  exact hEf)
          have hgB : getNorm (setNorm st.mods tee M4t) id0 = some Mr := by
            rw [getNorm_setNorm_other st.mods M4t hne]
            exact hg2
          have hle2r : M2r.linked_exports = Mr.linked_exports := by
            rw [hM2rdef, add_li_le]
          have hex2r : M2r.external_modules_of_re_export_all =
              Mr.external_modules_of_re_export_all := by
            rw [hM2rdef, add_li_ext_set]
          have hli2r : M2r.linked_imports =
              Mr.linked_imports ++ [(tee, ⟨spec.imported, spec.imported_as⟩)] := by
            rw [hM2rdef, add_li_li]
          refine ⟨?_, rfl⟩
          refine inv_step (setNorm st.mods tee M4t)
            (st.uf.union spec.imported_as sym) id0 Mr M2r hgB
            hnoA hcoA hsoA ?_ ?_ ?_ ?_ ?_
          · intro q v hv
            rw [hle2r]
            exact hv
          · intro k e2 hk2
            rw [hle2r] at hk2
            exact Or.inl hk2
          · rw [hle2r]
            exact (hnoA id0 Mr hgB).1
          · intro eid hm
            rw [hex2r] at hm
            exact (hnoA id0 Mr hgB).2 eid hm
          · intro p hp
            rw [hli2r] at hp
            rcases List.mem_append.mp hp with hp | hp
            · exact Or.inl hp
            · rw [List.mem_singleton] at hp
              rw [hp]
              refine Or.inr (Or.inr ⟨M4t, ExportedSpecifier.mk spec.imported sym tee,
                ?_, ?_, ?_⟩)
              · rw [getNorm_setNorm_other _ M2r (fun hh => hne hh.symm)]
                exact getNorm_setNorm_same st.mods tee M4t Mt hg
              · rw [hle4]
                exact lkp_upsert_same spec.imported _ Mt.linked_exports
              · exact UnionFind.same_union_self st.uf spec.imported_as sym

/-- External import step: preserves the invariant and keeps the importee
stored external. -/
theorem inv_ext_import_step (st st' : LinkSt) (id0 tee : ModuleId)
    (spec : ImportedSpecifier) (E0 : ExternalModule)
    (hInv : InvM st.mods st.uf)
    (hext : lkp tee st.mods = some (NormOrExt.ext E0))
    (h : process_external_import st id0 tee spec = Except.ok st') :
    InvM st'.mods st'.uf ∧ st'.shim = st.shim ∧
      ∃ E1, lkp tee st'.mods = some (NormOrExt.ext E1) := by
  obtain ⟨hno, hco, hso⟩ := hInv
  cases hg2 : getNorm st.mods id0 with
  | none =>
    unfold process_external_import at h
    rw [hext] at h
    simp only [hg2] at h
    exact Except.noConfusion h
  | some Mr =>
    set M2r : NormalModule := Mr.add_to_linked_imports tee spec with hM2rdef
    have hres : process_external_import st id0 tee spec = Except.ok
        ⟨setExt (setNorm st.mods id0 M2r) tee
          (E0.find_exported_symbol spec.imported).2,
        st.uf.union spec.imported_as (E0.find_exported_symbol spec.imported).1,
        st.warnings, st.shim⟩ := by
      rw [hM2rdef]
      simp only [process_external_import, hext, hg2]
    rw [hres] at h
    have hst : st' = ⟨setExt (setNorm st.mods id0 M2r) tee
        (E0.find_exported_symbol spec.imported).2,
        st.uf.union spec.imported_as (E0.find_exported_symbol spec.imported).1,
        st.warnings, st.shim⟩ := (Except.ok.inj h).symm
    subst hst
    have htee_ne : ¬ tee = id0 := by
      intro hh
      rw [hh] at hext
      have hcon := (lkp_of_getNorm hg2).symm.trans hext
      exact NormOrExt.noConfusion (Option.some.inj hcon)
    have hso2 := sound_all_union st.mods st.uf spec.imported_as
      (E0.find_exported_symbol spec.imported).1 hso
    have hle2r : M2r.linked_exports = Mr.linked_exports := by
      rw [hM2rdef, add_li_le]
    have hex2r : M2r.external_modules_of_re_export_all =
        Mr.external_modules_of_re_export_all := by
      rw [hM2rdef, add_li_ext_set]
    have hli2r : M2r.linked_imports = Mr.linked_imports ++ [(tee, spec)] := by
      rw [hM2rdef, add_li_li]
    have hkeep : lkp tee (setNorm st.mods id0 M2r) =
        some (NormOrExt.ext E0) := by
      rw [lkp_setNorm, if_neg htee_ne]
      exact hext
    obtain ⟨hnoA, hcoA, hsoA⟩ := inv_step st.mods
      (st.uf.union spec.imported_as (E0.find_exported_symbol spec.imported).1)
      id0 Mr M2r hg2 hno hco hso2
      (by intro q v hv; rw [hle2r]; exact hv)
      (by intro k e2 hk2; rw [hle2r] at hk2; exact Or.inl hk2)
      (by rw [hle2r]; exact (hno id0 Mr hg2).1)
      (by intro eid hm; rw [hex2r] at hm; exact (hno id0 Mr hg2).2 eid hm)
      (by intro p hp
          rw [hli2r] at hp
          rcases List.mem_append.mp hp with hp | hp
          · exact Or.inl hp
          · rw [List.mem_singleton] at hp
            rw [hp]
            exact Or.inr (Or.inl ⟨E0, hkeep⟩))
    obtain ⟨hnoB, hcoB, hsoB⟩ := inv_setExt (setNorm st.mods id0 M2r)
      (st.uf.union spec.imported_as (E0.find_exported_symbol spec.imported).1)
      tee E0 (E0.find_exported_symbol spec.imported).2 hkeep hnoA hcoA hsoA
    refine ⟨⟨hnoB, hcoB, hsoB⟩, rfl, ?_⟩
    refine ⟨(E0.find_exported_symbol spec.imported).2, ?_⟩
    rw [lkp_setExt, if_pos rfl, hkeep]
    rfl

/-- Fold of external import steps over a spec list. -/
theorem inv_ext_import_fold (id0 tee : ModuleId) (specs : List ImportedSpecifier) :
    ∀ (st st' : LinkSt) (E0 : ExternalModule),
      InvM st.mods st.uf →
      lkp tee st.mods = some (NormOrExt.ext E0) →
      foldE (fun s sp => process_external_import s id0 tee sp) st specs =
        Except.ok st' →
      InvM st'.mods st'.uf ∧ st'.shim = st.shim := by
  induction specs with
  | nil =>
    intro st st' E0 h1 _ h3
    have hst : st = st' := Except.ok.inj h3
    rw [← hst]
    exact ⟨h1, rfl⟩
  | cons sp tail ih =>
    intro st st' E0 h1 hext h3
    unfold foldE at h3
    cases hstep : process_external_import st id0 tee sp with
    | error e =>
      rw [hstep] at h3
      exact Except.noConfusion h3
    | ok st1 =>
      rw [hstep] at h3
      obtain ⟨hI1, hSh1, E1, hKp⟩ :=
        inv_ext_import_step st st1 id0 tee sp E0 h1 hext hstep
      obtain ⟨hI2, hSh2⟩ := ih st1 st' E1 hI1 hKp h3
      exact ⟨hI2, hSh2.trans hSh1⟩

/-- One `(importee, specifier set)` pair of the imports pass preserves the
invariant. -/
theorem inv_import_pair (st st' : LinkSt) (id0 : ModuleId)
    (pr : ModuleId × List ImportedSpecifier)
    (hInv : InvM st.mods st.uf) (hsh : st.shim = false)
    (h : process_import_pair st id0 pr = Except.ok st') :
    InvM st'.mods st'.uf ∧ st'.shim = st.shim := by
  unfold process_import_pair at h
  by_cases hid : id0 = pr.1
  · rw [if_pos hid] at h
    rw [← hid] at h
    have hP := foldE_pres (fun s sp => process_self_import s id0 sp)
      (fun s => InvM s.mods s.uf ∧ s.shim = false)
      (sort_by_imported pr.2) st st' ?_ ⟨hInv, hsh⟩ h
    · exact ⟨hP.1, hP.2.trans hsh.symm⟩
    · intro s s2 sp _ hPs hstep
      obtain ⟨hI2, hSh2⟩ := inv_self_import_step s s2 id0 sp hPs.1 hPs.2 hstep
      exact ⟨hI2, hSh2.trans hPs.2⟩
  · rw [if_neg hid] at h
    cases hl : lkp pr.1 st.mods with
    | none =>
      rw [hl] at h
      exact Except.noConfusion h
    | some v =>
      rw [hl] at h
      cases v with
      | norm t =>
        have hP := foldE_pres (fun s sp => process_cross_import s id0 pr.1 sp)
          (fun s => InvM s.mods s.uf ∧ s.shim = false)
          pr.2 st st' ?_ ⟨hInv, hsh⟩ h
        · exact ⟨hP.1, hP.2.trans hsh.symm⟩
        · intro s s2 sp _ hPs hstep
          obtain ⟨hI2, hSh2⟩ :=
            inv_cross_import_step s s2 id0 pr.1 sp hPs.1 hPs.2 hid hstep
          exact ⟨hI2, hSh2.trans hPs.2⟩
      | ext E0 =>
        obtain ⟨hI2, hSh2⟩ :=
          inv_ext_import_fold id0 pr.1 pr.2 st st' E0 hInv hl h
        exact ⟨hI2, hSh2⟩

/-- The imports pass of one importer preserves the invariant. -/
theorem inv_link_imports_one (st st' : LinkSt) (id0 : ModuleId)
    (hInv : InvM st.mods st.uf) (hsh : st.shim = false)
    (h : link_imports_one st id0 = Except.ok st') :
    InvM st'.mods st'.uf ∧ st'.shim = st.shim := by
  unfold link_imports_one at h
  cases hbx : id0.external with
  | true =>
    rw [hbx] at h
    rw [if_pos rfl] at h
    have hst : st = st' := Except.ok.inj h
    rw [← hst]
    exact ⟨hInv, rfl⟩
  | false =>
    rw [hbx] at h
    rw [if_neg Bool.false_ne_true] at h
    cases hg : getNorm st.mods id0 with
    | none =>
      rw [hg] at h
      exact Except.noConfusion h
    | some M0 =>
      rw [hg] at h
      have hP := foldE_pres (fun s pr => process_import_pair s id0 pr)
        (fun s => InvM s.mods s.uf ∧ s.shim = false)
        M0.imports st st' ?_ ⟨hInv, hsh⟩ h
      · exact ⟨hP.1, hP.2.trans hsh.symm⟩
      · intro s s2 pr _ hPs hstep
        obtain ⟨hI2, hSh2⟩ := inv_import_pair s s2 id0 pr hPs.1 hPs.2 hstep
        exact ⟨hI2, hSh2.trans hPs.2⟩

/-- The whole imports pass preserves the invariant. -/
theorem inv_link_imports (order : List ModuleId) (st st' : LinkSt)
    (hInv : InvM st.mods st.uf) (hsh : st.shim = false)
    (h : link_imports st order = Except.ok st') :
    InvM st'.mods st'.uf := by
  have hP := foldE_pres link_imports_one
    (fun s => InvM s.mods s.uf ∧ s.shim = false)
    order st st' ?_ ⟨hInv, hsh⟩ h
  · exact hP.1
  · intro s s2 id0 _ hPs hstep
    obtain ⟨hI2, hSh2⟩ := inv_link_imports_one s s2 id0 hPs.1 hPs.2 hstep
    exact ⟨hI2, hSh2.trans hPs.2⟩

theorem insert_by_exec_order_perm (x : ModuleId × NormOrExt) :
    ∀ l : List (ModuleId × NormOrExt), (insert_by_exec_order x l).Perm (x :: l) := by
  intro l
  induction l with
  | nil => exact List.Perm.refl _
  | cons y ys ih =>
    unfold insert_by_exec_order
    by_cases hc : exec_order_le x.2.exec_order y.2.exec_order = true
    · rw [if_pos hc]
    · rw [if_neg hc]
      exact (List.Perm.cons y ih).trans (List.Perm.swap x y ys)

theorem foldr_insert_exec_perm (mods : ModuleById) :
    (mods.foldr insert_by_exec_order []).Perm mods := by
  induction mods with
  | nil => exact List.Perm.refl _
  | cons p rest ih =>
    simp only [List.foldr_cons]
    exact (insert_by_exec_order_perm p _).trans (List.Perm.cons p ih)

/-- The execution-ordered id list repeats no module when the module map has
distinct keys. -/
theorem order_modules_nodup (mods : ModuleById)
    (h : (mods.map Prod.fst).Nodup) : (order_modules mods).Nodup := by
  unfold order_modules
  exact ((foldr_insert_exec_perm mods).map Prod.fst).nodup_iff.mpr h

/-- Executable check of `entry_sound`. -/
def entry_sound_b (mods : ModuleById) (uf : UnionFind) (owner : ModuleId)
    (s : ImportedSpecifier) : Bool :=
  stored_ext_b mods owner ||
  (match getNorm mods owner with
   | none => false
   | some N =>
     match lkp s.imported N.linked_exports with
     | none => false
     | some e => uf.same s.imported_as e.local_id)

theorem entry_sound_b_iff (mods : ModuleById) (uf : UnionFind) (owner : ModuleId)
    (s : ImportedSpecifier) :
    entry_sound_b mods uf owner s = true ↔ entry_sound mods uf owner s := by
  unfold entry_sound_b entry_sound
  rw [Bool.or_eq_true, stored_ext_b_iff]
  have h2 : (match getNorm mods owner with
      | none => false
      | some N =>
        match lkp s.imported N.linked_exports with
        | none => false
        | some e => uf.same s.imported_as e.local_id) = true ↔
      ∃ N e, getNorm mods owner = some N ∧
        lkp s.imported N.linked_exports = some e ∧
        uf.same s.imported_as e.local_id = true := by
    cases hg : getNorm mods owner with
    | none =>
      simp only [Bool.false_eq_true, false_iff]
      intro ⟨N, e, hN, _⟩
      exact Option.noConfusion hN
    | some N =>
      cases hl : lkp s.imported N.linked_exports with
      | none =>
        dsimp only
        rw [hl]
        simp only [Bool.false_eq_true, false_iff]
        intro ⟨N2, e, hN2, hl2, _⟩
        have hh : N2 = N := (Option.some.inj hN2).symm
        rw [hh, hl] at hl2
        exact Option.noConfusion hl2
      | some e =>
        dsimp only
        rw [hl]
        constructor
        · intro hsame
          exact ⟨N, e, rfl, hl, hsame⟩
        · intro ⟨N2, e2, hN2, hl2, hsm⟩
          have hh : N2 = N := (Option.some.inj hN2).symm
          rw [hh, hl] at hl2
          have he : e2 = e := (Option.some.inj hl2).symm
          rw [he] at hsm
          exact hsm
  rw [h2]

/-- Executable check of link soundness restricted to one module. -/
def link_sound_b_on (st : LinkSt) (id : ModuleId) : Bool :=
  match getNorm st.mods id with
  | none => true
  | some N => N.linked_imports.all (fun p => entry_sound_b st.mods st.uf p.1 p.2)

theorem link_sound_on_of_link_sound (st : LinkSt) (id : ModuleId)
    (h : link_sound st) : link_sound_b_on st id = true := by
  unfold link_sound_b_on
  cases hg : getNorm st.mods id with
  | none => rfl
  | some N =>
    dsimp only
    apply List.all_eq_true.mpr
    intro p hp
    exact (entry_sound_b_iff st.mods st.uf p.1 p.2).mpr (h id N hg p hp)

/-- Concrete graph refuting C1 as stated when `shim_missing_exports` is
enabled: `/a` re-exports `{n}` from `/m` (which does not export `n`, so it
is shimmed and `/a` copies the shim binding), then `/m` re-exports
`{x as n}` from `/a`, overwriting its own shim entry, and finally
`/y` imports `n` from `/a`. -/
def c1m : ModuleId := ⟨"/m", false⟩

def c1a : ModuleId := ⟨"/a", false⟩

def c1y : ModuleId := ⟨"/y", false⟩

def c1Ma : NormalModule := ⟨c1a, [], [], [], [(c1m, [⟨"n", "n"⟩])], [], [], [],
  [("x", ⟨"x", ⟨c1a, "x", 0⟩, c1a⟩)], [], false, some 0, true, 1⟩

def c1Mm : NormalModule := ⟨c1m, [], [], [], [(c1a, [⟨"x", "n"⟩])], [], [], [], [], [],
  false, some 1, false, 0⟩

def c1My : NormalModule := ⟨c1y, [], [], [(c1a, [⟨"n", ⟨c1y, "n", 0⟩⟩])], [], [], [],
  [], [], [], false, some 2, false, 1⟩

def c1st : LinkSt := ⟨[(c1a, .norm c1Ma), (c1m, .norm c1Mm), (c1y, .norm c1My)],
  ⟨[]⟩, [], true⟩

/-- Counterexample to C1 as stated: on a well-formed graph with
`shim_missing_exports` enabled, `Graph::link` succeeds yet the final state
violates link soundness — `/y`'s linked import records owner `/m` for `n`
bound to the shimmed symbol, but `/m`'s own re-export pass later overwrote
its `n` entry with `/a`'s `x` binding, which was never unioned with `/y`'s
local symbol. -/
theorem link_soundness_counterexample :
    WF c1st.mods = true ∧ c1st.shim = true ∧
      ∃ st2, link c1st = Except.ok st2 ∧ ¬ link_sound st2 := by
  refine ⟨by decide, rfl, ?_⟩
  refine ⟨_, rfl, ?_⟩
  intro hs
  exact absurd (link_sound_on_of_link_sound _ c1y hs) (by decide)

/-- C1 (amended): link soundness holds when `shim_missing_exports` is
disabled. If the graph handed to `Graph::link` is well-formed — distinct
module ids, per-module distinct export names (current table keys plus
pending re-exported names), externally-collected wildcard targets stored
external, coherent seeded export entries, empty `linked_imports` — and
linking succeeds, then for every `ImportedSpecifier s` stored in any normal
module's `linked_imports` under key `owner`, either `owner` is an external
module, or `owner`'s `linked_exports` contains an entry for `s.imported`
whose `local_id` is union-find-equivalent to `s.imported_as`.  (As stated,
with shimming enabled, the claim is false: see
`link_soundness_counterexample`.) -/
theorem link_soundness (st st' : LinkSt)
    (hwf : WF st.mods = true) (hsh : st.shim = false)
    (h : link st = Except.ok st') : link_sound st' := by
  unfold link at h
  cases hx : link_exports st (order_modules st.mods) with
  | error e =>
    rw [hx] at h
    exact Except.noConfusion h
  | ok st1 =>
    rw [hx] at h
    have hInv0 : InvM st.mods st.uf := WF_InvM st.uf hwf
    have hpend : ∀ id ∈ order_modules st.mods, ∀ N, getNorm st.mods id = some N →
        ((N.linked_exports.map Prod.fst) ++ flatNames N.re_exported_ids).Nodup :=
      fun id _ N hN => (WF_node hwf hN).1
    have hnd := order_modules_nodup st.mods (WF_keys_nodup hwf)
    obtain ⟨hI1, hSh1, _⟩ :=
      inv_link_exports (order_modules st.mods) st st1 hInv0 hsh hpend hnd hx
    have hI2 := inv_link_imports (order_modules st.mods) st1 st' hI1
      (hSh1.trans hsh) h
    exact hI2.2.2

/-- Concrete sound run: `/wa` exports a local `x`, `/wy` imports it, and
shimming is disabled. -/
def c1wa : ModuleId := ⟨"/wa", false⟩

def c1wy : ModuleId := ⟨"/wy", false⟩

def c1wst : LinkSt := ⟨[
  (c1wa, .norm ⟨c1wa, [], [], [], [], [], [], [],
    [("x", ⟨"x", ⟨c1wa, "x", 0⟩, c1wa⟩)], [], false, some 0, true, 1⟩),
  (c1wy, .norm ⟨c1wy, [], [], [(c1wa, [⟨"x", ⟨c1wy, "x", 0⟩⟩])], [], [], [], [],
    [], [], false, some 1, false, 1⟩)],
  ⟨[]⟩, [], false⟩

/-- Witness for the amended C1 at a concrete well-formed graph with
shimming disabled. -/
theorem link_soundness_witness :
    WF c1wst.mods = true ∧ c1wst.shim = false ∧
      ∃ st2, link c1wst = Except.ok st2 ∧ link_sound st2 := by
  refine ⟨by decide, rfl, ?_⟩
  refine ⟨_, rfl, ?_⟩
  exact link_soundness c1wst _ (by decide) rfl rfl

end Rolldown
